import Mathlib

/-!
Verification of the place-recognition inverted index (`KeyFrameDatabase.cc`)

Shallow embedding of `ORB_SLAM2::KeyFrameDatabase` (M2SLAM client):
the inverted file with `add` / `erase` / `clear`, and the three detection
queries `DetectLoopCandidates`, `DetectLoopCandidatesInTopoMap` and
`DetectRelocalizationCandidates`.

Modelling conventions.

* A `KeyFrame *` is an address (`KFPtr`); the objects live in a `Heap`.
  Queries of the in-process variants write their scratch fields
  (`mnLoopQuery`, `mnLoopWords`, `mLoopScore`, ...) into the heap, so those
  functions return the heap after the call.
* `mvInvertedFile[w]` with `w` outside the vector is undefined behaviour in
  the source; the embedding returns `none` there.
* `float` values are rationals (`ℚ`).  The two places where the source
  computes with them, `accScore += pKF2->mLoopScore` and
  `0.75f * bestAccScore`, round to binary32 (round to nearest, ties to even,
  subnormal numbers included; overflow to infinity is not represented):
  `floatAdd` and `floatMul34`.  `int minCommonWords = maxCommonWords * 0.8f`
  is modelled with binary32 rounding too (`minCommonWordsOf`).
* `int` counters are `Int`; wrap-around of `mnLoopWords++` is not modelled.
* The vocabulary scorer `mpVoc->score`, `KeyFrame::GetConnectedKeyFrames`,
  `KeyFrame::GetBestCovisibilityKeyFrames` and the topological map are
  collaborators whose code is outside this file: they are parameters.
-/

namespace ORB_SLAM2

/-- Address of a `KeyFrame` object (`KeyFrame *`). -/
abbrev KFPtr := Nat

/-- Vocabulary word id (`DBoW2::WordId`). -/
abbrev WordId := Nat

/-- `DBoW2::BowVector` is a `std::map<WordId, WordValue>`; the list holds its
entries in iteration order. -/
abbrev BowVector := List (WordId × ℚ)

/-- The `std::map` invariant of a bag-of-words vector: keys strictly increasing
in iteration order (hence pairwise distinct). -/
def BowVector.wellFormed (b : BowVector) : Prop :=
  (b.map Prod.fst).Pairwise (fun a c => a < c)

instance (b : BowVector) : Decidable (BowVector.wellFormed b) := by
  unfold BowVector.wellFormed; infer_instance

/-- The word ids of a bag-of-words vector, in iteration order. -/
def BowVector.words (b : BowVector) : List WordId := b.map Prod.fst

/-- The fields of a `KeyFrame` object that `KeyFrameDatabase.cc` reads or writes. -/
structure KeyFrame where
  mnId : Nat
  mBowVec : BowVector
  mnLoopQuery : Nat
  mnLoopWords : Int
  mLoopScore : ℚ
  mnRelocQuery : Nat
  mnRelocWords : Int
  mRelocScore : ℚ

/-- The fields of a `Frame` read by `DetectRelocalizationCandidates`. -/
structure Frame where
  mnId : Nat
  mBowVec : BowVector

/-- The keyframe objects, by address. -/
abbrev Heap := KFPtr → KeyFrame

/-- Modelled from the spec: `LightKeyFrame` (declared in `LightKeyFrame.h`) is the spec's KeyframeIdentityRecord, an id plus either a live
reference or a "not currently resident" marker. -/
structure LightKeyFrame where
  mnId : Nat
  liveHandle : Option KFPtr
deriving DecidableEq, Repr

/-- Modelled from the spec: `LightKeyFrame(KeyFrame *pKF)` records the id of the
keyframe and a handle to it. -/
def LightKeyFrame.ofKeyFrame (heap : Heap) (pKF : KFPtr) : LightKeyFrame :=
  { mnId := (heap pKF).mnId, liveHandle := some pKF }

/-- Modelled from the spec: `LightKeyFrame::operator==`, equality by id alone. -/
def LightKeyFrame.eqv (a b : LightKeyFrame) : Bool := a.mnId == b.mnId

/-- Modelled from the spec: `LightKeyFrame::getKeyFrame()`, the live keyframe or
absent (a null pointer). -/
def LightKeyFrame.getKeyFrame (a : LightKeyFrame) : Option KFPtr := a.liveHandle

/-- The state of a `KeyFrameDatabase` object: `vocSize` is `mpVoc->size()`. -/
structure KeyFrameDatabase where
  vocSize : Nat
  mvInvertedFile : List (List LightKeyFrame)

/-- What a query leaves behind: the returned vector, the database object and the
keyframe objects after the call. -/
structure Outcome (α : Type) where
  ret : List α
  db : KeyFrameDatabase
  heap : Heap

/-- `KeyFrameDatabase::KeyFrameDatabase(voc)`: `mvInvertedFile.resize(voc.size())`. -/
def KeyFrameDatabase.new (vocSize : Nat) : KeyFrameDatabase :=
  { vocSize := vocSize, mvInvertedFile := List.replicate vocSize [] }

/-- The loop of `add` over the entries of `pKF->mBowVec`:
`mvInvertedFile[vit->first].push_back(tLKF)`. -/
def addLoop (tLKF : LightKeyFrame) :
    BowVector → List (List LightKeyFrame) → Option (List (List LightKeyFrame))
  | [], inv => some inv
  | (w, _) :: rest, inv =>
    match inv[w]? with
    | none => none
    | some l => addLoop tLKF rest (inv.set w (l ++ [tLKF]))

/-- `KeyFrameDatabase::add(pKF)`. -/
def KeyFrameDatabase.add (db : KeyFrameDatabase) (heap : Heap) (pKF : KFPtr) :
    Option KeyFrameDatabase :=
  (addLoop (LightKeyFrame.ofKeyFrame heap pKF) (heap pKF).mBowVec db.mvInvertedFile).map
    (fun inv => { db with mvInvertedFile := inv })

/-- The inner loop of `erase`: scan the list, erase the first record equal to
`tLKF` and stop. -/
def eraseFirst (tLKF : LightKeyFrame) : List LightKeyFrame → List LightKeyFrame
  | [] => []
  | x :: xs => if tLKF.eqv x then xs else x :: eraseFirst tLKF xs

/-- The outer loop of `erase` over the entries of `pKF->mBowVec`. -/
def eraseLoop (tLKF : LightKeyFrame) :
    BowVector → List (List LightKeyFrame) → Option (List (List LightKeyFrame))
  | [], inv => some inv
  | (w, _) :: rest, inv =>
    match inv[w]? with
    | none => none
    | some l => eraseLoop tLKF rest (inv.set w (eraseFirst tLKF l))

/-- `KeyFrameDatabase::erase(pKF)`. -/
def KeyFrameDatabase.erase (db : KeyFrameDatabase) (heap : Heap) (pKF : KFPtr) :
    Option KeyFrameDatabase :=
  (eraseLoop (LightKeyFrame.ofKeyFrame heap pKF) (heap pKF).mBowVec db.mvInvertedFile).map
    (fun inv => { db with mvInvertedFile := inv })

/-- `KeyFrameDatabase::clear()`: `mvInvertedFile.clear()` then
`mvInvertedFile.resize(mpVoc->size())`. -/
def KeyFrameDatabase.clear (db : KeyFrameDatabase) : KeyFrameDatabase :=
  { db with mvInvertedFile := List.replicate db.vocSize [] }

/-- Number of binary digits of `n`, by halving at most `fuel` times. -/
def bitLengthAux : Nat → Nat → Nat
  | 0, _ => 0
  | fuel + 1, n => if n = 0 then 0 else bitLengthAux fuel (n / 2) + 1

/-- Number of binary digits of `n` (`0` for `0`). -/
def bitLength (n : Nat) : Nat := bitLengthAux n n

/-- Round a natural number to 24 significant bits, ties to even: the value a
binary32 `float` takes when this integer (or this integer scaled by a power of
two) is rounded to nearest. -/
def roundBinary32 (n : Nat) : Nat :=
  let bits := bitLength n
  if bits ≤ 24 then n
  else
    let shift := bits - 24
    let q := n / 2 ^ shift
    let r := n % 2 ^ shift
    let half := 2 ^ (shift - 1)
    let q1 := if r > half ∨ (r = half ∧ q % 2 = 1) then q + 1 else q
    q1 * 2 ^ shift

/-- `int minCommonWords = maxCommonWords * 0.8f`: the `int` is converted to
`float`, multiplied by the binary32 constant `0.8f = 13421773 / 2^24`, the
product rounded to `float` and truncated.  `maxCommonWords` is never negative
(it starts at 0 and only grows). -/
def minCommonWordsOf (maxCommonWords : Int) : Int :=
  ((roundBinary32 (roundBinary32 maxCommonWords.toNat * 13421773) / 16777216 : Nat) : Int)

/-- The power `2^e` for an integer exponent `e`. -/
def pow2 (e : Int) : ℚ :=
  if 0 ≤ e then ((2 ^ e.toNat : Nat) : ℚ) else 1 / ((2 ^ (-e).toNat : Nat) : ℚ)

/-- The binary exponent of a positive rational `x`: the integer `e` with
`2^e ≤ x < 2^(e+1)`. -/
def floorLog2 (x : ℚ) : Int :=
  let d : Int := (bitLength x.num.toNat : Int) - (bitLength x.den : Int)
  if pow2 d ≤ x then d else d - 1

/-- Round a rational to the nearest integer, ties to the even one. -/
def roundHalfEven (z : ℚ) : Int :=
  let n := Int.floor z
  if z - n > 1 / 2 ∨ (z - n = 1 / 2 ∧ n % 2 = 1) then n + 1 else n

/-- The spacing of the binary32 numbers around `x`: `2^(e-23)` when
`2^e ≤ |x| < 2^(e+1)` (24 significant bits), and `2^-149` in the subnormal
range. -/
def floatUlp (x : ℚ) : ℚ := pow2 (max (floorLog2 |x| - 23) (-149))

/-- The binary32 `float` nearest to `x`, ties to even.  Magnitudes beyond the
largest `float` (overflow to infinity) are not represented. -/
def floatRound (x : ℚ) : ℚ := (roundHalfEven (x / floatUlp x) : ℚ) * floatUlp x

/-- The `float` sum `a + b` of `accScore += ...`.  In
`DetectLoopCandidatesInTopoMap` the right operand is the `double` held by the
local map, which is the `float si` converted exactly; the sum formed in
`double` and converted back to `float` is the binary32 sum (53 ≥ 2 * 24 + 2
bits), so one operation serves the three queries. -/
def floatAdd (a b : ℚ) : ℚ := floatRound (a + b)

/-- The `float` product `0.75f * x`; the constant `0.75f` is exactly 3/4. -/
def floatMul34 (x : ℚ) : ℚ := floatRound ((3 / 4 : ℚ) * x)

/-- Collaborators of the in-process queries: `KeyFrame::GetConnectedKeyFrames()`
(a `set<KeyFrame *>`, held as the list of its members) and
`KeyFrame::GetBestCovisibilityKeyFrames(N)`. -/
structure Covisibility where
  GetConnectedKeyFrames : KFPtr → List KFPtr
  GetBestCovisibilityKeyFrames : KFPtr → Nat → List KFPtr

/-- The topological-map collaborator `pKF->getCache()->mTopoMap`, addressed by
keyframe id. -/
structure TopoMap where
  GetConnectedKeyFrames : Nat → List Nat
  getKeyFrameBowVector : Nat → BowVector
  GetBestCovisibilityKeyFrames : Nat → Nat → List Nat

/-- The loop that computes `maxCommonWords` over `lKFsSharingWords`; `words`
reads the shared-word count of a candidate. -/
def maxCommonWordsLoop {α : Type} (words : α → Int) (l : List α) : Int :=
  l.foldl (fun m p => if words p > m then words p else m) 0

/-- One neighbour `pKF2` of the covisibility accumulation.  The state is
`(bestScore, accScore, pBestKF)`; `contributes` is the test guarding the
accumulation and `scoreOf` the stored score of the neighbour.
`accScore += ...` is the binary32 sum `floatAdd`. -/
def neighStep {α : Type} (contributes : α → Bool) (scoreOf : α → ℚ)
    (s : ℚ × ℚ × α) (pKF2 : α) : ℚ × ℚ × α :=
  if contributes pKF2 then
    if scoreOf pKF2 > s.1 then (scoreOf pKF2, floatAdd s.2.1 (scoreOf pKF2), pKF2)
    else (s.1, floatAdd s.2.1 (scoreOf pKF2), s.2.2)
  else s

/-- The pair `(accScore, pBestKF)` pushed to `lAccScoreAndMatch` for one entry
`it` of `lScoreAndMatch`. -/
def groupOf {α : Type} (neighs : α → List α) (contributes : α → Bool) (scoreOf : α → ℚ)
    (it : ℚ × α) : ℚ × α :=
  let r := (neighs it.2).foldl (neighStep contributes scoreOf) (it.1, it.1, it.2)
  (r.2.1, r.2.2)

/-- One iteration of the accumulation loop.  The state is
`(lAccScoreAndMatch, bestAccScore)`. -/
def accumulateStep {α : Type} (neighs : α → List α) (contributes : α → Bool)
    (scoreOf : α → ℚ) (s : List (ℚ × α) × ℚ) (it : ℚ × α) : List (ℚ × α) × ℚ :=
  let g := groupOf neighs contributes scoreOf it
  (s.1 ++ [g], if g.1 > s.2 then g.1 else s.2)

/-- The accumulation loop over `lScoreAndMatch`, with `bestAccScore` starting at
`seed`. -/
def accumulate {α : Type} (neighs : α → List α) (contributes : α → Bool)
    (scoreOf : α → ℚ) (seed : ℚ) (lScoreAndMatch : List (ℚ × α)) : List (ℚ × α) × ℚ :=
  lScoreAndMatch.foldl (accumulateStep neighs contributes scoreOf) ([], seed)

/-- One iteration of the final selection loop.  The state is
`(spAlreadyAddedKF, vpLoopCandidates)`. -/
def selectStep {α : Type} [DecidableEq α] (minScoreToRetain : ℚ)
    (s : List α × List α) (it : ℚ × α) : List α × List α :=
  if it.1 > minScoreToRetain then
    if it.2 ∉ s.1 then (it.2 :: s.1, s.2 ++ [it.2]) else s
  else s

/-- The final selection loop over `lAccScoreAndMatch`; returns the candidate
vector. -/
def selectLoop {α : Type} [DecidableEq α] (minScoreToRetain : ℚ)
    (lAccScoreAndMatch : List (ℚ × α)) : List α :=
  (lAccScoreAndMatch.foldl (selectStep minScoreToRetain) ([], [])).2

/-- The body of the gather loop of `DetectLoopCandidates` for one posting `lit`.
The state is `(heap, lKFsSharingWords)`; `qid` is `pKF->mnId`. -/
def loopGatherStep (qid : Nat) (spConnectedKeyFrames : List KFPtr)
    (s : Heap × List KFPtr) (lit : LightKeyFrame) : Heap × List KFPtr :=
  match lit.getKeyFrame with
  | none => s
  | some pKFi =>
    let s1 : Heap × List KFPtr :=
      if (s.1 pKFi).mnLoopQuery ≠ qid then
        let h1 : Heap := Function.update s.1 pKFi { s.1 pKFi with mnLoopWords := 0 }
        if pKFi ∉ spConnectedKeyFrames then
          (Function.update h1 pKFi { h1 pKFi with mnLoopQuery := qid }, s.2 ++ [pKFi])
        else (h1, s.2)
      else s
    (Function.update s1.1 pKFi
      { s1.1 pKFi with mnLoopWords := (s1.1 pKFi).mnLoopWords + 1 }, s1.2)

/-- The gather loop of `DetectLoopCandidates` over the words of the query. -/
def loopGather (inv : List (List LightKeyFrame)) (qid : Nat)
    (spConnectedKeyFrames : List KFPtr) :
    BowVector → Heap × List KFPtr → Option (Heap × List KFPtr)
  | [], s => some s
  | (w, _) :: rest, s =>
    match inv[w]? with
    | none => none
    | some lKFs =>
      loopGather inv qid spConnectedKeyFrames rest
        (lKFs.foldl (loopGatherStep qid spConnectedKeyFrames) s)

/-- The body of the scoring loop of `DetectLoopCandidates` for one candidate.
The state is `(heap, lScoreAndMatch)`.  The counter `nscores` is never read and
is left out, here and in the two other queries. -/
def loopScoreStep (score : BowVector → BowVector → ℚ) (qbow : BowVector) (minScore : ℚ)
    (minCommonWords : Int) (s : Heap × List (ℚ × KFPtr)) (pKFi : KFPtr) :
    Heap × List (ℚ × KFPtr) :=
  if (s.1 pKFi).mnLoopWords > minCommonWords then
    let si := score qbow (s.1 pKFi).mBowVec
    let h1 : Heap := Function.update s.1 pKFi { s.1 pKFi with mLoopScore := si }
    if si ≥ minScore then (h1, s.2 ++ [(si, pKFi)]) else (h1, s.2)
  else s

/-- `KeyFrameDatabase::DetectLoopCandidates(pKF, minScore)`.  `pKF->mnId` and
`pKF->mBowVec` are read once: the function never writes them. -/
def KeyFrameDatabase.DetectLoopCandidates (score : BowVector → BowVector → ℚ)
    (cov : Covisibility) (db : KeyFrameDatabase) (heap : Heap) (pKF : KFPtr)
    (minScore : ℚ) : Option (Outcome KFPtr) :=
  let qid := (heap pKF).mnId
  let qbow := (heap pKF).mBowVec
  let spConnectedKeyFrames := cov.GetConnectedKeyFrames pKF
  match loopGather db.mvInvertedFile qid spConnectedKeyFrames qbow (heap, []) with
  | none => none
  | some g =>
    if g.2.isEmpty then some ⟨[], db, g.1⟩
    else
      let maxCommonWords := maxCommonWordsLoop (fun p => (g.1 p).mnLoopWords) g.2
      let minCommonWords := minCommonWordsOf maxCommonWords
      let sc := g.2.foldl (loopScoreStep score qbow minScore minCommonWords) (g.1, [])
      if sc.2.isEmpty then some ⟨[], db, sc.1⟩
      else
        let acc := accumulate (fun p => cov.GetBestCovisibilityKeyFrames p 10)
          (fun p => decide ((sc.1 p).mnLoopQuery = qid)
            && decide ((sc.1 p).mnLoopWords > minCommonWords))
          (fun p => (sc.1 p).mLoopScore) minScore sc.2
        let minScoreToRetain := floatMul34 acc.2
        some ⟨selectLoop minScoreToRetain acc.1, db, sc.1⟩

/-- The body of the gather loop of `DetectLoopCandidatesInTopoMap` for one
posting.  The state is `(mLoopWords, lKFsSharingWords)`, the `std::map` held as
a partial function. -/
def topoGatherStep (spConnectedKeyFrames : List Nat)
    (s : (Nat → Option Int) × List Nat) (lit : LightKeyFrame) :
    (Nat → Option Int) × List Nat :=
  if lit.mnId ∉ spConnectedKeyFrames then
    let s1 : (Nat → Option Int) × List Nat :=
      if s.1 lit.mnId = none then
        (Function.update s.1 lit.mnId (some 0), s.2 ++ [lit.mnId])
      else s
    (Function.update s1.1 lit.mnId (some ((s1.1 lit.mnId).getD 0 + 1)), s1.2)
  else s

/-- The gather loop of `DetectLoopCandidatesInTopoMap` over the words of the
query. -/
def topoGather (inv : List (List LightKeyFrame)) (spConnectedKeyFrames : List Nat) :
    BowVector → (Nat → Option Int) × List Nat → Option ((Nat → Option Int) × List Nat)
  | [], s => some s
  | (w, _) :: rest, s =>
    match inv[w]? with
    | none => none
    | some lKFs =>
      topoGather inv spConnectedKeyFrames rest
        (lKFs.foldl (topoGatherStep spConnectedKeyFrames) s)

/-- The body of the scoring loop of `DetectLoopCandidatesInTopoMap`.  The state
is `(mLoopScore, lScoreAndMatch)`. -/
def topoScoreStep (score : BowVector → BowVector → ℚ) (topo : TopoMap) (qbow : BowVector)
    (minScore : ℚ) (mLoopWords : Nat → Option Int) (minCommonWords : Int)
    (s : (Nat → Option ℚ) × List (ℚ × Nat)) (id : Nat) :
    (Nat → Option ℚ) × List (ℚ × Nat) :=
  if (mLoopWords id).getD 0 > minCommonWords then
    let si := score qbow (topo.getKeyFrameBowVector id)
    let m1 : Nat → Option ℚ := Function.update s.1 id (some si)
    if si ≥ minScore then (m1, s.2 ++ [(si, id)]) else (m1, s.2)
  else s

/-- `KeyFrameDatabase::DetectLoopCandidatesInTopoMap(pKF, minScore)`.  Reads of
`mLoopWords[k]` and `mLoopScore[k]` are only made at keys that are present. -/
def KeyFrameDatabase.DetectLoopCandidatesInTopoMap (score : BowVector → BowVector → ℚ)
    (topo : TopoMap) (db : KeyFrameDatabase) (heap : Heap) (pKF : KFPtr)
    (minScore : ℚ) : Option (Outcome Nat) :=
  let qbow := (heap pKF).mBowVec
  let spConnectedKeyFrames := topo.GetConnectedKeyFrames (heap pKF).mnId
  match topoGather db.mvInvertedFile spConnectedKeyFrames qbow (fun _ => none, []) with
  | none => none
  | some g =>
    if g.2.isEmpty then some ⟨[], db, heap⟩
    else
      let maxCommonWords := maxCommonWordsLoop (fun id => (g.1 id).getD 0) g.2
      let minCommonWords := minCommonWordsOf maxCommonWords
      let sc := g.2.foldl (topoScoreStep score topo qbow minScore g.1 minCommonWords)
        (fun _ => none, [])
      if sc.2.isEmpty then some ⟨[], db, heap⟩
      else
        let acc := accumulate (fun id => topo.GetBestCovisibilityKeyFrames id 10)
          (fun id => (g.1 id).isSome && (sc.1 id).isSome
            && decide ((g.1 id).getD 0 > minCommonWords))
          (fun id => (sc.1 id).getD 0) minScore sc.2
        let minScoreToRetain := floatMul34 acc.2
        some ⟨selectLoop minScoreToRetain acc.1, db, heap⟩

/-- The body of the gather loop of `DetectRelocalizationCandidates` for one
posting.  The state is `(heap, lKFsSharingWords)`; `fid` is `F->mnId`. -/
def relocGatherStep (fid : Nat) (s : Heap × List KFPtr) (lit : LightKeyFrame) :
    Heap × List KFPtr :=
  match lit.getKeyFrame with
  | none => s
  | some pKFi =>
    let s1 : Heap × List KFPtr :=
      if (s.1 pKFi).mnRelocQuery ≠ fid then
        (Function.update s.1 pKFi { s.1 pKFi with mnRelocWords := 0, mnRelocQuery := fid },
          s.2 ++ [pKFi])
      else s
    (Function.update s1.1 pKFi
      { s1.1 pKFi with mnRelocWords := (s1.1 pKFi).mnRelocWords + 1 }, s1.2)

/-- The gather loop of `DetectRelocalizationCandidates` over the words of the
frame. -/
def relocGather (inv : List (List LightKeyFrame)) (fid : Nat) :
    BowVector → Heap × List KFPtr → Option (Heap × List KFPtr)
  | [], s => some s
  | (w, _) :: rest, s =>
    match inv[w]? with
    | none => none
    | some lKFs => relocGather inv fid rest (lKFs.foldl (relocGatherStep fid) s)

/-- The body of the scoring loop of `DetectRelocalizationCandidates`: every
candidate above `minCommonWords` is scored and kept. -/
def relocScoreStep (score : BowVector → BowVector → ℚ) (fbow : BowVector)
    (minCommonWords : Int) (s : Heap × List (ℚ × KFPtr)) (pKFi : KFPtr) :
    Heap × List (ℚ × KFPtr) :=
  if (s.1 pKFi).mnRelocWords > minCommonWords then
    let si := score fbow (s.1 pKFi).mBowVec
    (Function.update s.1 pKFi { s.1 pKFi with mRelocScore := si }, s.2 ++ [(si, pKFi)])
  else s

/-- `KeyFrameDatabase::DetectRelocalizationCandidates(F)`. -/
def KeyFrameDatabase.DetectRelocalizationCandidates (score : BowVector → BowVector → ℚ)
    (cov : Covisibility) (db : KeyFrameDatabase) (heap : Heap) (F : Frame) :
    Option (Outcome KFPtr) :=
  match relocGather db.mvInvertedFile F.mnId F.mBowVec (heap, []) with
  | none => none
  | some g =>
    if g.2.isEmpty then some ⟨[], db, g.1⟩
    else
      let maxCommonWords := maxCommonWordsLoop (fun p => (g.1 p).mnRelocWords) g.2
      let minCommonWords := minCommonWordsOf maxCommonWords
      let sc := g.2.foldl (relocScoreStep score F.mBowVec minCommonWords) (g.1, [])
      if sc.2.isEmpty then some ⟨[], db, sc.1⟩
      else
        let acc := accumulate (fun p => cov.GetBestCovisibilityKeyFrames p 10)
          (fun p => decide ((sc.1 p).mnRelocQuery = F.mnId))
          (fun p => (sc.1 p).mRelocScore) 0 sc.2
        let minScoreToRetain := floatMul34 acc.2
        some ⟨selectLoop minScoreToRetain acc.1, db, sc.1⟩

/-- A keyframe object with untouched scratch fields. -/
def sampleKeyFrame (id : Nat) (bow : BowVector) : KeyFrame :=
  { mnId := id, mBowVec := bow, mnLoopQuery := 0, mnLoopWords := 0, mLoopScore := 0,
    mnRelocQuery := 0, mnRelocWords := 0, mRelocScore := 0 }

/-- Keyframe objects of the running example: `A` (id 101, words 0 and 1) at
address 1, `B` (id 102, words 1 and 2) at address 2, the query `Q` (id 109,
word 1) at address 9 and a second query (id 108, word 3) at address 8. -/
def sampleHeap : Heap := fun p =>
  if p = 1 then sampleKeyFrame 101 [(0, 1), (1, 1)]
  else if p = 2 then sampleKeyFrame 102 [(1, 1), (2, 1)]
  else if p = 8 then sampleKeyFrame 108 [(3, 1)]
  else if p = 9 then sampleKeyFrame 109 [(1, 1)]
  else sampleKeyFrame 0 []

/-- Invariant of the gather of the identifier-addressed variant: neither a key of
`mLoopWords` nor a listed candidate is in the connected set. -/
def TopoGatherInv (conn : List Nat) (s : (Nat → Option Int) × List Nat) : Prop :=
  (∀ id, s.1 id ≠ none → id ∉ conn) ∧ (∀ id ∈ s.2, id ∉ conn)

/-- Invariant of the gather of `DetectLoopCandidates`: no connected keyframe
carries the tag of the running query, and no listed candidate is connected. -/
def LoopGatherInv (qid : Nat) (conn : List KFPtr) (s : Heap × List KFPtr) : Prop :=
  (∀ p ∈ conn, (s.1 p).mnLoopQuery ≠ qid) ∧ (∀ p ∈ s.2, p ∉ conn)

/-- A scorer for the examples: histogram intersection, the sum over the shared
words of the smaller of the two weights (symmetric, and within `[0, 1]` on
vectors whose weights sum to 1). -/
def sampleScore (a b : BowVector) : ℚ :=
  (a.map (fun e => ((b.filter (fun f => f.1 == e.1)).map (fun f => min e.2 f.2)).sum)).sum

/-- Keyframe objects of the revisit example, all with untouched scratch fields:
`A` (score 1/2 against `Q`) at address 1, `X` (score 1) at address 3, the query
`Q` at address 9. -/
def revisitHeap : Heap := fun p =>
  if p = 1 then sampleKeyFrame 101 [(0, 1 / 2), (1, 1 / 2)]
  else if p = 3 then sampleKeyFrame 103 [(1, 1)]
  else if p = 9 then sampleKeyFrame 109 [(1, 1)]
  else sampleKeyFrame 0 []

/-- Index of the revisit example at the first query: `X` only. -/
def revisitDb0 : KeyFrameDatabase :=
  { vocSize := 5, mvInvertedFile := [[], [⟨103, some 3⟩], [], [], []] }

/-- Index of the revisit example at the second query, after `add(A)`. -/
def revisitDb1 : KeyFrameDatabase :=
  { vocSize := 5,
    mvInvertedFile := [[⟨101, some 1⟩], [⟨103, some 3⟩, ⟨101, some 1⟩], [], [], []] }

/-- Covisibility of the revisit example at the second query: `X` is connected to
`Q` and is the only neighbour of `A`. -/
def revisitCov : Covisibility :=
  { GetConnectedKeyFrames := fun p => if p = 9 then [3] else [],
    GetBestCovisibilityKeyFrames := fun p _ => if p = 1 then [3] else [] }

/-- Keyframe objects of the threshold example: `A`, `B`, `C`, `N` at addresses
1, 2, 3, 4 with scores 1/2, 5/8, 5/8, 3/8 against the query `Q` at address 9. -/
def thresholdHeap : Heap := fun p =>
  if p = 1 then sampleKeyFrame 101 [(1, 1 / 2), (2, 1 / 2)]
  else if p = 2 then sampleKeyFrame 102 [(1, 5 / 8), (2, 3 / 8)]
  else if p = 3 then sampleKeyFrame 103 [(1, 5 / 8), (2, 3 / 8)]
  else if p = 4 then sampleKeyFrame 104 [(1, 3 / 8), (2, 5 / 8)]
  else if p = 9 then sampleKeyFrame 109 [(1, 1)]
  else sampleKeyFrame 0 []

/-- Index of the threshold example after `add` of `A`, `N`, `B`, `C` in this
order: all four keyframes under words 1 and 2. -/
def thresholdDb : KeyFrameDatabase :=
  { vocSize := 5,
    mvInvertedFile :=
      [[], [⟨101, some 1⟩, ⟨104, some 4⟩, ⟨102, some 2⟩, ⟨103, some 3⟩],
        [⟨101, some 1⟩, ⟨104, some 4⟩, ⟨102, some 2⟩, ⟨103, some 3⟩], [], []] }

/-- Covisibility of the threshold example: nothing is connected to `Q`, and `N`
is the only neighbour of `A`. -/
def thresholdCov : Covisibility :=
  { GetConnectedKeyFrames := fun _ => [],
    GetBestCovisibilityKeyFrames := fun p _ => if p = 1 then [4] else [] }

/-- Index of vocabulary size 5 after `add(A)` and `add(B)`. -/
def sampleDb : KeyFrameDatabase :=
  { vocSize := 5,
    mvInvertedFile :=
      [[⟨101, some 1⟩], [⟨101, some 1⟩, ⟨102, some 2⟩], [⟨102, some 2⟩], [], []] }

/-- Index of vocabulary size 5 holding `B` only. -/
def sampleDbB : KeyFrameDatabase :=
  { vocSize := 5, mvInvertedFile := [[], [⟨102, some 2⟩], [⟨102, some 2⟩], [], []] }

/-- Covisibility with no connection and no neighbour. -/
def sampleCov : Covisibility :=
  { GetConnectedKeyFrames := fun _ => [], GetBestCovisibilityKeyFrames := fun _ _ => [] }

/-- Covisibility in which `B` is connected to `Q` and is the only neighbour of `A`. -/
def connectedCov : Covisibility :=
  { GetConnectedKeyFrames := fun p => if p = 9 then [2] else [],
    GetBestCovisibilityKeyFrames := fun p _ => if p = 1 then [2] else [] }

/-- Topological map in which id 102 is connected to id 109 and is the only
neighbour of id 101. -/
def connectedTopo : TopoMap :=
  { GetConnectedKeyFrames := fun id => if id = 109 then [102] else [],
    getKeyFrameBowVector := fun id =>
      if id = 101 then [(0, 1), (1, 1)] else if id = 102 then [(1, 1), (2, 1)] else [],
    GetBestCovisibilityKeyFrames := fun id _ => if id = 101 then [102] else [] }

/-- Covisibility in which the keyframe at address 2 is the only neighbour of
the keyframes at addresses 1 and 4. -/
def sharedCov : Covisibility :=
  { GetConnectedKeyFrames := fun _ => [],
    GetBestCovisibilityKeyFrames := fun p _ => if p = 1 then [2] else if p = 4 then [2] else [] }

/-- A query frame with the single word 1. -/
def sampleFrame : Frame := { mnId := 7, mBowVec := [(1, 1)] }

/-- The postings a gather walks through: the lists of the words of the query, one
after the other, in iteration order. -/
def visitedPostings (inv : List (List LightKeyFrame)) : BowVector → List LightKeyFrame
  | [] => []
  | (w, _) :: rest => inv.getD w [] ++ visitedPostings inv rest

/-- The elements of a list in the order of their first occurrence, each once. -/
def firstOccurrences {α : Type} [DecidableEq α] (l : List α) : List α :=
  l.foldl (fun acc x => if x ∈ acc then acc else acc ++ [x]) []

/-- The live keyframes of a list of postings, in order. -/
def liveHandles (l : List LightKeyFrame) : List KFPtr := l.filterMap LightKeyFrame.getKeyFrame

/-- The ids of a list of postings, in order. -/
def postingIds (l : List LightKeyFrame) : List Nat := l.map LightKeyFrame.mnId

/-- Reference form of Stages B to E of the spec's ranking pipeline, on an explicit
candidate list with explicit shared-word counts and scores, all scratch state
being local to the call: word-overlap filter, `minScore` filter, covisibility
accumulation over the neighbours that are candidates above `minCommon`, and the
selection above `0.75f * bestAccScore`, with the binary32 sum and product of the
source. -/
def rankReference {α : Type} [DecidableEq α] (neighs : α → List α) (scoreOf : α → ℚ)
    (words : α → Int) (minScore : ℚ) (cands : List α) : List α :=
  if cands.isEmpty then []
  else
    let minCommon := minCommonWordsOf (maxCommonWordsLoop words cands)
    let seeds := ((cands.filter (fun p => decide (words p > minCommon))).map
      (fun p => (scoreOf p, p))).filter (fun it => decide (it.1 ≥ minScore))
    if seeds.isEmpty then []
    else
      let acc := accumulate neighs
        (fun p => decide (p ∈ cands) && decide (words p > minCommon)) scoreOf minScore seeds
      selectLoop (floatMul34 acc.2) acc.1

/-- The value of `minCommonWords` in `DetectLoopCandidates` for the gather result `g`. -/
def loopMinCommonWords (g : Heap × List KFPtr) : Int :=
  minCommonWordsOf (maxCommonWordsLoop (fun p => (g.1 p).mnLoopWords) g.2)

/-- The value of `minCommonWords` in `DetectLoopCandidatesInTopoMap` for the gather
result `g`. -/
def topoMinCommonWords (g : (Nat → Option Int) × List Nat) : Int :=
  minCommonWordsOf (maxCommonWordsLoop (fun id => (g.1 id).getD 0) g.2)

/-- The value of `minCommonWords` in `DetectRelocalizationCandidates` for the gather
result `g`. -/
def relocMinCommonWords (g : Heap × List KFPtr) : Int :=
  minCommonWordsOf (maxCommonWordsLoop (fun p => (g.1 p).mnRelocWords) g.2)

/-- The result `(heap, lScoreAndMatch)` of the scoring loop of `DetectLoopCandidates`
for the gather result `g`. -/
def loopScored (score : BowVector → BowVector → ℚ) (qbow : BowVector) (minScore : ℚ)
    (g : Heap × List KFPtr) : Heap × List (ℚ × KFPtr) :=
  g.2.foldl (loopScoreStep score qbow minScore (loopMinCommonWords g)) (g.1, [])

/-- The result `(mLoopScore, lScoreAndMatch)` of the scoring loop of
`DetectLoopCandidatesInTopoMap` for the gather result `g`. -/
def topoScored (score : BowVector → BowVector → ℚ) (topo : TopoMap) (qbow : BowVector)
    (minScore : ℚ) (g : (Nat → Option Int) × List Nat) : (Nat → Option ℚ) × List (ℚ × Nat) :=
  g.2.foldl (topoScoreStep score topo qbow minScore g.1 (topoMinCommonWords g))
    (fun _ => none, [])

/-- The result `(heap, lScoreAndMatch)` of the scoring loop of
`DetectRelocalizationCandidates` for the gather result `g`. -/
def relocScored (score : BowVector → BowVector → ℚ) (fbow : BowVector)
    (g : Heap × List KFPtr) : Heap × List (ℚ × KFPtr) :=
  g.2.foldl (relocScoreStep score fbow (relocMinCommonWords g)) (g.1, [])

/-- The pair `(accScore, pBestKF)` that `DetectLoopCandidates` pushes to
`lAccScoreAndMatch` for the entry `it`, on the keyframe objects `h` left by the
scoring loop. -/
def loopGroupOf (cov : Covisibility) (qid : Nat) (minCommonWords : Int) (h : Heap)
    (it : ℚ × KFPtr) : ℚ × KFPtr :=
  groupOf (fun p => cov.GetBestCovisibilityKeyFrames p 10)
    (fun p => decide ((h p).mnLoopQuery = qid) && decide ((h p).mnLoopWords > minCommonWords))
    (fun p => (h p).mLoopScore) it

/-- The pair `(accScore, pBestKF)` that `DetectLoopCandidatesInTopoMap` pushes to
`lAccScoreAndMatch` for the entry `it`. -/
def topoGroupOf (topo : TopoMap) (minCommonWords : Int) (mLoopWords : Nat → Option Int)
    (mLoopScore : Nat → Option ℚ) (it : ℚ × Nat) : ℚ × Nat :=
  groupOf (fun id => topo.GetBestCovisibilityKeyFrames id 10)
    (fun id => (mLoopWords id).isSome && (mLoopScore id).isSome
      && decide ((mLoopWords id).getD 0 > minCommonWords))
    (fun id => (mLoopScore id).getD 0) it

/-- The pair `(accScore, pBestKF)` that `DetectRelocalizationCandidates` pushes to
`lAccScoreAndMatch` for the entry `it`, on the keyframe objects `h` left by the
scoring loop. -/
def relocGroupOf (cov : Covisibility) (fid : Nat) (h : Heap) (it : ℚ × KFPtr) : ℚ × KFPtr :=
  groupOf (fun p => cov.GetBestCovisibilityKeyFrames p 10)
    (fun p => decide ((h p).mnRelocQuery = fid)) (fun p => (h p).mRelocScore) it

/-- Keyframe objects of the relocalization example: `A` at address 1 with words
1, 2, 3 and `N` at address 4 with word 1 only. -/
def relocHeap : Heap := fun p =>
  if p = 1 then sampleKeyFrame 101 [(1, 1 / 4), (2, 1 / 4), (3, 1 / 2)]
  else if p = 4 then sampleKeyFrame 104 [(1, 1)]
  else sampleKeyFrame 0 []

/-- Index of the relocalization example after `add(A)` and `add(N)`. -/
def relocDb : KeyFrameDatabase :=
  { vocSize := 5,
    mvInvertedFile :=
      [[], [⟨101, some 1⟩, ⟨104, some 4⟩], [⟨101, some 1⟩], [⟨101, some 1⟩], []] }

/-- Earlier frame of the relocalization example: word 1 only. -/
def relocFrame0 : Frame := { mnId := 6, mBowVec := [(1, 1)] }

/-- Later frame of the relocalization example: words 1 and 2. -/
def relocFrame : Frame := { mnId := 7, mBowVec := [(1, 1 / 2), (2, 1 / 2)] }

/-- The statements of the member functions that touch `mMutex` or
`mvInvertedFile`, the two members shared between threads. -/
inductive Stmt where
  /-- `unique_lock<mutex> lock(mMutex);` -/
  | lock
  /-- The end of the scope of `lock`. -/
  | unlock
  /-- `mvInvertedFile[w].push_back(tLKF);` -/
  | pushBack (w : WordId) (tLKF : LightKeyFrame)
  /-- The scan of `mvInvertedFile[w]` in `erase` that erases the first record
  equal to `tLKF`. -/
  | eraseScan (w : WordId) (tLKF : LightKeyFrame)
  /-- `mvInvertedFile.clear();` -/
  | clearVector
  /-- `mvInvertedFile.resize(n);` -/
  | resize (n : Nat)
  /-- The walk over `mvInvertedFile[w]` in the gather of a query. -/
  | walk (w : WordId)
deriving DecidableEq, Repr

/-- Statements of `KeyFrameDatabase::add(pKF)` (lines 38-46), in order. -/
def addStmts (heap : Heap) (pKF : KFPtr) : List Stmt :=
  [Stmt.lock] ++ (heap pKF).mBowVec.map
    (fun e => Stmt.pushBack e.1 (LightKeyFrame.ofKeyFrame heap pKF)) ++ [Stmt.unlock]

/-- Statements of `KeyFrameDatabase::erase(pKF)` (lines 48-65), in order. -/
def eraseStmts (heap : Heap) (pKF : KFPtr) : List Stmt :=
  [Stmt.lock] ++ (heap pKF).mBowVec.map
    (fun e => Stmt.eraseScan e.1 (LightKeyFrame.ofKeyFrame heap pKF)) ++ [Stmt.unlock]

/-- Statements of `KeyFrameDatabase::clear()` (lines 67-70), in order. -/
def clearStmts (vocSize : Nat) : List Stmt :=
  [Stmt.clearVector, Stmt.resize vocSize]

/-- Statements of the gather block of a query with bag-of-words vector `bow`
(lines 79-101, 201-223, 316-335), in order. -/
def gatherStmts (bow : BowVector) : List Stmt :=
  [Stmt.lock] ++ bow.map (fun e => Stmt.walk e.1) ++ [Stmt.unlock]

/-- A function body holds the mutex for its entire duration: its first statement
takes the lock, its last statement is the end of the lock's scope, and no
statement in between touches the mutex. -/
def lockedThroughout : List Stmt → Bool
  | Stmt.lock :: rest =>
    match rest.reverse with
    | Stmt.unlock :: mid => mid.all (fun s => decide (s ≠ Stmt.lock ∧ s ≠ Stmt.unlock))
    | _ => false
  | _ => false

/-- The members shared between threads: the owner of `mMutex` (a thread number,
if locked) and `mvInvertedFile`. -/
structure Shared where
  owner : Option Nat
  mvInvertedFile : List (List LightKeyFrame)
deriving DecidableEq, Repr

/-- What one statement of a thread does. -/
inductive StepResult where
  /-- The thread waits for the mutex. -/
  | blocked
  /-- The statement indexes `mvInvertedFile` past its end. -/
  | outOfRange
  /-- The statement completes, with the posting list it walked (if any). -/
  | done (s : Shared) (seen : Option (List LightKeyFrame))
deriving DecidableEq, Repr

/-- Thread `t` executes one statement on the shared members.  Only `lock` looks at
the mutex: the other statements access `mvInvertedFile` whoever owns it. -/
def execStmt (t : Nat) (s : Shared) : Stmt → StepResult
  | Stmt.lock =>
    if s.owner = none then StepResult.done { s with owner := some t } none
    else StepResult.blocked
  | Stmt.unlock => StepResult.done { s with owner := none } none
  | Stmt.pushBack w tLKF =>
    match s.mvInvertedFile[w]? with
    | none => StepResult.outOfRange
    | some l =>
      StepResult.done { s with mvInvertedFile := s.mvInvertedFile.set w (l ++ [tLKF]) } none
  | Stmt.eraseScan w tLKF =>
    match s.mvInvertedFile[w]? with
    | none => StepResult.outOfRange
    | some l =>
      StepResult.done
        { s with mvInvertedFile := s.mvInvertedFile.set w (eraseFirst tLKF l) } none
  | Stmt.clearVector => StepResult.done { s with mvInvertedFile := [] } none
  | Stmt.resize n =>
    StepResult.done
      { s with mvInvertedFile :=
          s.mvInvertedFile.take n ++ List.replicate (n - s.mvInvertedFile.length) [] } none
  | Stmt.walk w =>
    match s.mvInvertedFile[w]? with
    | none => StepResult.outOfRange
    | some l => StepResult.done s (some l)

/-- A function body run by one thread with no other thread active: the final
`mvInvertedFile`, or `none` when a statement blocks or indexes out of range. -/
def runAlone : List Stmt → Shared → Option (List (List LightKeyFrame))
  | [], s => some s.mvInvertedFile
  | st :: rest, s =>
    match execStmt 0 s st with
    | StepResult.done s1 _ => runAlone rest s1
    | _ => none

/-- How an interleaving of two threads ends. -/
inductive RunResult where
  /-- The scheduled thread waits for the mutex: the schedule is not possible. -/
  | blocked
  /-- Thread `t` indexes `mvInvertedFile` past its end in state `s`. -/
  | outOfRange (t : Nat) (s : Shared)
  /-- The schedule is exhausted: shared members and posting lists walked so far. -/
  | finished (s : Shared) (seen : List (List LightKeyFrame))
deriving DecidableEq, Repr

/-- Two threads with statement lists `p.1` (thread 0) and `p.2` (thread 1) run
under a schedule: `false` lets thread 0 execute its next statement, `true`
thread 1. -/
def runSchedule : List Bool → List Stmt × List Stmt → Shared → List (List LightKeyFrame) →
    RunResult
  | [], _, s, seen => RunResult.finished s seen
  | false :: rest, ([], p1), s, seen => runSchedule rest ([], p1) s seen
  | false :: rest, (st :: p0, p1), s, seen =>
    match execStmt 0 s st with
    | StepResult.blocked => RunResult.blocked
    | StepResult.outOfRange => RunResult.outOfRange 0 s
    | StepResult.done s1 obs => runSchedule rest (p0, p1) s1 (seen ++ obs.toList)
  | true :: rest, (p0, []), s, seen => runSchedule rest (p0, []) s seen
  | true :: rest, (p0, st :: p1), s, seen =>
    match execStmt 1 s st with
    | StepResult.blocked => RunResult.blocked
    | StepResult.outOfRange => RunResult.outOfRange 1 s
    | StepResult.done s1 obs => runSchedule rest (p0, p1) s1 (seen ++ obs.toList)

/-- The value of `bestAccScore` after the accumulation loop has pushed the pairs
`groups`: it starts at `seed` and is replaced by each `accScore` greater than it. -/
def bestAccScoreLoop {α : Type} (seed : ℚ) (groups : List (ℚ × α)) : ℚ :=
  groups.foldl (fun b g => if g.1 > b then g.1 else b) seed

/-- Reference form of the spec's `bestAccScore`: the maximum of the seed and all
group scores. -/
def specBestAccScore {α : Type} (seed : ℚ) (groups : List (ℚ × α)) : ℚ :=
  (groups.map Prod.fst).foldr max seed

/-- Reference form of the spec's final selection: the representatives of the pairs
whose group score strictly exceeds the exact product `0.75 * bestAccScore`, each
at its first occurrence. -/
def specSelection {α : Type} [DecidableEq α] (seed : ℚ) (groups : List (ℚ × α)) : List α :=
  firstOccurrences ((groups.filter
    (fun g => decide (g.1 > (3 / 4 : ℚ) * specBestAccScore seed groups))).map Prod.snd)

/-- The final selection with the threshold the source computes, the binary32
product `0.75f * bestAccScore`: the representatives of the pairs whose group
score strictly exceeds it, each at its first occurrence. -/
def roundedSelection {α : Type} [DecidableEq α] (seed : ℚ) (groups : List (ℚ × α)) : List α :=
  firstOccurrences ((groups.filter
    (fun g => decide (g.1 > floatMul34 (specBestAccScore seed groups)))).map Prod.snd)

/-- The list `lAccScoreAndMatch` of `DetectLoopCandidates` for the gather result `g`. -/
def loopGroups (score : BowVector → BowVector → ℚ) (cov : Covisibility) (qid : Nat)
    (qbow : BowVector) (minScore : ℚ) (g : Heap × List KFPtr) : List (ℚ × KFPtr) :=
  (loopScored score qbow minScore g).2.map
    (loopGroupOf cov qid (loopMinCommonWords g) (loopScored score qbow minScore g).1)

/-- The list `lAccScoreAndMatch` of `DetectLoopCandidatesInTopoMap` for the gather
result `g`. -/
def topoGroups (score : BowVector → BowVector → ℚ) (topo : TopoMap) (qbow : BowVector)
    (minScore : ℚ) (g : (Nat → Option Int) × List Nat) : List (ℚ × Nat) :=
  (topoScored score topo qbow minScore g).2.map
    (topoGroupOf topo (topoMinCommonWords g) g.1 (topoScored score topo qbow minScore g).1)

/-- The list `lAccScoreAndMatch` of `DetectRelocalizationCandidates` for the gather
result `g`. -/
def relocGroups (score : BowVector → BowVector → ℚ) (cov : Covisibility) (fid : Nat)
    (fbow : BowVector) (g : Heap × List KFPtr) : List (ℚ × KFPtr) :=
  (relocScored score fbow g).2.map (relocGroupOf cov fid (relocScored score fbow g).1)

/-- Keyframe objects of the boundary example: `A` at address 1 scoring 1 and `B` at
address 2 scoring 3/4 against the query `Q` at address 9. -/
def boundaryHeap : Heap := fun p =>
  if p = 1 then sampleKeyFrame 101 [(1, 1)]
  else if p = 2 then sampleKeyFrame 102 [(1, 3 / 4), (2, 1 / 4)]
  else if p = 9 then sampleKeyFrame 109 [(1, 1)]
  else sampleKeyFrame 0 []

/-- Index of the boundary example after `add(A)` and `add(B)`. -/
def boundaryDb : KeyFrameDatabase :=
  { vocSize := 5,
    mvInvertedFile := [[], [⟨101, some 1⟩, ⟨102, some 2⟩], [⟨102, some 2⟩], [], []] }

/-- What the gather of `DetectLoopCandidates` keeps whatever tags the keyframes
carry on entry: stored scores are untouched, a keyframe tagged by the query is
a listed candidate or was tagged on entry, and every listed candidate is tagged
and has a positive word count. -/
def LoopGatherStale (qid : Nat) (h0 : Heap) (s : Heap × List KFPtr) : Prop :=
  (∀ p, (s.1 p).mLoopScore = (h0 p).mLoopScore) ∧
  (∀ p, (s.1 p).mnLoopQuery = qid → p ∈ s.2 ∨ (h0 p).mnLoopQuery = qid) ∧
  (∀ p ∈ s.2, (s.1 p).mnLoopQuery = qid ∧ 1 ≤ (s.1 p).mnLoopWords)

/-- Keyframe objects of the word-overlap example: `A` at address 1 with words 1, 2,
3, `N` at address 4 with word 1 only, and the query `Q` at address 9 with words
1 and 2. -/
def filterHeap : Heap := fun p =>
  if p = 1 then sampleKeyFrame 101 [(1, 1 / 4), (2, 1 / 4), (3, 1 / 2)]
  else if p = 4 then sampleKeyFrame 104 [(1, 1)]
  else if p = 9 then sampleKeyFrame 109 [(1, 1 / 2), (2, 1 / 2)]
  else sampleKeyFrame 0 []

/-- Keyframe objects of the rounding example: `A` at address 1 scoring `1 + 2^-23`
and `B` at address 2 scoring `3/4 + 2^-23` against the query `Q` at address 9. -/
def roundingHeap : Heap := fun p =>
  if p = 1 then sampleKeyFrame 101 [(1, 1 + 1 / 2 ^ 23)]
  else if p = 2 then sampleKeyFrame 102 [(1, 3 / 4 + 1 / 2 ^ 23), (2, 1 / 4)]
  else if p = 9 then sampleKeyFrame 109 [(1, 2)]
  else sampleKeyFrame 0 []

/-- The constant scorer 1. -/
def unitScore (_ _ : BowVector) : ℚ := 1

/-- Keyframe objects of the stale-score example: `A` at address 1 with untouched
scratch fields, its neighbour `N` at address 4, which shares no word with the
query but carries the tag of the query `Q` (id 109) with a word count of 5 and
the stored score -10, and `Q` at address 9. -/
def staleHeap : Heap := fun p =>
  if p = 1 then sampleKeyFrame 101 [(1, 1)]
  else if p = 4 then
    { mnId := 104, mBowVec := [(3, 1)], mnLoopQuery := 109, mnLoopWords := 5,
      mLoopScore := -10, mnRelocQuery := 0, mnRelocWords := 0, mRelocScore := 0 }
  else if p = 9 then sampleKeyFrame 109 [(1, 1)]
  else sampleKeyFrame 0 []

/-- Index of the stale-score example: `A` under word 1 and `N` under word 3. -/
def staleDb : KeyFrameDatabase :=
  { vocSize := 5, mvInvertedFile := [[], [⟨101, some 1⟩], [], [⟨104, some 4⟩], []] }

/-- Keyframe objects of the subnormal example: `A` at address 1 scoring `2^-149`,
the smallest positive binary32 number, against the query `Q` at address 9. -/
def tinyHeap : Heap := fun p =>
  if p = 1 then sampleKeyFrame 101 [(1, 1 / 2 ^ 149)]
  else if p = 9 then sampleKeyFrame 109 [(1, 1)]
  else sampleKeyFrame 0 []

theorem addLoop_spec (t : LightKeyFrame) :
    ∀ (bow : BowVector) (inv : List (List LightKeyFrame)),
      (∀ w ∈ bow.words, w < inv.length) →
      ∃ inv', addLoop t bow inv = some inv' ∧ inv'.length = inv.length ∧
        ∀ w l, inv[w]? = some l →
          inv'[w]? = some (l ++ List.replicate (bow.words.count w) t) := by
  intro bow
  induction bow with
  | nil =>
    intro inv _
    exact ⟨inv, rfl, rfl, by intro w l h; simpa [BowVector.words] using h⟩
  | cons e rest ih =>
    obtain ⟨w0, x0⟩ := e
    intro inv hr
    have hw0 : w0 < inv.length := hr w0 (by simp [BowVector.words])
    have hget : inv[w0]? = some inv[w0] := List.getElem?_eq_getElem hw0
    have hr' : ∀ w ∈ BowVector.words rest, w < (inv.set w0 (inv[w0] ++ [t])).length := by
      intro w hw
      rw [List.length_set]
      exact hr w (by simp [BowVector.words] at hw ⊢; exact Or.inr hw)
    obtain ⟨inv', h1, h2, h3⟩ := ih (inv.set w0 (inv[w0] ++ [t])) hr'
    refine ⟨inv', ?_, ?_, ?_⟩
    · simp only [addLoop, hget]; exact h1
    · rw [h2, List.length_set]
    · intro w l hl
      by_cases hw : w0 = w
      · subst hw
        have hl0 : l = inv[w0] := by rw [hget] at hl; exact (Option.some.inj hl).symm
        have := h3 w0 (inv[w0] ++ [t]) (by simp [List.getElem?_set, hw0])
        rw [this, hl0]
        simp [BowVector.words, List.replicate_succ]
      · have := h3 w l (by rw [List.getElem?_set_ne hw]; exact hl)
        rw [this]
        have hne : (w0 == w) = false := by simpa using hw
        simp [BowVector.words, List.count_cons, hne]


theorem eraseLoop_spec (t : LightKeyFrame) :
    ∀ (bow : BowVector) (inv : List (List LightKeyFrame)),
      (∀ w ∈ bow.words, w < inv.length) →
      ∃ inv', eraseLoop t bow inv = some inv' ∧ inv'.length = inv.length ∧
        ∀ w l, inv[w]? = some l →
          inv'[w]? = some ((eraseFirst t)^[bow.words.count w] l) := by
  intro bow
  induction bow with
  | nil =>
    intro inv _
    exact ⟨inv, rfl, rfl, by intro w l h; simpa [BowVector.words] using h⟩
  | cons e rest ih =>
    obtain ⟨w0, x0⟩ := e
    intro inv hr
    have hw0 : w0 < inv.length := hr w0 (by simp [BowVector.words])
    have hget : inv[w0]? = some inv[w0] := List.getElem?_eq_getElem hw0
    have hr' : ∀ w ∈ BowVector.words rest, w < (inv.set w0 (eraseFirst t inv[w0])).length := by
      intro w hw
      rw [List.length_set]
      exact hr w (by simp [BowVector.words] at hw ⊢; exact Or.inr hw)
    obtain ⟨inv', h1, h2, h3⟩ := ih (inv.set w0 (eraseFirst t inv[w0])) hr'
    refine ⟨inv', ?_, ?_, ?_⟩
    · simp only [eraseLoop, hget]; exact h1
    · rw [h2, List.length_set]
    · intro w l hl
      by_cases hw : w0 = w
      · subst hw
        have hl0 : l = inv[w0] := by rw [hget] at hl; exact (Option.some.inj hl).symm
        have := h3 w0 (eraseFirst t inv[w0]) (by simp [List.getElem?_set, hw0])
        rw [this, hl0]
        simp [BowVector.words, Function.iterate_succ_apply]
      · have := h3 w l (by rw [List.getElem?_set_ne hw]; exact hl)
        rw [this]
        have hne : (w0 == w) = false := by simpa using hw
        simp [BowVector.words, List.count_cons, hne]

theorem wellFormed_nodup {b : BowVector} (h : b.wellFormed) : b.words.Nodup := by
  unfold BowVector.wellFormed at h
  unfold BowVector.words List.Nodup
  exact h.imp (fun hlt => Nat.ne_of_lt hlt)

theorem count_words_of_wellFormed {b : BowVector} (h : b.wellFormed) (w : WordId) :
    b.words.count w = if w ∈ b.words then 1 else 0 := by
  split
  · next hm => exact List.count_eq_one_of_mem (wellFormed_nodup h) hm
  · next hm => exact List.count_eq_zero_of_not_mem hm

theorem eraseFirst_of_absent (t : LightKeyFrame) :
    ∀ l : List LightKeyFrame, (∀ x ∈ l, x.mnId ≠ t.mnId) → eraseFirst t l = l := by
  intro l
  induction l with
  | nil => intro _; rfl
  | cons x xs ih =>
    intro h
    have hx : t.eqv x = false := by
      have := h x (by simp)
      simp [LightKeyFrame.eqv]; exact fun e => this e.symm
    simp only [eraseFirst, hx]
    rw [ih (fun y hy => h y (by simp [hy]))]
    simp

theorem eraseFirst_split (t : LightKeyFrame) :
    ∀ l : List LightKeyFrame, (∃ x ∈ l, x.mnId = t.mnId) →
      ∃ l1 r l2, l = l1 ++ r :: l2 ∧ r.mnId = t.mnId ∧ (∀ x ∈ l1, x.mnId ≠ t.mnId) ∧
        eraseFirst t l = l1 ++ l2 := by
  intro l
  induction l with
  | nil => intro h; obtain ⟨x, hx, _⟩ := h; simp at hx
  | cons x xs ih =>
    intro h
    by_cases hx : x.mnId = t.mnId
    · refine ⟨[], x, xs, rfl, hx, by simp, ?_⟩
      simp [eraseFirst, LightKeyFrame.eqv, hx]
    · have h' : ∃ y ∈ xs, y.mnId = t.mnId := by
        obtain ⟨y, hy, hyt⟩ := h
        rcases List.mem_cons.1 hy with rfl | hy'
        · exact absurd hyt hx
        · exact ⟨y, hy', hyt⟩
      obtain ⟨l1, r, l2, e1, e2, e3, e4⟩ := ih h'
      refine ⟨x :: l1, r, l2, by rw [e1]; rfl, e2, ?_, ?_⟩
      · intro y hy
        rcases List.mem_cons.1 hy with rfl | hy'
        · exact hx
        · exact e3 y hy'
      · have hxe : t.eqv x = false := by
          simp [LightKeyFrame.eqv]; exact fun e => hx e.symm
        simp [eraseFirst, hxe, e4]

theorem sum_length_set_append (t : LightKeyFrame) :
    ∀ (inv : List (List LightKeyFrame)) (w : Nat) (l : List LightKeyFrame),
      inv[w]? = some l →
      ((inv.set w (l ++ [t])).map List.length).sum = (inv.map List.length).sum + 1 := by
  intro inv
  induction inv with
  | nil => intro w l h; simp at h
  | cons a as ih =>
    intro w l h
    cases w with
    | zero =>
      simp at h
      subst h
      simp; omega
    | succ n =>
      simp at h
      have := ih n l h
      simp only [List.set_cons_succ, List.map_cons, List.sum_cons, this]; omega

theorem addLoop_total (t : LightKeyFrame) :
    ∀ (bow : BowVector) (inv inv' : List (List LightKeyFrame)),
      addLoop t bow inv = some inv' →
      (inv'.map List.length).sum = (inv.map List.length).sum + bow.length := by
  intro bow
  induction bow with
  | nil => intro inv inv' h; simp [addLoop] at h; subst h; simp
  | cons e rest ih =>
    obtain ⟨w0, x0⟩ := e
    intro inv inv' h
    simp only [addLoop] at h
    cases hg : inv[w0]? with
    | none => rw [hg] at h; simp at h
    | some l =>
      rw [hg] at h
      have := ih _ _ h
      rw [this, sum_length_set_append t inv w0 l hg]
      simp; omega


theorem add_spec (db : KeyFrameDatabase) (heap : Heap) (pKF : KFPtr)
    (hwf : (heap pKF).mBowVec.wellFormed)
    (hrange : ∀ w ∈ (heap pKF).mBowVec.words, w < db.mvInvertedFile.length) :
    ∃ db1, db.add heap pKF = some db1 ∧ db1.vocSize = db.vocSize ∧
      db1.mvInvertedFile.length = db.mvInvertedFile.length ∧
      ∀ w l, db.mvInvertedFile[w]? = some l →
        db1.mvInvertedFile[w]? =
          some (if w ∈ (heap pKF).mBowVec.words then l ++ [LightKeyFrame.ofKeyFrame heap pKF]
            else l) := by
  obtain ⟨inv', h1, h2, h3⟩ :=
    addLoop_spec (LightKeyFrame.ofKeyFrame heap pKF) (heap pKF).mBowVec db.mvInvertedFile hrange
  refine ⟨{ db with mvInvertedFile := inv' }, by simp [KeyFrameDatabase.add, h1], rfl, h2, ?_⟩
  intro w l hl
  have := h3 w l hl
  rw [count_words_of_wellFormed hwf] at this
  simp only [this]
  split <;> simp

theorem erase_spec (db : KeyFrameDatabase) (heap : Heap) (pKF : KFPtr)
    (hwf : (heap pKF).mBowVec.wellFormed)
    (hrange : ∀ w ∈ (heap pKF).mBowVec.words, w < db.mvInvertedFile.length) :
    ∃ db1, db.erase heap pKF = some db1 ∧ db1.vocSize = db.vocSize ∧
      db1.mvInvertedFile.length = db.mvInvertedFile.length ∧
      ∀ w l, db.mvInvertedFile[w]? = some l →
        db1.mvInvertedFile[w]? =
          some (if w ∈ (heap pKF).mBowVec.words
            then eraseFirst (LightKeyFrame.ofKeyFrame heap pKF) l else l) := by
  obtain ⟨inv', h1, h2, h3⟩ :=
    eraseLoop_spec (LightKeyFrame.ofKeyFrame heap pKF) (heap pKF).mBowVec db.mvInvertedFile hrange
  refine ⟨{ db with mvInvertedFile := inv' }, by simp [KeyFrameDatabase.erase, h1], rfl, h2, ?_⟩
  intro w l hl
  have := h3 w l hl
  rw [count_words_of_wellFormed hwf] at this
  simp only [this]
  split <;> simp

theorem db_ext_of_getElem (db db1 : KeyFrameDatabase) (hv : db1.vocSize = db.vocSize)
    (hl : db1.mvInvertedFile.length = db.mvInvertedFile.length)
    (h : ∀ (w : Nat) (l : List LightKeyFrame),
      db.mvInvertedFile[w]? = some l → db1.mvInvertedFile[w]? = some l) :
    db1 = db := by
  obtain ⟨v, inv⟩ := db
  obtain ⟨v1, inv1⟩ := db1
  simp only at hv hl h
  subst hv
  congr 1
  apply List.ext_getElem? 
  intro n
  by_cases hn : n < inv.length
  · rw [h n inv[n] (List.getElem?_eq_getElem hn)]
    exact (List.getElem?_eq_getElem hn).symm
  · rw [List.getElem?_eq_none (by omega), List.getElem?_eq_none (by omega)]

/-- Claim C1 (add postcondition).  For an index with `vocSize` posting lists and a
keyframe whose bag-of-words vector is a well-formed map with all words below
`vocSize`, `add` succeeds; the number of posting lists is unchanged; the list of
every word of the keyframe gets exactly one record of the keyframe appended at
its end and every other list is unchanged; the total number of postings grows by
the number of words; a second `add` leaves two records at the end of each of
those lists; and if the id was in no list before, afterwards a list holds the id
exactly when its word is a word of the keyframe. -/
theorem add_postcondition (db : KeyFrameDatabase) (heap : Heap) (pKF : KFPtr)
    (hlen : db.mvInvertedFile.length = db.vocSize)
    (hwf : (heap pKF).mBowVec.wellFormed)
    (hrange : ∀ w ∈ (heap pKF).mBowVec.words, w < db.vocSize) :
    ∃ db1, db.add heap pKF = some db1 ∧
      db1.mvInvertedFile.length = db.mvInvertedFile.length ∧
      (∀ w l, db.mvInvertedFile[w]? = some l →
        db1.mvInvertedFile[w]? =
          some (if w ∈ (heap pKF).mBowVec.words then l ++ [LightKeyFrame.ofKeyFrame heap pKF]
            else l)) ∧
      (db1.mvInvertedFile.map List.length).sum
        = (db.mvInvertedFile.map List.length).sum + (heap pKF).mBowVec.length ∧
      (∃ db2, db1.add heap pKF = some db2 ∧
        ∀ w l, db.mvInvertedFile[w]? = some l →
          db2.mvInvertedFile[w]? =
            some (if w ∈ (heap pKF).mBowVec.words
              then l ++ [LightKeyFrame.ofKeyFrame heap pKF, LightKeyFrame.ofKeyFrame heap pKF]
              else l)) ∧
      ((∀ l ∈ db.mvInvertedFile, ∀ r ∈ l, r.mnId ≠ (heap pKF).mnId) →
        ∀ w l1, db1.mvInvertedFile[w]? = some l1 →
          ((∃ r ∈ l1, r.mnId = (heap pKF).mnId) ↔ w ∈ (heap pKF).mBowVec.words)) := by
  have hrange' : ∀ w ∈ (heap pKF).mBowVec.words, w < db.mvInvertedFile.length := by
    rw [hlen]; exact hrange
  obtain ⟨db1, h1, hv1, hl1, hs1⟩ := add_spec db heap pKF hwf hrange'
  obtain ⟨db2, h2, _, _, hs2⟩ := add_spec db1 heap pKF hwf (by rw [hl1]; exact hrange')
  refine ⟨db1, h1, hl1, hs1, ?_, ⟨db2, h2, ?_⟩, ?_⟩
  · simp only [KeyFrameDatabase.add, Option.map_eq_some'] at h1
    obtain ⟨inv', ha, hb⟩ := h1
    subst hb
    exact addLoop_total _ _ _ _ ha
  · intro w l hl
    rw [hs2 w _ (hs1 w l hl)]
    split <;> simp
  · intro hfresh w l1 hl1'
    have hw : w < db.mvInvertedFile.length := by
      rw [← hl1]; exact (List.getElem?_eq_some.1 hl1').1
    have h0 := hs1 w db.mvInvertedFile[w] (List.getElem?_eq_getElem hw)
    rw [hl1'] at h0
    have h0' := Option.some.inj h0
    have hfr : ∀ r ∈ db.mvInvertedFile[w], r.mnId ≠ (heap pKF).mnId :=
      hfresh _ (List.getElem_mem hw)
    by_cases hm : w ∈ (heap pKF).mBowVec.words
    · simp only [hm, iff_true]
      refine ⟨LightKeyFrame.ofKeyFrame heap pKF, ?_, rfl⟩
      rw [h0']; simp [hm]
    · simp only [hm, iff_false]
      rintro ⟨r, hr, hrid⟩
      rw [h0'] at hr
      simp only [hm, if_false] at hr
      exact hfr r hr hrid

/-- Claim C1 at the running example: `add(A)` on the index holding `B`. -/
theorem add_postcondition_witness :
    (sampleHeap 1).mBowVec.wellFormed ∧
    (∀ w ∈ (sampleHeap 1).mBowVec.words, w < sampleDbB.vocSize) ∧
    ∃ db1, sampleDbB.add sampleHeap 1 = some db1 ∧
      db1.mvInvertedFile.length = sampleDbB.mvInvertedFile.length ∧
      (db1.mvInvertedFile.map List.length).sum
        = (sampleDbB.mvInvertedFile.map List.length).sum + (sampleHeap 1).mBowVec.length := by
  obtain ⟨db1, h1, h2, _, h4, _⟩ :=
    add_postcondition sampleDbB sampleHeap 1 (by decide) (by decide) (by decide)
  exact ⟨by decide, by decide, db1, h1, h2, h4⟩

theorem eraseFirst_filter_ne (t : LightKeyFrame) :
    ∀ l : List LightKeyFrame,
      (eraseFirst t l).filter (fun x => decide (x.mnId ≠ t.mnId))
        = l.filter (fun x => decide (x.mnId ≠ t.mnId)) := by
  intro l
  induction l with
  | nil => rfl
  | cons x xs ih =>
    by_cases hx : x.mnId = t.mnId
    · simp [eraseFirst, LightKeyFrame.eqv, hx]
    · have hxe : t.eqv x = false := by
        simp [LightKeyFrame.eqv]; exact fun e => hx e.symm
      simp only [eraseFirst, hxe, Bool.false_eq_true, if_false, List.filter_cons, ih]

/-- Claim C2 (erase postcondition).  For an index with `vocSize` posting lists and a
keyframe with well-formed, in-range words, `erase` succeeds; the number of lists
is unchanged; lists of other words are unchanged; in the list of each word of the
keyframe either no record has the keyframe's id and the list is unchanged, or the
first record with that id is removed and the records before and after it keep
their order; records of other ids are untouched; and if none of those lists
holds the id, the whole index is unchanged. -/
theorem erase_postcondition (db : KeyFrameDatabase) (heap : Heap) (pKF : KFPtr)
    (hlen : db.mvInvertedFile.length = db.vocSize)
    (hwf : (heap pKF).mBowVec.wellFormed)
    (hrange : ∀ w ∈ (heap pKF).mBowVec.words, w < db.vocSize) :
    ∃ db1, db.erase heap pKF = some db1 ∧
      db1.mvInvertedFile.length = db.mvInvertedFile.length ∧
      (∀ w l, db.mvInvertedFile[w]? = some l → w ∉ (heap pKF).mBowVec.words →
        db1.mvInvertedFile[w]? = some l) ∧
      (∀ w l, db.mvInvertedFile[w]? = some l → w ∈ (heap pKF).mBowVec.words →
        ∃ l', db1.mvInvertedFile[w]? = some l' ∧
          (((∀ x ∈ l, x.mnId ≠ (heap pKF).mnId) ∧ l' = l) ∨
            (∃ l1 r l2, l = l1 ++ r :: l2 ∧ r.mnId = (heap pKF).mnId ∧
              (∀ x ∈ l1, x.mnId ≠ (heap pKF).mnId) ∧ l' = l1 ++ l2)) ∧
          l'.filter (fun x => decide (x.mnId ≠ (heap pKF).mnId))
            = l.filter (fun x => decide (x.mnId ≠ (heap pKF).mnId))) ∧
      ((∀ w ∈ (heap pKF).mBowVec.words, ∀ l, db.mvInvertedFile[w]? = some l →
          ∀ x ∈ l, x.mnId ≠ (heap pKF).mnId) → db1 = db) := by
  have hrange' : ∀ w ∈ (heap pKF).mBowVec.words, w < db.mvInvertedFile.length := by
    rw [hlen]; exact hrange
  obtain ⟨db1, h1, hv1, hl1, hs1⟩ := erase_spec db heap pKF hwf hrange'
  refine ⟨db1, h1, hl1, ?_, ?_, ?_⟩
  · intro w l hl hw
    rw [hs1 w l hl]; simp [hw]
  · intro w l hl hw
    refine ⟨eraseFirst (LightKeyFrame.ofKeyFrame heap pKF) l, ?_, ?_, ?_⟩
    · rw [hs1 w l hl]; simp [hw]
    · by_cases hex : ∃ x ∈ l, x.mnId = (heap pKF).mnId
      · right
        exact eraseFirst_split (LightKeyFrame.ofKeyFrame heap pKF) l hex
      · left
        have hno : ∀ x ∈ l, x.mnId ≠ (heap pKF).mnId := fun x hx e => hex ⟨x, hx, e⟩
        exact ⟨hno, eraseFirst_of_absent (LightKeyFrame.ofKeyFrame heap pKF) l hno⟩
    · exact eraseFirst_filter_ne (LightKeyFrame.ofKeyFrame heap pKF) l
  · intro habsent
    apply db_ext_of_getElem db db1 hv1 hl1
    intro w l hl
    rw [hs1 w l hl]
    by_cases hw : w ∈ (heap pKF).mBowVec.words
    · simp only [hw, if_true]
      rw [eraseFirst_of_absent (LightKeyFrame.ofKeyFrame heap pKF) l (habsent w hw l hl)]
    · simp [hw]

/-- Claim C2 at the running example: `erase(A)` on the index holding `A` and `B`. -/
theorem erase_postcondition_witness :
    (sampleHeap 1).mBowVec.wellFormed ∧
    (∀ w ∈ (sampleHeap 1).mBowVec.words, w < sampleDb.vocSize) ∧
    ∃ db1, sampleDb.erase sampleHeap 1 = some db1 ∧
      db1.mvInvertedFile.length = sampleDb.mvInvertedFile.length ∧
      db1.mvInvertedFile[2]? = some [⟨102, some 2⟩] := by
  obtain ⟨db1, h1, h2, h3, _⟩ :=
    erase_postcondition sampleDb sampleHeap 1 (by decide) (by decide) (by decide)
  exact ⟨by decide, by decide, db1, h1, h2, h3 2 [⟨102, some 2⟩] (by decide) (by decide)⟩

theorem eraseFirst_append_self (t : LightKeyFrame) :
    ∀ l : List LightKeyFrame, (∀ x ∈ l, x.mnId ≠ t.mnId) → eraseFirst t (l ++ [t]) = l := by
  intro l
  induction l with
  | nil => intro _; simp [eraseFirst, LightKeyFrame.eqv]
  | cons x xs ih =>
    intro h
    have hxe : t.eqv x = false := by
      have := h x (by simp)
      simp [LightKeyFrame.eqv]; exact fun e => this e.symm
    have := ih (fun y hy => h y (by simp [hy]))
    show eraseFirst t (x :: (xs ++ [t])) = x :: xs
    simp only [eraseFirst, hxe, Bool.false_eq_true, if_false, this]

/-- Claim C3 (add then erase).  If the keyframe's id is in no posting list, then
`add` followed by `erase` of the same keyframe succeeds and gives back exactly
the index before the `add`; in particular the id is again in no posting list. -/
theorem add_then_erase (db : KeyFrameDatabase) (heap : Heap) (pKF : KFPtr)
    (hlen : db.mvInvertedFile.length = db.vocSize)
    (hwf : (heap pKF).mBowVec.wellFormed)
    (hrange : ∀ w ∈ (heap pKF).mBowVec.words, w < db.vocSize)
    (hfresh : ∀ l ∈ db.mvInvertedFile, ∀ r ∈ l, r.mnId ≠ (heap pKF).mnId) :
    ∃ db1 db2, db.add heap pKF = some db1 ∧ db1.erase heap pKF = some db2 ∧ db2 = db ∧
      ∀ l ∈ db2.mvInvertedFile, ∀ r ∈ l, r.mnId ≠ (heap pKF).mnId := by
  have hrange' : ∀ w ∈ (heap pKF).mBowVec.words, w < db.mvInvertedFile.length := by
    rw [hlen]; exact hrange
  obtain ⟨db1, h1, hv1, hl1, hs1⟩ := add_spec db heap pKF hwf hrange'
  obtain ⟨db2, h2, hv2, hl2, hs2⟩ := erase_spec db1 heap pKF hwf (by rw [hl1]; exact hrange')
  have heq : db2 = db := by
    apply db_ext_of_getElem db db2 (hv2.trans hv1) (hl2.trans hl1)
    intro w l hl
    rw [hs2 w _ (hs1 w l hl)]
    have hfr : ∀ r ∈ l, r.mnId ≠ (LightKeyFrame.ofKeyFrame heap pKF).mnId :=
      hfresh l (List.getElem?_mem hl)
    by_cases hw : w ∈ (heap pKF).mBowVec.words
    · simp only [hw, if_true]
      rw [eraseFirst_append_self _ l hfr]
    · simp [hw]
  exact ⟨db1, db2, h1, h2, heq, by rw [heq]; exact hfresh⟩

/-- Claim C3 at the running example: `add(A)` then `erase(A)` on the index holding `B`. -/
theorem add_then_erase_witness :
    (∀ l ∈ sampleDbB.mvInvertedFile, ∀ r ∈ l, r.mnId ≠ (sampleHeap 1).mnId) ∧
    ∃ db1 db2, sampleDbB.add sampleHeap 1 = some db1 ∧ db1.erase sampleHeap 1 = some db2 ∧
      db2 = sampleDbB :=
  ⟨by decide,
    (add_then_erase sampleDbB sampleHeap 1 (by decide) (by decide) (by decide)
      (by decide)).imp fun _ h => h.imp fun _ h2 => ⟨h2.1, h2.2.1, h2.2.2.1⟩⟩

/-- Claim C4 (clear resets).  After `clear` the index has exactly `vocSize` posting
lists, every one of them empty, it equals a freshly constructed index, and an
`add` of a keyframe with in-range words succeeds on it with the same result as
on the fresh index: each word of the keyframe holds the one new record. -/
theorem clear_resets (db : KeyFrameDatabase) (heap : Heap) (pKF : KFPtr)
    (hwf : (heap pKF).mBowVec.wellFormed)
    (hrange : ∀ w ∈ (heap pKF).mBowVec.words, w < db.vocSize) :
    db.clear.mvInvertedFile.length = db.vocSize ∧
      (∀ l ∈ db.clear.mvInvertedFile, l = []) ∧
      db.clear = KeyFrameDatabase.new db.vocSize ∧
      ∃ db1, db.clear.add heap pKF = some db1 ∧
        (KeyFrameDatabase.new db.vocSize).add heap pKF = some db1 ∧
        db1.mvInvertedFile.length = db.vocSize ∧
        ∀ w, w < db.vocSize → db1.mvInvertedFile[w]? =
          some (if w ∈ (heap pKF).mBowVec.words then [LightKeyFrame.ofKeyFrame heap pKF]
            else []) := by
  have hc : db.clear = KeyFrameDatabase.new db.vocSize := rfl
  have hl : db.clear.mvInvertedFile.length = db.vocSize := by
    simp [KeyFrameDatabase.clear]
  refine ⟨hl, ?_, hc, ?_⟩
  · intro l hmem
    simp only [KeyFrameDatabase.clear] at hmem
    exact List.eq_of_mem_replicate hmem
  · obtain ⟨db1, h1, _, hl1, hs1⟩ :=
      add_spec db.clear heap pKF hwf (by rw [hl]; exact hrange)
    refine ⟨db1, h1, by rw [← hc]; exact h1, by rw [hl1, hl], ?_⟩
    intro w hw
    have hg : db.clear.mvInvertedFile[w]? = some [] := by
      simp [KeyFrameDatabase.clear, List.getElem?_replicate, hw]
    rw [hs1 w [] hg]
    simp

/-- Claim C4 at the running example. -/
theorem clear_resets_witness :
    (∀ w ∈ (sampleHeap 1).mBowVec.words, w < sampleDb.vocSize) ∧
    sampleDb.clear.mvInvertedFile.length = sampleDb.vocSize ∧
    (∀ l ∈ sampleDb.clear.mvInvertedFile, l = []) ∧
    sampleDb.clear = KeyFrameDatabase.new sampleDb.vocSize :=
  have h := clear_resets sampleDb sampleHeap 1 (by decide) (by decide)
  ⟨by decide, h.1, h.2.1, h.2.2.1⟩

open KeyFrameDatabase

theorem loopGather_total (inv : List (List LightKeyFrame)) (qid : Nat) (conn : List KFPtr) :
    ∀ (bow : BowVector) (s : Heap × List KFPtr), (∀ w ∈ bow.words, w < inv.length) →
      ∃ g, loopGather inv qid conn bow s = some g := by
  intro bow
  induction bow with
  | nil => intro s _; exact ⟨s, rfl⟩
  | cons e rest ih =>
    obtain ⟨w0, x0⟩ := e
    intro s hr
    have hw0 : w0 < inv.length := hr w0 (by simp [BowVector.words])
    simp only [loopGather, List.getElem?_eq_getElem hw0]
    exact ih _ (fun w hw => hr w (by simp [BowVector.words] at hw ⊢; exact Or.inr hw))

theorem topoGather_total (inv : List (List LightKeyFrame)) (conn : List Nat) :
    ∀ (bow : BowVector) (s : (Nat → Option Int) × List Nat),
      (∀ w ∈ bow.words, w < inv.length) →
      ∃ g, topoGather inv conn bow s = some g := by
  intro bow
  induction bow with
  | nil => intro s _; exact ⟨s, rfl⟩
  | cons e rest ih =>
    obtain ⟨w0, x0⟩ := e
    intro s hr
    have hw0 : w0 < inv.length := hr w0 (by simp [BowVector.words])
    simp only [topoGather, List.getElem?_eq_getElem hw0]
    exact ih _ (fun w hw => hr w (by simp [BowVector.words] at hw ⊢; exact Or.inr hw))

theorem relocGather_total (inv : List (List LightKeyFrame)) (fid : Nat) :
    ∀ (bow : BowVector) (s : Heap × List KFPtr), (∀ w ∈ bow.words, w < inv.length) →
      ∃ g, relocGather inv fid bow s = some g := by
  intro bow
  induction bow with
  | nil => intro s _; exact ⟨s, rfl⟩
  | cons e rest ih =>
    obtain ⟨w0, x0⟩ := e
    intro s hr
    have hw0 : w0 < inv.length := hr w0 (by simp [BowVector.words])
    simp only [relocGather, List.getElem?_eq_getElem hw0]
    exact ih _ (fun w hw => hr w (by simp [BowVector.words] at hw ⊢; exact Or.inr hw))

/-- The shape of a `DetectLoopCandidates` call once the gather has succeeded. -/
theorem DetectLoopCandidates_of_gather (score : BowVector → BowVector → ℚ)
    (cov : Covisibility) (db : KeyFrameDatabase) (heap : Heap) (pKF : KFPtr) (minScore : ℚ)
    (g : Heap × List KFPtr)
    (hg : loopGather db.mvInvertedFile (heap pKF).mnId (cov.GetConnectedKeyFrames pKF)
      (heap pKF).mBowVec (heap, []) = some g) :
    ∃ o, DetectLoopCandidates score cov db heap pKF minScore = some o ∧ o.db = db ∧
      o.ret =
        (if g.2.isEmpty then []
         else
          let minCommonWords :=
            minCommonWordsOf (maxCommonWordsLoop (fun p => (g.1 p).mnLoopWords) g.2)
          let sc := g.2.foldl
            (loopScoreStep score (heap pKF).mBowVec minScore minCommonWords) (g.1, [])
          if sc.2.isEmpty then []
          else
            let acc := accumulate (fun p => cov.GetBestCovisibilityKeyFrames p 10)
              (fun p => decide ((sc.1 p).mnLoopQuery = (heap pKF).mnId)
                && decide ((sc.1 p).mnLoopWords > minCommonWords))
              (fun p => (sc.1 p).mLoopScore) minScore sc.2
            selectLoop (floatMul34 acc.2) acc.1) := by
  simp only [DetectLoopCandidates, hg]
  split
  · exact ⟨_, rfl, rfl, rfl⟩
  · split
    · exact ⟨_, rfl, rfl, rfl⟩
    · exact ⟨_, rfl, rfl, rfl⟩

/-- The shape of a `DetectLoopCandidatesInTopoMap` call once the gather has succeeded. -/
theorem DetectLoopCandidatesInTopoMap_of_gather (score : BowVector → BowVector → ℚ)
    (topo : TopoMap) (db : KeyFrameDatabase) (heap : Heap) (pKF : KFPtr) (minScore : ℚ)
    (g : (Nat → Option Int) × List Nat)
    (hg : topoGather db.mvInvertedFile (topo.GetConnectedKeyFrames (heap pKF).mnId)
      (heap pKF).mBowVec (fun _ => none, []) = some g) :
    ∃ o, DetectLoopCandidatesInTopoMap score topo db heap pKF minScore = some o ∧ o.db = db ∧
      o.heap = heap ∧
      o.ret =
        (if g.2.isEmpty then []
         else
          let minCommonWords :=
            minCommonWordsOf (maxCommonWordsLoop (fun id => (g.1 id).getD 0) g.2)
          let sc := g.2.foldl
            (topoScoreStep score topo (heap pKF).mBowVec minScore g.1 minCommonWords)
            (fun _ => none, [])
          if sc.2.isEmpty then []
          else
            let acc := accumulate (fun id => topo.GetBestCovisibilityKeyFrames id 10)
              (fun id => (g.1 id).isSome && (sc.1 id).isSome
                && decide ((g.1 id).getD 0 > minCommonWords))
              (fun id => (sc.1 id).getD 0) minScore sc.2
            selectLoop (floatMul34 acc.2) acc.1) := by
  simp only [DetectLoopCandidatesInTopoMap, hg]
  split
  · exact ⟨_, rfl, rfl, rfl, rfl⟩
  · split
    · exact ⟨_, rfl, rfl, rfl, rfl⟩
    · exact ⟨_, rfl, rfl, rfl, rfl⟩

/-- The shape of a `DetectRelocalizationCandidates` call once the gather has succeeded. -/
theorem DetectRelocalizationCandidates_of_gather (score : BowVector → BowVector → ℚ)
    (cov : Covisibility) (db : KeyFrameDatabase) (heap : Heap) (F : Frame)
    (g : Heap × List KFPtr)
    (hg : relocGather db.mvInvertedFile F.mnId F.mBowVec (heap, []) = some g) :
    ∃ o, DetectRelocalizationCandidates score cov db heap F = some o ∧ o.db = db ∧
      o.ret =
        (if g.2.isEmpty then []
         else
          let minCommonWords :=
            minCommonWordsOf (maxCommonWordsLoop (fun p => (g.1 p).mnRelocWords) g.2)
          let sc := g.2.foldl (relocScoreStep score F.mBowVec minCommonWords) (g.1, [])
          if sc.2.isEmpty then []
          else
            let acc := accumulate (fun p => cov.GetBestCovisibilityKeyFrames p 10)
              (fun p => decide ((sc.1 p).mnRelocQuery = F.mnId))
              (fun p => (sc.1 p).mRelocScore) 0 sc.2
            selectLoop (floatMul34 acc.2) acc.1) := by
  simp only [DetectRelocalizationCandidates, hg]
  split
  · exact ⟨_, rfl, rfl, rfl⟩
  · split
    · exact ⟨_, rfl, rfl, rfl⟩
    · exact ⟨_, rfl, rfl, rfl⟩

/-- Claim C5 (number of posting lists).  The constructor gives `vocSize` posting
lists, and on an index with `vocSize` lists each of `add`, `erase`, `clear` and
the three detection queries returns and leaves an index with `vocSize` lists and
the same `vocSize`, provided the bag-of-words vectors used are in range. -/
theorem posting_list_count_invariant (score : BowVector → BowVector → ℚ)
    (cov : Covisibility) (topo : TopoMap) (db : KeyFrameDatabase) (heap : Heap)
    (pKF : KFPtr) (F : Frame) (minScore : ℚ)
    (hlen : db.mvInvertedFile.length = db.vocSize)
    (hrange : ∀ w ∈ (heap pKF).mBowVec.words, w < db.vocSize)
    (hF : ∀ w ∈ F.mBowVec.words, w < db.vocSize) :
    (KeyFrameDatabase.new db.vocSize).mvInvertedFile.length = db.vocSize ∧
    (∃ db1, db.add heap pKF = some db1 ∧ db1.vocSize = db.vocSize ∧
      db1.mvInvertedFile.length = db.vocSize) ∧
    (∃ db1, db.erase heap pKF = some db1 ∧ db1.vocSize = db.vocSize ∧
      db1.mvInvertedFile.length = db.vocSize) ∧
    (db.clear.vocSize = db.vocSize ∧ db.clear.mvInvertedFile.length = db.vocSize) ∧
    (∃ o, DetectLoopCandidates score cov db heap pKF minScore = some o ∧
      o.db.vocSize = db.vocSize ∧ o.db.mvInvertedFile.length = db.vocSize) ∧
    (∃ o, DetectLoopCandidatesInTopoMap score topo db heap pKF minScore = some o ∧
      o.db.vocSize = db.vocSize ∧ o.db.mvInvertedFile.length = db.vocSize) ∧
    (∃ o, DetectRelocalizationCandidates score cov db heap F = some o ∧
      o.db.vocSize = db.vocSize ∧ o.db.mvInvertedFile.length = db.vocSize) := by
  have hrange' : ∀ w ∈ (heap pKF).mBowVec.words, w < db.mvInvertedFile.length := by
    rw [hlen]; exact hrange
  have hF' : ∀ w ∈ F.mBowVec.words, w < db.mvInvertedFile.length := by
    rw [hlen]; exact hF
  refine ⟨by simp [KeyFrameDatabase.new], ?_, ?_, ?_, ?_, ?_, ?_⟩
  · obtain ⟨inv', h1, h2, _⟩ :=
      addLoop_spec (LightKeyFrame.ofKeyFrame heap pKF) (heap pKF).mBowVec db.mvInvertedFile
        hrange'
    exact ⟨{ db with mvInvertedFile := inv' }, by simp [KeyFrameDatabase.add, h1], rfl,
      by simp [h2, hlen]⟩
  · obtain ⟨inv', h1, h2, _⟩ :=
      eraseLoop_spec (LightKeyFrame.ofKeyFrame heap pKF) (heap pKF).mBowVec db.mvInvertedFile
        hrange'
    exact ⟨{ db with mvInvertedFile := inv' }, by simp [KeyFrameDatabase.erase, h1], rfl,
      by simp [h2, hlen]⟩
  · exact ⟨rfl, by simp [KeyFrameDatabase.clear]⟩
  · obtain ⟨g, hg⟩ := loopGather_total db.mvInvertedFile (heap pKF).mnId
      (cov.GetConnectedKeyFrames pKF) (heap pKF).mBowVec (heap, []) hrange'
    obtain ⟨o, ho, hdb, _⟩ :=
      DetectLoopCandidates_of_gather score cov db heap pKF minScore g hg
    exact ⟨o, ho, by rw [hdb], by rw [hdb, hlen]⟩
  · obtain ⟨g, hg⟩ := topoGather_total db.mvInvertedFile
      (topo.GetConnectedKeyFrames (heap pKF).mnId) (heap pKF).mBowVec (fun _ => none, [])
      hrange'
    obtain ⟨o, ho, hdb, _⟩ :=
      DetectLoopCandidatesInTopoMap_of_gather score topo db heap pKF minScore g hg
    exact ⟨o, ho, by rw [hdb], by rw [hdb, hlen]⟩
  · obtain ⟨g, hg⟩ := relocGather_total db.mvInvertedFile F.mnId F.mBowVec (heap, []) hF'
    obtain ⟨o, ho, hdb, _⟩ :=
      DetectRelocalizationCandidates_of_gather score cov db heap F g hg
    exact ⟨o, ho, by rw [hdb], by rw [hdb, hlen]⟩

/-- Claim C5 at the running example. -/
theorem posting_list_count_invariant_witness :
    sampleDb.mvInvertedFile.length = sampleDb.vocSize ∧
    (∀ w ∈ (sampleHeap 9).mBowVec.words, w < sampleDb.vocSize) ∧
    (∀ w ∈ sampleFrame.mBowVec.words, w < sampleDb.vocSize) ∧
    (∃ o, DetectLoopCandidates sampleScore sampleCov sampleDb sampleHeap 9 (1 / 10) = some o ∧
      o.db.vocSize = sampleDb.vocSize ∧ o.db.mvInvertedFile.length = sampleDb.vocSize) :=
  have h := posting_list_count_invariant sampleScore sampleCov connectedTopo sampleDb
    sampleHeap 9 sampleFrame (1 / 10) (by decide) (by decide) (by decide)
  ⟨by decide, by decide, by decide, h.2.2.2.2.1⟩

theorem loopGather_of_empty (inv : List (List LightKeyFrame)) (qid : Nat) (conn : List KFPtr) :
    ∀ (bow : BowVector) (s : Heap × List KFPtr), (∀ w ∈ bow.words, inv[w]? = some []) →
      loopGather inv qid conn bow s = some s := by
  intro bow
  induction bow with
  | nil => intro s _; rfl
  | cons e rest ih =>
    obtain ⟨w0, x0⟩ := e
    intro s hr
    simp only [loopGather, hr w0 (by simp [BowVector.words]), List.foldl_nil]
    exact ih s (fun w hw => hr w (by simp [BowVector.words] at hw ⊢; exact Or.inr hw))

theorem topoGather_of_empty (inv : List (List LightKeyFrame)) (conn : List Nat) :
    ∀ (bow : BowVector) (s : (Nat → Option Int) × List Nat),
      (∀ w ∈ bow.words, inv[w]? = some []) →
      topoGather inv conn bow s = some s := by
  intro bow
  induction bow with
  | nil => intro s _; rfl
  | cons e rest ih =>
    obtain ⟨w0, x0⟩ := e
    intro s hr
    simp only [topoGather, hr w0 (by simp [BowVector.words]), List.foldl_nil]
    exact ih s (fun w hw => hr w (by simp [BowVector.words] at hw ⊢; exact Or.inr hw))

theorem relocGather_of_empty (inv : List (List LightKeyFrame)) (fid : Nat) :
    ∀ (bow : BowVector) (s : Heap × List KFPtr), (∀ w ∈ bow.words, inv[w]? = some []) →
      relocGather inv fid bow s = some s := by
  intro bow
  induction bow with
  | nil => intro s _; rfl
  | cons e rest ih =>
    obtain ⟨w0, x0⟩ := e
    intro s hr
    simp only [relocGather, hr w0 (by simp [BowVector.words]), List.foldl_nil]
    exact ih s (fun w hw => hr w (by simp [BowVector.words] at hw ⊢; exact Or.inr hw))

/-- Claim C6 (no match returns empty).  If every posting list addressed by a word
of the query is empty, each of the three detection calls returns normally with
the empty vector, for every `minScore`, scorer and neighbour source. -/
theorem no_match_returns_empty (score : BowVector → BowVector → ℚ)
    (cov : Covisibility) (topo : TopoMap) (db : KeyFrameDatabase) (heap : Heap)
    (pKF : KFPtr) (F : Frame) (minScore : ℚ)
    (hq : ∀ w ∈ (heap pKF).mBowVec.words, db.mvInvertedFile[w]? = some [])
    (hF : ∀ w ∈ F.mBowVec.words, db.mvInvertedFile[w]? = some []) :
    (∃ o, DetectLoopCandidates score cov db heap pKF minScore = some o ∧ o.ret = []) ∧
    (∃ o, DetectLoopCandidatesInTopoMap score topo db heap pKF minScore = some o ∧
      o.ret = []) ∧
    (∃ o, DetectRelocalizationCandidates score cov db heap F = some o ∧ o.ret = []) := by
  refine ⟨?_, ?_, ?_⟩
  · obtain ⟨o, ho, _, hret⟩ := DetectLoopCandidates_of_gather score cov db heap pKF minScore
      (heap, []) (loopGather_of_empty _ _ _ _ _ hq)
    exact ⟨o, ho, by simpa using hret⟩
  · obtain ⟨o, ho, _, _, hret⟩ :=
      DetectLoopCandidatesInTopoMap_of_gather score topo db heap pKF minScore
        (fun _ => none, []) (topoGather_of_empty _ _ _ _ hq)
    exact ⟨o, ho, by simpa using hret⟩
  · obtain ⟨o, ho, _, hret⟩ := DetectRelocalizationCandidates_of_gather score cov db heap F
      (heap, []) (relocGather_of_empty _ _ _ _ hF)
    exact ⟨o, ho, by simpa using hret⟩

/-- Claim C6 at the running example: a query with word 3, whose list is empty. -/
theorem no_match_returns_empty_witness :
    (∀ w ∈ (sampleHeap 8).mBowVec.words, sampleDb.mvInvertedFile[w]? = some []) ∧
    (∃ o, DetectLoopCandidates sampleScore sampleCov sampleDb sampleHeap 8 (1 / 10) = some o ∧
      o.ret = []) :=
  have h := no_match_returns_empty sampleScore sampleCov connectedTopo sampleDb sampleHeap 8
    { mnId := 7, mBowVec := [(4, 1)] } (1 / 10) (by decide) (by decide)
  ⟨by decide, h.1⟩

theorem selectFold_nodup {α : Type} [DecidableEq α] (thr : ℚ) :
    ∀ (l : List (ℚ × α)) (s : List α × List α),
      (s.2.Nodup ∧ ∀ x ∈ s.2, x ∈ s.1) →
      ((l.foldl (selectStep thr) s).2.Nodup ∧
        ∀ x ∈ (l.foldl (selectStep thr) s).2, x ∈ (l.foldl (selectStep thr) s).1) := by
  intro l
  induction l with
  | nil => intro s h; exact h
  | cons it rest ih =>
    intro s h
    simp only [List.foldl_cons]
    apply ih
    unfold selectStep
    split
    · split
      · next hnot =>
        refine ⟨?_, ?_⟩
        · rw [List.nodup_append]
          refine ⟨h.1, List.nodup_singleton _, ?_⟩
          intro a ha hb
          rw [List.mem_singleton] at hb
          subst hb
          exact hnot (h.2 _ ha)
        · intro x hx
          rcases List.mem_append.1 hx with hx | hx
          · exact List.mem_cons_of_mem _ (h.2 x hx)
          · rw [List.mem_singleton] at hx
            subst hx
            exact List.mem_cons_self _ _
      · exact h
    · exact h

theorem selectLoop_nodup {α : Type} [DecidableEq α] (thr : ℚ) (l : List (ℚ × α)) :
    (selectLoop thr l).Nodup :=
  (selectFold_nodup thr l ([], []) ⟨List.nodup_nil, by simp⟩).1

theorem selectFold_mem {α : Type} [DecidableEq α] (thr : ℚ) :
    ∀ (l : List (ℚ × α)) (s : List α × List α) (x : α),
      x ∈ (l.foldl (selectStep thr) s).2 →
      x ∈ s.2 ∨ ∃ it ∈ l, it.2 = x ∧ it.1 > thr := by
  intro l
  induction l with
  | nil => intro s x h; exact Or.inl h
  | cons it rest ih =>
    intro s x h
    simp only [List.foldl_cons] at h
    rcases ih _ x h with h1 | ⟨it', hit', e1, e2⟩
    · unfold selectStep at h1
      split at h1
      · next hgt =>
        split at h1
        · rcases List.mem_append.1 h1 with h2 | h2
          · exact Or.inl h2
          · rw [List.mem_singleton] at h2
            exact Or.inr ⟨it, List.mem_cons_self _ _, h2.symm, hgt⟩
        · exact Or.inl h1
      · exact Or.inl h1
    · exact Or.inr ⟨it', List.mem_cons_of_mem _ hit', e1, e2⟩

theorem selectLoop_mem {α : Type} [DecidableEq α] (thr : ℚ) (l : List (ℚ × α)) (x : α)
    (h : x ∈ selectLoop thr l) : ∃ it ∈ l, it.2 = x ∧ it.1 > thr := by
  rcases selectFold_mem thr l ([], []) x h with h1 | h1
  · simp at h1
  · exact h1

theorem accumulateFold_fst {α : Type} (neighs : α → List α) (contributes : α → Bool)
    (scoreOf : α → ℚ) :
    ∀ (l : List (ℚ × α)) (s : List (ℚ × α) × ℚ),
      (l.foldl (accumulateStep neighs contributes scoreOf) s).1
        = s.1 ++ l.map (groupOf neighs contributes scoreOf) := by
  intro l
  induction l with
  | nil => intro s; simp
  | cons it rest ih =>
    intro s
    simp only [List.foldl_cons, ih, accumulateStep, List.map_cons, List.append_assoc,
      List.singleton_append]

theorem accumulate_fst {α : Type} (neighs : α → List α) (contributes : α → Bool)
    (scoreOf : α → ℚ) (seed : ℚ) (l : List (ℚ × α)) :
    (accumulate neighs contributes scoreOf seed l).1
      = l.map (groupOf neighs contributes scoreOf) := by
  simp [accumulate, accumulateFold_fst]

theorem neighFold_rep {α : Type} (contributes : α → Bool) (scoreOf : α → ℚ) :
    ∀ (ns : List α) (s : ℚ × ℚ × α),
      (ns.foldl (neighStep contributes scoreOf) s).2.2 = s.2.2 ∨
        ∃ n ∈ ns, contributes n = true ∧
          (ns.foldl (neighStep contributes scoreOf) s).2.2 = n := by
  intro ns
  induction ns with
  | nil => intro s; exact Or.inl rfl
  | cons n rest ih =>
    intro s
    simp only [List.foldl_cons]
    rcases ih (neighStep contributes scoreOf s n) with h | ⟨m, hm, hc, he⟩
    · rw [h]
      unfold neighStep
      split
      · next hc =>
        split
        · exact Or.inr ⟨n, List.mem_cons_self _ _, hc, rfl⟩
        · exact Or.inl rfl
      · exact Or.inl rfl
    · exact Or.inr ⟨m, List.mem_cons_of_mem _ hm, hc, he⟩

theorem groupOf_rep {α : Type} (neighs : α → List α) (contributes : α → Bool)
    (scoreOf : α → ℚ) (it : ℚ × α) :
    (groupOf neighs contributes scoreOf it).2 = it.2 ∨
      ∃ n ∈ neighs it.2, contributes n = true ∧
        (groupOf neighs contributes scoreOf it).2 = n :=
  neighFold_rep contributes scoreOf (neighs it.2) (it.1, it.1, it.2)

/-- Every returned element is the seed of a scored entry or a contributing
neighbour of one. -/
theorem select_accumulate_mem {α : Type} [DecidableEq α] (neighs : α → List α)
    (contributes : α → Bool) (scoreOf : α → ℚ) (seed thr : ℚ) (l : List (ℚ × α)) (x : α)
    (h : x ∈ selectLoop thr (accumulate neighs contributes scoreOf seed l).1) :
    (∃ it ∈ l, it.2 = x) ∨ contributes x = true := by
  obtain ⟨g, hg, e, _⟩ := selectLoop_mem thr _ x h
  rw [accumulate_fst] at hg
  obtain ⟨it, hit, rfl⟩ := List.mem_map.1 hg
  rcases groupOf_rep neighs contributes scoreOf it with h1 | ⟨n, _, hc, he⟩
  · exact Or.inl ⟨it, hit, by rw [← e, h1]⟩
  · right
    rw [← e, he]; exact hc

/-- Claim C10 (no duplicates).  The vector returned by each of the three detection
calls holds every keyframe identity at most once. -/
theorem results_have_no_duplicates (score : BowVector → BowVector → ℚ)
    (cov : Covisibility) (topo : TopoMap) (db : KeyFrameDatabase) (heap : Heap)
    (pKF : KFPtr) (F : Frame) (minScore : ℚ)
    (hrange : ∀ w ∈ (heap pKF).mBowVec.words, w < db.mvInvertedFile.length)
    (hF : ∀ w ∈ F.mBowVec.words, w < db.mvInvertedFile.length) :
    (∃ o, DetectLoopCandidates score cov db heap pKF minScore = some o ∧ o.ret.Nodup) ∧
    (∃ o, DetectLoopCandidatesInTopoMap score topo db heap pKF minScore = some o ∧
      o.ret.Nodup) ∧
    (∃ o, DetectRelocalizationCandidates score cov db heap F = some o ∧ o.ret.Nodup) := by
  refine ⟨?_, ?_, ?_⟩
  · obtain ⟨g, hg⟩ := loopGather_total db.mvInvertedFile (heap pKF).mnId
      (cov.GetConnectedKeyFrames pKF) (heap pKF).mBowVec (heap, []) hrange
    obtain ⟨o, ho, _, hret⟩ :=
      DetectLoopCandidates_of_gather score cov db heap pKF minScore g hg
    refine ⟨o, ho, ?_⟩
    rw [hret]
    split
    · exact List.nodup_nil
    · simp only []
      split
      · exact List.nodup_nil
      · exact selectLoop_nodup _ _
  · obtain ⟨g, hg⟩ := topoGather_total db.mvInvertedFile
      (topo.GetConnectedKeyFrames (heap pKF).mnId) (heap pKF).mBowVec (fun _ => none, [])
      hrange
    obtain ⟨o, ho, _, _, hret⟩ :=
      DetectLoopCandidatesInTopoMap_of_gather score topo db heap pKF minScore g hg
    refine ⟨o, ho, ?_⟩
    rw [hret]
    split
    · exact List.nodup_nil
    · simp only []
      split
      · exact List.nodup_nil
      · exact selectLoop_nodup _ _
  · obtain ⟨g, hg⟩ := relocGather_total db.mvInvertedFile F.mnId F.mBowVec (heap, []) hF
    obtain ⟨o, ho, _, hret⟩ :=
      DetectRelocalizationCandidates_of_gather score cov db heap F g hg
    refine ⟨o, ho, ?_⟩
    rw [hret]
    split
    · exact List.nodup_nil
    · simp only []
      split
      · exact List.nodup_nil
      · exact selectLoop_nodup _ _

/-- Claim C10 at an example where the keyframe at address 2 is the best keyframe
of two groups above the retain threshold and is returned once. -/
theorem results_have_no_duplicates_witness :
    (∀ w ∈ (thresholdHeap 9).mBowVec.words, w < thresholdDb.mvInvertedFile.length) ∧
    (∃ o, DetectLoopCandidates sampleScore sharedCov thresholdDb thresholdHeap 9 (1 / 10)
        = some o ∧ o.ret.Nodup) ∧
    (DetectLoopCandidates sampleScore sharedCov thresholdDb thresholdHeap 9
        (1 / 10)).map Outcome.ret = some [2] :=
  have h := results_have_no_duplicates sampleScore sharedCov connectedTopo thresholdDb
    thresholdHeap 9 sampleFrame (1 / 10) (by decide) (by decide)
  ⟨by decide, h.1, by decide!⟩

theorem topoGatherStep_inv (conn : List Nat) (s : (Nat → Option Int) × List Nat)
    (lit : LightKeyFrame) (h : TopoGatherInv conn s) :
    TopoGatherInv conn (topoGatherStep conn s lit) := by
  unfold topoGatherStep
  split
  · next hnc =>
    refine ⟨?_, ?_⟩
    · intro id hid
      by_cases e : id = lit.mnId
      · rw [e]; exact hnc
      · apply h.1 id
        simp only [Function.update_noteq e] at hid
        split at hid
        · simp only [Function.update_noteq e] at hid; exact hid
        · exact hid
    · intro id hid
      simp only at hid
      split at hid
      · rcases List.mem_append.1 hid with h1 | h1
        · exact h.2 id h1
        · rw [List.mem_singleton] at h1; rw [h1]; exact hnc
      · exact h.2 id hid
  · exact h

theorem topoGatherFold_inv (conn : List Nat) :
    ∀ (l : List LightKeyFrame) (s : (Nat → Option Int) × List Nat),
      TopoGatherInv conn s → TopoGatherInv conn (l.foldl (topoGatherStep conn) s) := by
  intro l
  induction l with
  | nil => intro s h; exact h
  | cons lit rest ih =>
    intro s h
    exact ih _ (topoGatherStep_inv conn s lit h)

theorem topoGather_inv (inv : List (List LightKeyFrame)) (conn : List Nat) :
    ∀ (bow : BowVector) (s g : (Nat → Option Int) × List Nat),
      TopoGatherInv conn s → topoGather inv conn bow s = some g → TopoGatherInv conn g := by
  intro bow
  induction bow with
  | nil =>
    intro s g h hg
    simp only [topoGather, Option.some.injEq] at hg
    rw [← hg]; exact h
  | cons e rest ih =>
    obtain ⟨w0, x0⟩ := e
    intro s g h hg
    simp only [topoGather] at hg
    split at hg
    · exact absurd hg (by simp)
    · exact ih _ g (topoGatherFold_inv conn _ s h) hg

theorem topoScoreFold_mem (score : BowVector → BowVector → ℚ) (topo : TopoMap)
    (qbow : BowVector) (minScore : ℚ) (mLoopWords : Nat → Option Int) (minCommonWords : Int) :
    ∀ (l : List Nat) (s : (Nat → Option ℚ) × List (ℚ × Nat)) (it : ℚ × Nat),
      it ∈ (l.foldl (topoScoreStep score topo qbow minScore mLoopWords minCommonWords) s).2 →
      it ∈ s.2 ∨ it.2 ∈ l := by
  intro l
  induction l with
  | nil => intro s it h; exact Or.inl h
  | cons id rest ih =>
    intro s it h
    simp only [List.foldl_cons] at h
    rcases ih _ it h with h1 | h1
    · unfold topoScoreStep at h1
      split at h1
      · simp only at h1
        split at h1
        · rcases List.mem_append.1 h1 with h2 | h2
          · exact Or.inl h2
          · rw [List.mem_singleton] at h2
            right; rw [h2]; exact List.mem_cons_self _ _
        · exact Or.inl h1
      · exact Or.inl h1
    · exact Or.inr (List.mem_cons_of_mem _ h1)

/-- Claim C9 (exclusion, identifier-addressed variant).  No id of the connected set
that the topological map reports for the query's id is in the vector returned
by `DetectLoopCandidatesInTopoMap`. -/
theorem topo_exclusion_respected (score : BowVector → BowVector → ℚ) (topo : TopoMap)
    (db : KeyFrameDatabase) (heap : Heap) (pKF : KFPtr) (minScore : ℚ)
    (hrange : ∀ w ∈ (heap pKF).mBowVec.words, w < db.mvInvertedFile.length) :
    ∃ o, DetectLoopCandidatesInTopoMap score topo db heap pKF minScore = some o ∧
      ∀ id ∈ o.ret, id ∉ topo.GetConnectedKeyFrames (heap pKF).mnId := by
  obtain ⟨g, hg⟩ := topoGather_total db.mvInvertedFile
    (topo.GetConnectedKeyFrames (heap pKF).mnId) (heap pKF).mBowVec (fun _ => none, [])
    hrange
  obtain ⟨o, ho, _, _, hret⟩ :=
    DetectLoopCandidatesInTopoMap_of_gather score topo db heap pKF minScore g hg
  have hinv : TopoGatherInv (topo.GetConnectedKeyFrames (heap pKF).mnId) g :=
    topoGather_inv _ _ _ _ g ⟨by simp, by simp⟩ hg
  refine ⟨o, ho, ?_⟩
  intro id hid
  rw [hret] at hid
  split at hid
  · simp at hid
  · simp only [] at hid
    split at hid
    · simp at hid
    · rcases select_accumulate_mem _ _ _ _ _ _ id hid with ⟨it, hit, e⟩ | hc
      · rcases topoScoreFold_mem _ _ _ _ _ _ _ _ it hit with h1 | h1
        · simp at h1
        · rw [← e]; exact hinv.2 _ h1
      · simp only [Bool.and_eq_true] at hc
        apply hinv.1 id
        intro hnone
        rw [hnone] at hc
        simp at hc

/-- Claim C9 at the running example with id 102 connected to id 109. -/
theorem topo_exclusion_respected_witness :
    (∀ w ∈ (sampleHeap 9).mBowVec.words, w < sampleDb.mvInvertedFile.length) ∧
    ∃ o, DetectLoopCandidatesInTopoMap sampleScore connectedTopo sampleDb sampleHeap 9 (1 / 10)
        = some o ∧
      ∀ id ∈ o.ret, id ∉ connectedTopo.GetConnectedKeyFrames (sampleHeap 9).mnId :=
  ⟨by decide,
    topo_exclusion_respected sampleScore connectedTopo sampleDb sampleHeap 9 (1 / 10)
      (by decide)⟩

theorem loopGatherStep_snd_not_connected (qid : Nat) (conn : List KFPtr)
    (s : Heap × List KFPtr) (lit : LightKeyFrame) (h : ∀ p ∈ s.2, p ∉ conn) :
    ∀ p ∈ (loopGatherStep qid conn s lit).2, p ∉ conn := by
  unfold loopGatherStep
  cases lit.getKeyFrame with
  | none => exact h
  | some pKFi =>
    simp only
    split
    · split
      · next hnc =>
        intro p hp
        rcases List.mem_append.1 hp with h1 | h1
        · exact h p h1
        · rw [List.mem_singleton] at h1; rw [h1]; exact hnc
      · exact h
    · exact h

theorem loopGatherStep_query (qid : Nat) (conn : List KFPtr)
    (s : Heap × List KFPtr) (lit : LightKeyFrame) (p : KFPtr) (hp : p ∈ conn) :
    ((loopGatherStep qid conn s lit).1 p).mnLoopQuery = (s.1 p).mnLoopQuery := by
  unfold loopGatherStep
  cases lit.getKeyFrame with
  | none => rfl
  | some pKFi =>
    simp only
    by_cases e : p = pKFi
    · subst e
      simp [hp]
      split <;> simp
    · split
      · split <;> simp [Function.update_noteq e]
      · simp [Function.update_noteq e]

theorem loopGatherStep_inv (qid : Nat) (conn : List KFPtr) (s : Heap × List KFPtr)
    (lit : LightKeyFrame) (h : LoopGatherInv qid conn s) :
    LoopGatherInv qid conn (loopGatherStep qid conn s lit) :=
  ⟨fun p hp => by rw [loopGatherStep_query qid conn s lit p hp]; exact h.1 p hp,
    loopGatherStep_snd_not_connected qid conn s lit h.2⟩

theorem loopGatherFold_inv (qid : Nat) (conn : List KFPtr) :
    ∀ (l : List LightKeyFrame) (s : Heap × List KFPtr),
      LoopGatherInv qid conn s → LoopGatherInv qid conn (l.foldl (loopGatherStep qid conn) s) := by
  intro l
  induction l with
  | nil => intro s h; exact h
  | cons lit rest ih =>
    intro s h
    exact ih _ (loopGatherStep_inv qid conn s lit h)

theorem loopGather_inv (inv : List (List LightKeyFrame)) (qid : Nat) (conn : List KFPtr) :
    ∀ (bow : BowVector) (s g : Heap × List KFPtr),
      LoopGatherInv qid conn s → loopGather inv qid conn bow s = some g →
      LoopGatherInv qid conn g := by
  intro bow
  induction bow with
  | nil =>
    intro s g h hg
    simp only [loopGather, Option.some.injEq] at hg
    rw [← hg]; exact h
  | cons e rest ih =>
    obtain ⟨w0, x0⟩ := e
    intro s g h hg
    simp only [loopGather] at hg
    split at hg
    · exact absurd hg (by simp)
    · exact ih _ g (loopGatherFold_inv qid conn _ s h) hg

theorem loopScoreStep_fields (score : BowVector → BowVector → ℚ) (qbow : BowVector)
    (minScore : ℚ) (minCommonWords : Int) (s : Heap × List (ℚ × KFPtr)) (pKFi p : KFPtr) :
    ((loopScoreStep score qbow minScore minCommonWords s pKFi).1 p).mnLoopQuery
        = (s.1 p).mnLoopQuery ∧
    ((loopScoreStep score qbow minScore minCommonWords s pKFi).1 p).mnLoopWords
        = (s.1 p).mnLoopWords ∧
    ((loopScoreStep score qbow minScore minCommonWords s pKFi).1 p).mBowVec
        = (s.1 p).mBowVec := by
  unfold loopScoreStep
  by_cases e : p = pKFi
  · subst e
    split
    · simp only; split <;> simp
    · simp
  · split
    · simp only; split <;> simp [Function.update_noteq e]
    · simp

theorem loopScoreFold_fields (score : BowVector → BowVector → ℚ) (qbow : BowVector)
    (minScore : ℚ) (minCommonWords : Int) :
    ∀ (l : List KFPtr) (s : Heap × List (ℚ × KFPtr)) (p : KFPtr),
      ((l.foldl (loopScoreStep score qbow minScore minCommonWords) s).1 p).mnLoopQuery
          = (s.1 p).mnLoopQuery ∧
      ((l.foldl (loopScoreStep score qbow minScore minCommonWords) s).1 p).mnLoopWords
          = (s.1 p).mnLoopWords ∧
      ((l.foldl (loopScoreStep score qbow minScore minCommonWords) s).1 p).mBowVec
          = (s.1 p).mBowVec := by
  intro l
  induction l with
  | nil => intro s p; exact ⟨rfl, rfl, rfl⟩
  | cons x rest ih =>
    intro s p
    simp only [List.foldl_cons]
    obtain ⟨a1, a2, a3⟩ := ih (loopScoreStep score qbow minScore minCommonWords s x) p
    obtain ⟨b1, b2, b3⟩ := loopScoreStep_fields score qbow minScore minCommonWords s x p
    exact ⟨a1.trans b1, a2.trans b2, a3.trans b3⟩

theorem loopScoreFold_mem (score : BowVector → BowVector → ℚ) (qbow : BowVector)
    (minScore : ℚ) (minCommonWords : Int) :
    ∀ (l : List KFPtr) (s : Heap × List (ℚ × KFPtr)) (it : ℚ × KFPtr),
      it ∈ (l.foldl (loopScoreStep score qbow minScore minCommonWords) s).2 →
      it ∈ s.2 ∨ it.2 ∈ l := by
  intro l
  induction l with
  | nil => intro s it h; exact Or.inl h
  | cons x rest ih =>
    intro s it h
    simp only [List.foldl_cons] at h
    rcases ih _ it h with h1 | h1
    · unfold loopScoreStep at h1
      split at h1
      · simp only at h1
        split at h1
        · rcases List.mem_append.1 h1 with h2 | h2
          · exact Or.inl h2
          · rw [List.mem_singleton] at h2
            right; rw [h2]; exact List.mem_cons_self _ _
        · exact Or.inl h1
      · exact Or.inl h1
    · exact Or.inr (List.mem_cons_of_mem _ h1)

/-- Claim C8, amended (exclusion).  If no keyframe of the query's connected set
carries the query's id in `mnLoopQuery` on entry, `DetectLoopCandidates` returns
no keyframe of the connected set, whatever `mnLoopWords` and `mLoopScore` hold on
entry and whatever the scorer, `minScore` and neighbour source are. -/
theorem loop_exclusion_respected (score : BowVector → BowVector → ℚ) (cov : Covisibility)
    (db : KeyFrameDatabase) (heap : Heap) (pKF : KFPtr) (minScore : ℚ)
    (hrange : ∀ w ∈ (heap pKF).mBowVec.words, w < db.mvInvertedFile.length)
    (hfresh : ∀ p ∈ cov.GetConnectedKeyFrames pKF, (heap p).mnLoopQuery ≠ (heap pKF).mnId) :
    ∃ o, DetectLoopCandidates score cov db heap pKF minScore = some o ∧
      ∀ p ∈ o.ret, p ∉ cov.GetConnectedKeyFrames pKF := by
  obtain ⟨g, hg⟩ := loopGather_total db.mvInvertedFile (heap pKF).mnId
    (cov.GetConnectedKeyFrames pKF) (heap pKF).mBowVec (heap, []) hrange
  obtain ⟨o, ho, _, hret⟩ :=
    DetectLoopCandidates_of_gather score cov db heap pKF minScore g hg
  have hinv : LoopGatherInv (heap pKF).mnId (cov.GetConnectedKeyFrames pKF) g :=
    loopGather_inv _ _ _ _ _ g ⟨hfresh, by simp⟩ hg
  refine ⟨o, ho, ?_⟩
  intro p hp
  rw [hret] at hp
  split at hp
  · simp at hp
  · simp only [] at hp
    split at hp
    · simp at hp
    · rcases select_accumulate_mem _ _ _ _ _ _ p hp with ⟨it, hit, e⟩ | hc
      · rcases loopScoreFold_mem _ _ _ _ _ _ it hit with h1 | h1
        · simp at h1
        · rw [← e]; exact hinv.2 _ h1
      · simp only [Bool.and_eq_true, decide_eq_true_eq] at hc
        intro hconn
        rw [(loopScoreFold_fields _ _ _ _ _ _ p).1] at hc
        exact hinv.1 p hconn hc.1

/-- Claim C8 as amended, at the running example with `B` connected to `Q`. -/
theorem loop_exclusion_respected_witness :
    (∀ p ∈ connectedCov.GetConnectedKeyFrames 9,
      (sampleHeap p).mnLoopQuery ≠ (sampleHeap 9).mnId) ∧
    ∃ o, DetectLoopCandidates sampleScore connectedCov sampleDb sampleHeap 9 (1 / 10) = some o ∧
      ∀ p ∈ o.ret, p ∉ connectedCov.GetConnectedKeyFrames 9 :=
  ⟨by decide,
    loop_exclusion_respected sampleScore connectedCov sampleDb sampleHeap 9 (1 / 10)
      (by decide) (by decide)⟩

/-- Claim C8 as stated fails.  A first query of `Q` gathers and scores `X`
(score 1), leaving `mnLoopQuery` of `X` equal to the id of `Q`.  Then `A` is
added and `X` becomes connected to `Q`.  In the second query of `Q` the
connected `X` is not gathered, but as the neighbour of the gathered `A`
(score 1/2) it passes the tag test of the accumulation loop with its earlier
score, becomes the best keyframe of the group of `A` and is returned. -/
theorem loop_exclusion_stale_tag_counterexample :
    ∃ o1 o2,
      DetectLoopCandidates sampleScore sampleCov revisitDb0 revisitHeap 9 (1 / 10) = some o1 ∧
      (o1.heap 3).mnLoopQuery = (revisitHeap 9).mnId ∧
      (revisitDb0.add o1.heap 1).map KeyFrameDatabase.mvInvertedFile
        = some revisitDb1.mvInvertedFile ∧
      DetectLoopCandidates sampleScore revisitCov revisitDb1 o1.heap 9 (1 / 10) = some o2 ∧
      o2.ret = [3] ∧ ∃ p ∈ o2.ret, p ∈ revisitCov.GetConnectedKeyFrames 9 := by
  have h : ((DetectLoopCandidates sampleScore sampleCov revisitDb0 revisitHeap 9 (1 / 10)).bind
      (fun o1 => (DetectLoopCandidates sampleScore revisitCov revisitDb1 o1.heap 9
        (1 / 10)).map (fun o2 => ((o1.heap 3).mnLoopQuery,
          (revisitDb0.add o1.heap 1).map KeyFrameDatabase.mvInvertedFile, o2.ret))))
      = some (109, some revisitDb1.mvInvertedFile, [3]) := by decide!
  obtain ⟨o1, h1, h2⟩ := Option.bind_eq_some.1 h
  obtain ⟨o2, h3, h4⟩ := Option.map_eq_some'.1 h2
  simp only [Prod.mk.injEq] at h4
  obtain ⟨e1, e2, e3⟩ := h4
  exact ⟨o1, o2, h1, e1, e2, h3, e3, 3, by rw [e3]; decide, by decide⟩

theorem loopScoreFold_snd (score : BowVector → BowVector → ℚ) (qbow : BowVector)
    (minScore : ℚ) (minCommonWords : Int) (h0 : Heap) :
    ∀ (l : List KFPtr) (s : Heap × List (ℚ × KFPtr)),
      (∀ p, (s.1 p).mnLoopWords = (h0 p).mnLoopWords ∧ (s.1 p).mBowVec = (h0 p).mBowVec) →
      (l.foldl (loopScoreStep score qbow minScore minCommonWords) s).2
        = s.2 ++ ((l.filter (fun p => decide ((h0 p).mnLoopWords > minCommonWords))).map
            (fun p => (score qbow (h0 p).mBowVec, p))).filter
              (fun it => decide (it.1 ≥ minScore)) := by
  intro l
  induction l with
  | nil => intro s _; simp
  | cons x rest ih =>
    intro s hs
    simp only [List.foldl_cons]
    rw [ih (loopScoreStep score qbow minScore minCommonWords s x)]
    · unfold loopScoreStep
      rw [(hs x).1, (hs x).2]
      by_cases hw : (h0 x).mnLoopWords > minCommonWords
      · by_cases hm : score qbow (h0 x).mBowVec ≥ minScore
        · simp [hw, hm, List.filter_cons]
        · simp [hw, hm, List.filter_cons]
      · simp [hw, List.filter_cons]
    · intro p
      obtain ⟨_, b2, b3⟩ := loopScoreStep_fields score qbow minScore minCommonWords s x p
      exact ⟨b2.trans (hs p).1, b3.trans (hs p).2⟩

theorem neighless_accumulateFold {α : Type} (neighs : α → List α) (contributes : α → Bool)
    (scoreOf : α → ℚ) (hN : ∀ p, neighs p = []) :
    ∀ (l : List (ℚ × α)) (s : List (ℚ × α) × ℚ),
      l.foldl (accumulateStep neighs contributes scoreOf) s
        = (s.1 ++ l, l.foldl (fun b it => if it.1 > b then it.1 else b) s.2) := by
  intro l
  induction l with
  | nil => intro s; simp
  | cons it rest ih =>
    intro s
    simp only [List.foldl_cons]
    rw [ih]
    simp [accumulateStep, groupOf, hN]

theorem maxFold_ge_seed :
    ∀ (l : List (ℚ × KFPtr)) (b : ℚ),
      b ≤ l.foldl (fun b it => if it.1 > b then it.1 else b) b := by
  intro l
  induction l with
  | nil => intro b; exact le_refl b
  | cons it rest ih =>
    intro b
    simp only [List.foldl_cons]
    refine le_trans ?_ (ih _)
    split
    · next h => exact le_of_lt h
    · exact le_refl b

theorem maxFold_ge_mem :
    ∀ (l : List (ℚ × KFPtr)) (b : ℚ) (it : ℚ × KFPtr), it ∈ l →
      it.1 ≤ l.foldl (fun b it => if it.1 > b then it.1 else b) b := by
  intro l
  induction l with
  | nil => intro b it h; simp at h
  | cons x rest ih =>
    intro b it h
    simp only [List.foldl_cons]
    rcases List.mem_cons.1 h with h1 | h1
    · subst h1
      refine le_trans ?_ (maxFold_ge_seed rest _)
      split
      · exact le_refl _
      · next hn => exact not_lt.1 hn
    · exact ih _ it h1

theorem maxFold_attained :
    ∀ (l : List (ℚ × KFPtr)) (b : ℚ),
      l.foldl (fun b it => if it.1 > b then it.1 else b) b = b ∨
        ∃ it ∈ l, it.1 = l.foldl (fun b it => if it.1 > b then it.1 else b) b := by
  intro l
  induction l with
  | nil => intro b; exact Or.inl rfl
  | cons x rest ih =>
    intro b
    simp only [List.foldl_cons]
    rcases ih (if x.1 > b then x.1 else b) with h | ⟨it, hit, e⟩
    · rw [h]
      split
      · exact Or.inr ⟨x, List.mem_cons_self _ _, rfl⟩
      · exact Or.inl rfl
    · exact Or.inr ⟨it, List.mem_cons_of_mem _ hit, e⟩

/-- With seeds filtered from one scored list, a higher floor that keeps at least
one seed leaves the best accumulated score unchanged. -/
theorem maxFold_filter_eq (scored : List (ℚ × KFPtr)) (m1 m2 : ℚ) (hle : m1 ≤ m2)
    (hne : scored.filter (fun it => decide (it.1 ≥ m2)) ≠ []) :
    (scored.filter (fun it => decide (it.1 ≥ m1))).foldl
        (fun b it => if it.1 > b then it.1 else b) m1
      = (scored.filter (fun it => decide (it.1 ≥ m2))).foldl
        (fun b it => if it.1 > b then it.1 else b) m2 := by
  apply le_antisymm
  · rcases maxFold_attained (scored.filter (fun it => decide (it.1 ≥ m1))) m1 with h | ⟨it, hit, e⟩
    · rw [h]; exact le_trans hle (maxFold_ge_seed _ _)
    · rw [← e]
      by_cases h2 : it.1 ≥ m2
      · apply maxFold_ge_mem
        rw [List.mem_filter] at hit ⊢
        exact ⟨hit.1, by simpa using h2⟩
      · exact le_trans (le_of_lt (not_le.1 h2)) (maxFold_ge_seed _ _)
  · have hsub : ∀ it ∈ scored.filter (fun it => decide (it.1 ≥ m2)),
        it ∈ scored.filter (fun it => decide (it.1 ≥ m1)) := by
      intro it hit
      rw [List.mem_filter] at hit ⊢
      refine ⟨hit.1, ?_⟩
      have : it.1 ≥ m2 := by simpa using hit.2
      simpa using le_trans hle this
    rcases maxFold_attained (scored.filter (fun it => decide (it.1 ≥ m2))) m2 with h | ⟨it, hit, e⟩
    · rw [h]
      obtain ⟨x, hx⟩ := List.exists_mem_of_ne_nil _ hne
      have hx2 : x.1 ≥ m2 := by
        have := (List.mem_filter.1 hx).2
        simpa using this
      exact le_trans hx2 (maxFold_ge_mem _ _ x (hsub x hx))
    · rw [← e]
      exact maxFold_ge_mem _ _ it (hsub it hit)

theorem selectFold_sets {α : Type} [DecidableEq α] (thr : ℚ) :
    ∀ (l : List (ℚ × α)) (s : List α × List α),
      (∀ x, x ∈ s.1 ↔ x ∈ s.2) →
      ∀ x, x ∈ (l.foldl (selectStep thr) s).1 ↔ x ∈ (l.foldl (selectStep thr) s).2 := by
  intro l
  induction l with
  | nil => intro s h; exact h
  | cons it rest ih =>
    intro s h
    simp only [List.foldl_cons]
    apply ih
    intro x
    unfold selectStep
    split
    · split
      · simp [h x, or_comm]
      · exact h x
    · exact h x

theorem selectFold_mono {α : Type} [DecidableEq α] (thr : ℚ) :
    ∀ (l : List (ℚ × α)) (s : List α × List α) (x : α),
      x ∈ s.2 → x ∈ (l.foldl (selectStep thr) s).2 := by
  intro l
  induction l with
  | nil => intro s x h; exact h
  | cons it rest ih =>
    intro s x h
    simp only [List.foldl_cons]
    apply ih
    unfold selectStep
    split
    · split
      · exact List.mem_append_left _ h
      · exact h
    · exact h

theorem selectFold_complete {α : Type} [DecidableEq α] (thr : ℚ) :
    ∀ (l : List (ℚ × α)) (s : List α × List α),
      (∀ x, x ∈ s.1 ↔ x ∈ s.2) →
      ∀ it ∈ l, it.1 > thr → it.2 ∈ (l.foldl (selectStep thr) s).2 := by
  intro l
  induction l with
  | nil => intro s _ it h; simp at h
  | cons x rest ih =>
    intro s hs it hit hgt
    simp only [List.foldl_cons]
    rcases List.mem_cons.1 hit with h1 | h1
    · subst h1
      apply selectFold_mono
      unfold selectStep
      simp only [hgt, if_true]
      split
      · simp
      · next hin =>
        have : it.2 ∈ s.1 := by simpa using hin
        exact (hs _).1 this
    · apply ih _ _ it h1 hgt
      have := selectFold_sets thr [x] s hs
      simpa using this

theorem selectLoop_complete {α : Type} [DecidableEq α] (thr : ℚ) (l : List (ℚ × α))
    (it : ℚ × α) (hit : it ∈ l) (hgt : it.1 > thr) : it.2 ∈ selectLoop thr l :=
  selectFold_complete thr l ([], []) (by simp) it hit hgt

/-- The selection applied to fewer entries, with the same threshold, returns no
more elements. -/
theorem selectLoop_length_le {α : Type} [DecidableEq α] (thr : ℚ) (l1 l2 : List (ℚ × α))
    (hsub : ∀ it ∈ l2, it ∈ l1) :
    (selectLoop thr l2).length ≤ (selectLoop thr l1).length := by
  apply List.Subperm.length_le
  apply List.subperm_of_subset (selectLoop_nodup thr l2)
  intro x hx
  obtain ⟨it, hit, e, hgt⟩ := selectLoop_mem thr l2 x hx
  rw [← e]
  exact selectLoop_complete thr l1 it (hsub it hit) hgt

/-- Claim C7, amended (threshold monotonicity).  When the neighbour source reports
no covisibility neighbour for any keyframe, raising `minScore` never increases
the number of keyframes returned by `DetectLoopCandidates`. -/
theorem threshold_monotone_without_neighbours (score : BowVector → BowVector → ℚ)
    (cov : Covisibility) (db : KeyFrameDatabase) (heap : Heap) (pKF : KFPtr)
    (minScore1 minScore2 : ℚ)
    (hrange : ∀ w ∈ (heap pKF).mBowVec.words, w < db.mvInvertedFile.length)
    (hN : ∀ p, cov.GetBestCovisibilityKeyFrames p 10 = [])
    (hle : minScore1 ≤ minScore2) :
    ∃ o1 o2, DetectLoopCandidates score cov db heap pKF minScore1 = some o1 ∧
      DetectLoopCandidates score cov db heap pKF minScore2 = some o2 ∧
      o2.ret.length ≤ o1.ret.length := by
  obtain ⟨g, hg⟩ := loopGather_total db.mvInvertedFile (heap pKF).mnId
    (cov.GetConnectedKeyFrames pKF) (heap pKF).mBowVec (heap, []) hrange
  obtain ⟨o1, ho1, _, hret1⟩ :=
    DetectLoopCandidates_of_gather score cov db heap pKF minScore1 g hg
  obtain ⟨o2, ho2, _, hret2⟩ :=
    DetectLoopCandidates_of_gather score cov db heap pKF minScore2 g hg
  refine ⟨o1, o2, ho1, ho2, ?_⟩
  rw [hret1, hret2]
  by_cases hge : g.2.isEmpty = true
  · simp [hge]
  · simp only [hge, Bool.false_eq_true, if_false]
    rw [loopScoreFold_snd score _ minScore1 _ g.1 g.2 (g.1, []) (fun p => ⟨rfl, rfl⟩),
      loopScoreFold_snd score _ minScore2 _ g.1 g.2 (g.1, []) (fun p => ⟨rfl, rfl⟩)]
    simp only [List.nil_append]
    generalize hscored : ((g.2.filter (fun p => decide ((g.1 p).mnLoopWords >
      minCommonWordsOf (maxCommonWordsLoop (fun p => (g.1 p).mnLoopWords) g.2)))).map
        (fun p => (score (heap pKF).mBowVec (g.1 p).mBowVec, p))) = scored
    by_cases h2 : (scored.filter (fun it => decide (it.1 ≥ minScore2))).isEmpty = true
    · simp [h2]
    · have hne2 : scored.filter (fun it => decide (it.1 ≥ minScore2)) ≠ [] := by
        intro e; rw [e] at h2; simp at h2
      have hsub : ∀ it ∈ scored.filter (fun it => decide (it.1 ≥ minScore2)),
          it ∈ scored.filter (fun it => decide (it.1 ≥ minScore1)) := by
        intro it hit
        rw [List.mem_filter] at hit ⊢
        refine ⟨hit.1, ?_⟩
        have : it.1 ≥ minScore2 := by simpa using hit.2
        simpa using le_trans hle this
      have hne1 : (scored.filter (fun it => decide (it.1 ≥ minScore1))).isEmpty = false := by
        obtain ⟨x, hx⟩ := List.exists_mem_of_ne_nil _ hne2
        cases hl : scored.filter (fun it => decide (it.1 ≥ minScore1)) with
        | nil => have := hsub x hx; rw [hl] at this; simp at this
        | cons a as => rfl
      simp only [h2, hne1, Bool.false_eq_true, if_false]
      simp only [accumulate, neighless_accumulateFold _ _ _ hN, List.nil_append]
      rw [maxFold_filter_eq scored minScore1 minScore2 hle hne2]
      exact selectLoop_length_le _ _ _ hsub

/-- Claim C7 as amended, at the running example with thresholds 1/10 and 1/2. -/
theorem threshold_monotone_without_neighbours_witness :
    (1 / 10 : ℚ) ≤ 1 / 2 ∧
    ∃ o1 o2, DetectLoopCandidates sampleScore sampleCov sampleDb sampleHeap 9 (1 / 10) = some o1 ∧
      DetectLoopCandidates sampleScore sampleCov sampleDb sampleHeap 9 (1 / 2) = some o2 ∧
      o2.ret.length ≤ o1.ret.length :=
  ⟨by norm_num,
    threshold_monotone_without_neighbours sampleScore sampleCov sampleDb sampleHeap 9
      (1 / 10) (1 / 2) (by decide) (fun _ => rfl) (by norm_num)⟩

/-- Claim C7 as stated fails.  The index is built by `add` of `A`, `N`, `B`, `C`.
`A` (score 1/2) has the neighbour `N` (score 3/8), `B` and `C` score 5/8.  With
`minScore = 1/2` the group of `A` accumulates 7/8, the retain threshold is 21/32
and only `A` is returned; with `minScore = 5/8` the seeds are `B` and `C`, the
threshold drops to 15/32 and both are returned. -/
theorem threshold_monotonicity_counterexample :
    (1 / 2 : ℚ) ≤ 5 / 8 ∧
    ((((KeyFrameDatabase.new 5).add thresholdHeap 1).bind
        (fun d => d.add thresholdHeap 4)).bind (fun d => d.add thresholdHeap 2)).bind
          (fun d => (d.add thresholdHeap 3).map KeyFrameDatabase.mvInvertedFile)
      = some thresholdDb.mvInvertedFile ∧
    ∃ o1 o2,
      DetectLoopCandidates sampleScore thresholdCov thresholdDb thresholdHeap 9 (1 / 2)
        = some o1 ∧
      DetectLoopCandidates sampleScore thresholdCov thresholdDb thresholdHeap 9 (5 / 8)
        = some o2 ∧
      o1.ret = [1] ∧ o2.ret = [2, 3] ∧ ¬ (o2.ret.length ≤ o1.ret.length) := by
  have h : (DetectLoopCandidates sampleScore thresholdCov thresholdDb thresholdHeap 9
        (1 / 2)).map Outcome.ret = some [1] ∧
      (DetectLoopCandidates sampleScore thresholdCov thresholdDb thresholdHeap 9
        (5 / 8)).map Outcome.ret = some [2, 3] := by decide!
  obtain ⟨o1, h1, e1⟩ := Option.map_eq_some'.1 h.1
  obtain ⟨o2, h2, e2⟩ := Option.map_eq_some'.1 h.2
  exact ⟨by norm_num, by decide!, o1, o2, h1, h2, e1, e2, by rw [e1, e2]; decide⟩

theorem floatMul34_one : floatMul34 1 = 3 / 4 := by decide!

theorem scenario_index (heap : Heap) (pA pB : KFPtr) (a0 a1 b1 b2 : ℚ)
    (hA : (heap pA).mBowVec = [(0, a0), (1, a1)])
    (hB : (heap pB).mBowVec = [(1, b1), (2, b2)]) :
    ((KeyFrameDatabase.new 5).add heap pA).bind (fun d => d.add heap pB)
      = some { vocSize := 5,
               mvInvertedFile :=
                [[LightKeyFrame.ofKeyFrame heap pA],
                 [LightKeyFrame.ofKeyFrame heap pA, LightKeyFrame.ofKeyFrame heap pB],
                 [LightKeyFrame.ofKeyFrame heap pB], [], []] } := by
  simp [KeyFrameDatabase.add, KeyFrameDatabase.new, hA, hB, addLoop, List.replicate]

theorem scenario_gather (heap : Heap) (pA pB : KFPtr) (qid : Nat) (q1 : ℚ)
    (hne : pA ≠ pB)
    (htA : (heap pA).mnLoopQuery ≠ qid) (htB : (heap pB).mnLoopQuery ≠ qid) :
    ∃ g, loopGather
        [[LightKeyFrame.ofKeyFrame heap pA],
         [LightKeyFrame.ofKeyFrame heap pA, LightKeyFrame.ofKeyFrame heap pB],
         [LightKeyFrame.ofKeyFrame heap pB], [], []] qid [] [(1, q1)] (heap, []) = some g ∧
      g.2 = [pA, pB] ∧ (g.1 pA).mnLoopWords = 1 ∧ (g.1 pB).mnLoopWords = 1 ∧
      (g.1 pA).mBowVec = (heap pA).mBowVec ∧ (g.1 pB).mBowVec = (heap pB).mBowVec := by
  refine ⟨_, rfl, ?_⟩
  simp [loopGatherStep, LightKeyFrame.ofKeyFrame, LightKeyFrame.getKeyFrame, htA, htB,
    Function.update, hne, hne.symm]

theorem scenario_select {α : Type} [DecidableEq α] (neighs : α → List α)
    (contributes : α → Bool) (scoreOf : α → ℚ) (pA pB : α) (hne : pA ≠ pB)
    (hnA : neighs pA = []) (hnB : neighs pB = []) :
    selectLoop (floatMul34 (accumulate neighs contributes scoreOf (1 / 10)
        [(1, pA), (1, pB)]).2)
      (accumulate neighs contributes scoreOf (1 / 10) [(1, pA), (1, pB)]).1 = [pA, pB] := by
  have hne' : ¬ pB = pA := fun e => hne e.symm
  have h34 : floatMul34 1 < 1 := by rw [floatMul34_one]; norm_num
  simp [accumulate, accumulateStep, groupOf, hnA, hnB, selectLoop, selectStep]
  norm_num
  simp [h34, hne']

/-- The ranking stages on two gathered candidates with one shared word each, score 1
and no neighbours: both are returned. -/
theorem scenario_ranking (score : BowVector → BowVector → ℚ) (cov : Covisibility)
    (qbow : BowVector) (qid : Nat) (g : Heap × List KFPtr) (pA pB : KFPtr) (hne : pA ≠ pB)
    (h2 : g.2 = [pA, pB]) (hwA : (g.1 pA).mnLoopWords = 1) (hwB : (g.1 pB).mnLoopWords = 1)
    (hsA : score qbow (g.1 pA).mBowVec = 1) (hsB : score qbow (g.1 pB).mBowVec = 1)
    (hnA : cov.GetBestCovisibilityKeyFrames pA 10 = [])
    (hnB : cov.GetBestCovisibilityKeyFrames pB 10 = []) :
    maxCommonWordsLoop (fun p => (g.1 p).mnLoopWords) g.2 = 1 ∧
    minCommonWordsOf 1 = 0 ∧
    (if g.2.isEmpty then []
     else
      let minCommonWords :=
        minCommonWordsOf (maxCommonWordsLoop (fun p => (g.1 p).mnLoopWords) g.2)
      let sc := g.2.foldl (loopScoreStep score qbow (1 / 10) minCommonWords) (g.1, [])
      if sc.2.isEmpty then []
      else
        let acc := accumulate (fun p => cov.GetBestCovisibilityKeyFrames p 10)
          (fun p => decide ((sc.1 p).mnLoopQuery = qid)
            && decide ((sc.1 p).mnLoopWords > minCommonWords))
          (fun p => (sc.1 p).mLoopScore) (1 / 10) sc.2
        selectLoop (floatMul34 acc.2) acc.1) = [pA, pB] := by
  have hmax : maxCommonWordsLoop (fun p => (g.1 p).mnLoopWords) g.2 = 1 := by
    simp [maxCommonWordsLoop, h2, hwA, hwB]
  have hmin : minCommonWordsOf 1 = 0 := by decide
  refine ⟨hmax, hmin, ?_⟩
  have hsc : (g.2.foldl (loopScoreStep score qbow (1 / 10) 0) (g.1, [])).2
      = [(1, pA), (1, pB)] := by
    rw [loopScoreFold_snd score qbow (1 / 10) 0 g.1 g.2 (g.1, []) (fun p => ⟨rfl, rfl⟩)]
    simp [h2, hwA, hwB, hsA, hsB]
    norm_num
  rw [hmax, hmin]
  simp only [hsc]
  simp only [h2, List.isEmpty_cons, Bool.false_eq_true, if_false]
  exact scenario_select (fun p => cov.GetBestCovisibilityKeyFrames p 10) _ _ pA pB hne hnA hnB

/-- Claim C11 (spec scenario).  On the index of vocabulary size 5 built by `add(A)`
(words 0 and 1) and `add(B)` (words 1 and 2), for a query `Q` with the single
word 1, an empty connected set, no covisibility neighbours of `A` and `B`, a
scorer giving 1 for `(Q, A)` and `(Q, B)`, `minScore = 1/10` and neither `A` nor
`B` tagged with the id of `Q` on entry: the gather lists `A` and `B` with
shared-word count 1 each, `maxCommonWords = 1`, `minCommonWords = 0`, and
`DetectLoopCandidates` returns exactly `[A, B]`. -/
theorem spec_scenario_returns_both (score : BowVector → BowVector → ℚ) (cov : Covisibility)
    (heap : Heap) (pA pB pQ : KFPtr) (a0 a1 b1 b2 q1 : ℚ) (db : KeyFrameDatabase)
    (hA : (heap pA).mBowVec = [(0, a0), (1, a1)])
    (hB : (heap pB).mBowVec = [(1, b1), (2, b2)])
    (hQ : (heap pQ).mBowVec = [(1, q1)])
    (hdb : ((KeyFrameDatabase.new 5).add heap pA).bind (fun d => d.add heap pB) = some db)
    (hconn : cov.GetConnectedKeyFrames pQ = [])
    (hnA : cov.GetBestCovisibilityKeyFrames pA 10 = [])
    (hnB : cov.GetBestCovisibilityKeyFrames pB 10 = [])
    (hsA : score (heap pQ).mBowVec (heap pA).mBowVec = 1)
    (hsB : score (heap pQ).mBowVec (heap pB).mBowVec = 1)
    (htA : (heap pA).mnLoopQuery ≠ (heap pQ).mnId)
    (htB : (heap pB).mnLoopQuery ≠ (heap pQ).mnId) :
    ∃ g, loopGather db.mvInvertedFile (heap pQ).mnId (cov.GetConnectedKeyFrames pQ)
        (heap pQ).mBowVec (heap, []) = some g ∧
      g.2 = [pA, pB] ∧ (g.1 pA).mnLoopWords = 1 ∧ (g.1 pB).mnLoopWords = 1 ∧
      maxCommonWordsLoop (fun p => (g.1 p).mnLoopWords) g.2 = 1 ∧
      minCommonWordsOf 1 = 0 ∧
      ∃ o, DetectLoopCandidates score cov db heap pQ (1 / 10) = some o ∧ o.ret = [pA, pB] := by
  have hne : pA ≠ pB := by
    intro e
    rw [e, hB] at hA
    simp at hA
  rw [scenario_index heap pA pB a0 a1 b1 b2 hA hB] at hdb
  have hdb' := (Option.some.inj hdb).symm
  obtain ⟨g, hg, h2, hwA, hwB, hbA, hbB⟩ :=
    scenario_gather heap pA pB (heap pQ).mnId q1 hne htA htB
  have hg' : loopGather db.mvInvertedFile (heap pQ).mnId (cov.GetConnectedKeyFrames pQ)
      (heap pQ).mBowVec (heap, []) = some g := by
    rw [hdb', hconn, hQ]; exact hg
  obtain ⟨hmax, hmin, hrank⟩ := scenario_ranking score cov (heap pQ).mBowVec (heap pQ).mnId g
    pA pB hne h2 hwA hwB (by rw [hbA]; exact hsA) (by rw [hbB]; exact hsB) hnA hnB
  obtain ⟨o, ho, _, hret⟩ := DetectLoopCandidates_of_gather score cov db heap pQ (1 / 10) g hg'
  exact ⟨g, hg', h2, hwA, hwB, hmax, hmin, o, ho, hret.trans hrank⟩

/-- Claim C11 at the running example. -/
theorem spec_scenario_returns_both_witness :
    ∃ o, DetectLoopCandidates sampleScore sampleCov sampleDb sampleHeap 9 (1 / 10) = some o ∧
      o.ret = [1, 2] := by
  obtain ⟨_, _, _, _, _, _, _, h⟩ :=
    spec_scenario_returns_both sampleScore sampleCov sampleHeap 1 2 9 1 1 1 1 1 sampleDb
      rfl rfl rfl rfl rfl rfl rfl (by decide!) (by decide!) (by decide) (by decide)
  exact h

theorem loopGather_eq_fold (inv : List (List LightKeyFrame)) (qid : Nat) (conn : List KFPtr) :
    ∀ (bow : BowVector) (s : Heap × List KFPtr), (∀ w ∈ bow.words, w < inv.length) →
      loopGather inv qid conn bow s
        = some ((visitedPostings inv bow).foldl (loopGatherStep qid conn) s) := by
  intro bow
  induction bow with
  | nil => intro s _; rfl
  | cons e rest ih =>
    obtain ⟨w0, x0⟩ := e
    intro s hr
    have hw0 : w0 < inv.length := hr w0 (by simp [BowVector.words])
    simp only [loopGather, List.getElem?_eq_getElem hw0, visitedPostings, List.foldl_append]
    rw [ih _ (fun w hw => hr w (by simp [BowVector.words] at hw ⊢; exact Or.inr hw))]
    simp [List.getD, List.getElem?_eq_getElem hw0]

theorem topoGather_eq_fold (inv : List (List LightKeyFrame)) (conn : List Nat) :
    ∀ (bow : BowVector) (s : (Nat → Option Int) × List Nat),
      (∀ w ∈ bow.words, w < inv.length) →
      topoGather inv conn bow s
        = some ((visitedPostings inv bow).foldl (topoGatherStep conn) s) := by
  intro bow
  induction bow with
  | nil => intro s _; rfl
  | cons e rest ih =>
    obtain ⟨w0, x0⟩ := e
    intro s hr
    have hw0 : w0 < inv.length := hr w0 (by simp [BowVector.words])
    simp only [topoGather, List.getElem?_eq_getElem hw0, visitedPostings, List.foldl_append]
    rw [ih _ (fun w hw => hr w (by simp [BowVector.words] at hw ⊢; exact Or.inr hw))]
    simp [List.getD, List.getElem?_eq_getElem hw0]

theorem relocGather_eq_fold (inv : List (List LightKeyFrame)) (fid : Nat) :
    ∀ (bow : BowVector) (s : Heap × List KFPtr), (∀ w ∈ bow.words, w < inv.length) →
      relocGather inv fid bow s
        = some ((visitedPostings inv bow).foldl (relocGatherStep fid) s) := by
  intro bow
  induction bow with
  | nil => intro s _; rfl
  | cons e rest ih =>
    obtain ⟨w0, x0⟩ := e
    intro s hr
    have hw0 : w0 < inv.length := hr w0 (by simp [BowVector.words])
    simp only [relocGather, List.getElem?_eq_getElem hw0, visitedPostings, List.foldl_append]
    rw [ih _ (fun w hw => hr w (by simp [BowVector.words] at hw ⊢; exact Or.inr hw))]
    simp [List.getD, List.getElem?_eq_getElem hw0]

theorem firstOccurrences_append_singleton {α : Type} [DecidableEq α] (l : List α) (x : α) :
    firstOccurrences (l ++ [x])
      = if x ∈ firstOccurrences l then firstOccurrences l else firstOccurrences l ++ [x] := by
  simp [firstOccurrences, List.foldl_append]

theorem mem_firstOccurrences {α : Type} [DecidableEq α] (l : List α) (x : α) :
    x ∈ firstOccurrences l ↔ x ∈ l := by
  induction l using List.reverseRecOn with
  | nil => simp [firstOccurrences]
  | append_singleton l y ih =>
    rw [firstOccurrences_append_singleton]
    split
    · next h =>
      constructor
      · intro hx; exact List.mem_append_left _ (ih.1 hx)
      · intro hx
        rcases List.mem_append.1 hx with h1 | h1
        · exact ih.2 h1
        · rw [List.mem_singleton] at h1; rw [h1]; exact h
    · simp [ih]

theorem firstOccurrences_nodup {α : Type} [DecidableEq α] (l : List α) :
    (firstOccurrences l).Nodup := by
  induction l using List.reverseRecOn with
  | nil => simp [firstOccurrences]
  | append_singleton l y ih =>
    rw [firstOccurrences_append_singleton]
    split
    · exact ih
    · next h =>
      rw [List.nodup_append]
      refine ⟨ih, List.nodup_singleton _, ?_⟩
      intro a ha hb
      rw [List.mem_singleton] at hb
      subst hb
      exact h ha

theorem loopGatherStep_some (qid : Nat) (conn : List KFPtr) (s : Heap × List KFPtr)
    (r : LightKeyFrame) (p : KFPtr) (hr : r.getKeyFrame = some p) :
    loopGatherStep qid conn s r =
      if (s.1 p).mnLoopQuery = qid then
        (Function.update s.1 p { s.1 p with mnLoopWords := (s.1 p).mnLoopWords + 1 }, s.2)
      else if p ∈ conn then
        (Function.update s.1 p { s.1 p with mnLoopWords := 1 }, s.2)
      else
        (Function.update s.1 p { s.1 p with mnLoopWords := 1, mnLoopQuery := qid },
          s.2 ++ [p]) := by
  unfold loopGatherStep
  rw [hr]
  by_cases ht : (s.1 p).mnLoopQuery = qid
  · simp [ht]
  · by_cases hc : p ∈ conn
    · simp [ht, hc]
    · simp [ht, hc]

/-- The gather of `DetectLoopCandidates` over a flat list of postings, started with
no keyframe tagged by the query: the candidates are the live, non-connected
keyframes in order of first occurrence, exactly they carry the tag, and their
word count is their number of postings. -/
theorem loopGatherFold_fresh (qid : Nat) (conn : List KFPtr) (h0 : Heap)
    (hfresh : ∀ p, (h0 p).mnLoopQuery ≠ qid) :
    ∀ V : List LightKeyFrame,
      (V.foldl (loopGatherStep qid conn) (h0, [])).2
          = firstOccurrences ((liveHandles V).filter (fun p => decide (p ∉ conn))) ∧
      (∀ p, ((V.foldl (loopGatherStep qid conn) (h0, [])).1 p).mnLoopQuery = qid ↔
          p ∈ (V.foldl (loopGatherStep qid conn) (h0, [])).2) ∧
      (∀ p ∈ (V.foldl (loopGatherStep qid conn) (h0, [])).2,
          ((V.foldl (loopGatherStep qid conn) (h0, [])).1 p).mnLoopWords
            = ((liveHandles V).count p : Int)) ∧
      (∀ p, ((V.foldl (loopGatherStep qid conn) (h0, [])).1 p).mBowVec = (h0 p).mBowVec) := by
  intro V
  induction V using List.reverseRecOn with
  | nil =>
    refine ⟨by simp [liveHandles, firstOccurrences], ?_, by simp, fun p => rfl⟩
    intro p
    simp [hfresh p]
  | append_singleton V r ih =>
    rw [List.foldl_append]
    simp only [List.foldl_cons, List.foldl_nil]
    generalize V.foldl (loopGatherStep qid conn) (h0, []) = s at ih ⊢
    obtain ⟨ih1, ih2, ih3, ih4⟩ := ih
    cases hr : r.getKeyFrame with
    | none =>
      have hs : loopGatherStep qid conn s r = s := by
        unfold loopGatherStep; rw [hr]
      have hl : liveHandles (V ++ [r]) = liveHandles V := by
        simp [liveHandles, List.filterMap_append, hr]
      rw [hs, hl]
      exact ⟨ih1, ih2, ih3, ih4⟩
    | some p =>
      have hl : liveHandles (V ++ [r]) = liveHandles V ++ [p] := by
        simp [liveHandles, List.filterMap_append, hr]
      rw [loopGatherStep_some qid conn s r p hr, hl]
      have hmem : ∀ q, q ∈ s.2 ↔ (q ∈ liveHandles V ∧ q ∉ conn) := by
        intro q
        rw [ih1, mem_firstOccurrences, List.mem_filter]
        simp
      by_cases ht : (s.1 p).mnLoopQuery = qid
      · have hp : p ∈ s.2 := (ih2 p).1 ht
        have hpc : p ∉ conn := ((hmem p).1 hp).2
        simp only [ht, if_true]
        refine ⟨?_, ?_, ?_, ?_⟩
        · rw [List.filter_append, ih1]
          simp only [List.filter_cons, List.filter_nil, hpc, not_false_eq_true, decide_True,
            if_true]
          rw [firstOccurrences_append_singleton, if_pos (by rw [← ih1]; exact hp)]
        · intro q
          by_cases e : q = p
          · subst e; simp [ht, hp]
          · rw [Function.update_noteq e]; exact ih2 q
        · intro q hq
          by_cases e : q = p
          · subst e
            simp [ih3 q hq, List.count_append]
          · rw [Function.update_noteq e, ih3 q hq]
            simp [List.count_append, List.count_cons, e]
        · intro q
          by_cases e : q = p
          · subst e; simp [ih4 q]
          · rw [Function.update_noteq e]; exact ih4 q
      · have hp : p ∉ s.2 := fun h => ht ((ih2 p).2 h)
        simp only [ht, if_false]
        by_cases hc : p ∈ conn
        · simp only [hc, if_true]
          refine ⟨?_, ?_, ?_, ?_⟩
          · rw [List.filter_append, ih1]
            simp [hc]
          · intro q
            by_cases e : q = p
            · subst e; simp [ht, hp]
            · rw [Function.update_noteq e]; exact ih2 q
          · intro q hq
            have e : q ≠ p := fun e => hp (e ▸ hq)
            rw [Function.update_noteq e, ih3 q hq]
            simp [List.count_append, List.count_cons, e]
          · intro q
            by_cases e : q = p
            · subst e; simp [ih4 q]
            · rw [Function.update_noteq e]; exact ih4 q
        · simp only [hc, if_false]
          have hnl : p ∉ liveHandles V := fun h => hp ((hmem p).2 ⟨h, hc⟩)
          refine ⟨?_, ?_, ?_, ?_⟩
          · rw [List.filter_append, ih1]
            simp only [List.filter_cons, List.filter_nil, hc, not_false_eq_true, decide_True,
              if_true]
            rw [firstOccurrences_append_singleton, if_neg (by rw [← ih1]; exact hp)]
          · intro q
            by_cases e : q = p
            · subst e; simp
            · rw [Function.update_noteq e]
              simp only [List.mem_append, List.mem_singleton, e, or_false]
              exact ih2 q
          · intro q hq
            by_cases e : q = p
            · subst e
              simp [List.count_append, List.count_eq_zero_of_not_mem hnl]
            · rw [Function.update_noteq e]
              have hq' : q ∈ s.2 := by
                rcases List.mem_append.1 hq with h | h
                · exact h
                · rw [List.mem_singleton] at h; exact absurd h e
              rw [ih3 q hq']
              simp [List.count_append, List.count_cons, e]
          · intro q
            by_cases e : q = p
            · subst e; simp [ih4 q]
            · rw [Function.update_noteq e]; exact ih4 q

/-- The gather of `DetectLoopCandidatesInTopoMap` over a flat list of postings: the
candidates are the non-connected ids in order of first occurrence, and
`mLoopWords` holds, for exactly these ids, their number of postings. -/
theorem topoGatherFold_spec (conn : List Nat) :
    ∀ V : List LightKeyFrame,
      (V.foldl (topoGatherStep conn) (fun _ => none, [])).2
          = firstOccurrences ((postingIds V).filter (fun id => decide (id ∉ conn))) ∧
      (∀ id, (V.foldl (topoGatherStep conn) (fun _ => none, [])).1 id
          = if id ∈ (V.foldl (topoGatherStep conn) (fun _ => none, [])).2
            then some (((postingIds V).count id : Nat) : Int) else none) := by
  intro V
  induction V using List.reverseRecOn with
  | nil => simp [postingIds, firstOccurrences]
  | append_singleton V r ih =>
    rw [List.foldl_append]
    simp only [List.foldl_cons, List.foldl_nil]
    generalize V.foldl (topoGatherStep conn) (fun _ => none, []) = s at ih ⊢
    obtain ⟨ih1, ih2⟩ := ih
    have hl : postingIds (V ++ [r]) = postingIds V ++ [r.mnId] := by simp [postingIds]
    have hmem : ∀ q, q ∈ s.2 ↔ (q ∈ postingIds V ∧ q ∉ conn) := by
      intro q
      rw [ih1, mem_firstOccurrences, List.mem_filter]
      simp
    rw [hl]
    unfold topoGatherStep
    by_cases hc : r.mnId ∈ conn
    · simp only [hc, not_true_eq_false, if_false]
      have hp : r.mnId ∉ s.2 := fun h => ((hmem _).1 h).2 hc
      refine ⟨?_, ?_⟩
      · rw [List.filter_append, ih1]; simp [hc]
      · intro id
        rw [ih2 id]
        by_cases hid : id ∈ s.2
        · have e : id ≠ r.mnId := fun e => hp (e ▸ hid)
          simp [hid, List.count_append, List.count_cons, e]
        · simp [hid]
    · simp only [hc, not_false_eq_true, if_true]
      by_cases hn : s.1 r.mnId = none
      · have hp : r.mnId ∉ s.2 := by
          intro h
          have := ih2 r.mnId
          rw [hn, if_pos h] at this
          exact absurd this (by simp)
        have hnl : r.mnId ∉ postingIds V := fun h => hp ((hmem _).2 ⟨h, hc⟩)
        simp only [hn, if_true]
        refine ⟨?_, ?_⟩
        · rw [List.filter_append, ih1]
          simp only [List.filter_cons, List.filter_nil, hc, not_false_eq_true, decide_True,
            if_true]
          rw [firstOccurrences_append_singleton, if_neg (by rw [← ih1]; exact hp)]
        · intro id
          by_cases e : id = r.mnId
          · subst e
            simp [List.count_append, List.count_eq_zero_of_not_mem hnl]
          · rw [Function.update_noteq e, Function.update_noteq e, ih2 id]
            simp [List.count_append, List.count_cons, e]
      · have hp : r.mnId ∈ s.2 := by
          by_contra h
          have := ih2 r.mnId
          rw [if_neg h] at this
          exact hn this
        simp only [hn, if_false]
        refine ⟨?_, ?_⟩
        · rw [List.filter_append, ih1]
          simp only [List.filter_cons, List.filter_nil, hc, not_false_eq_true, decide_True,
            if_true]
          rw [firstOccurrences_append_singleton, if_pos (by rw [← ih1]; exact hp)]
        · intro id
          by_cases e : id = r.mnId
          · subst e
            have := ih2 r.mnId
            rw [if_pos hp] at this
            simp [this, hp, List.count_append]
          · rw [Function.update_noteq e, ih2 id]
            simp [List.count_append, List.count_cons, e]

theorem loopScoreFold_score (score : BowVector → BowVector → ℚ) (qbow : BowVector)
    (minScore : ℚ) (minCommonWords : Int) (h0 : Heap) :
    ∀ (l : List KFPtr) (s : Heap × List (ℚ × KFPtr)),
      (∀ p, (s.1 p).mnLoopWords = (h0 p).mnLoopWords ∧ (s.1 p).mBowVec = (h0 p).mBowVec) →
      ∀ p, ((l.foldl (loopScoreStep score qbow minScore minCommonWords) s).1 p).mLoopScore
        = if p ∈ l ∧ (h0 p).mnLoopWords > minCommonWords then score qbow (h0 p).mBowVec
          else (s.1 p).mLoopScore := by
  intro l
  induction l with
  | nil => intro s _ p; simp
  | cons x rest ih =>
    intro s hs p
    simp only [List.foldl_cons]
    have hs' : ∀ q, ((loopScoreStep score qbow minScore minCommonWords s x).1 q).mnLoopWords
          = (h0 q).mnLoopWords ∧
        ((loopScoreStep score qbow minScore minCommonWords s x).1 q).mBowVec
          = (h0 q).mBowVec := by
      intro q
      obtain ⟨_, b2, b3⟩ := loopScoreStep_fields score qbow minScore minCommonWords s x q
      exact ⟨b2.trans (hs q).1, b3.trans (hs q).2⟩
    rw [ih _ hs' p]
    by_cases hr : p ∈ rest ∧ (h0 p).mnLoopWords > minCommonWords
    · have : p ∈ x :: rest ∧ (h0 p).mnLoopWords > minCommonWords :=
        ⟨List.mem_cons_of_mem _ hr.1, hr.2⟩
      rw [if_pos hr, if_pos this]
    · rw [if_neg hr]
      unfold loopScoreStep
      rw [(hs x).1, (hs x).2]
      by_cases e : p = x
      · subst e
        by_cases hw : (h0 p).mnLoopWords > minCommonWords
        · simp only [hw, if_true, List.mem_cons, true_or, and_self]
          split <;> simp
        · simp [hw]
      · have hne : ¬ (p ∈ x :: rest ∧ (h0 p).mnLoopWords > minCommonWords) := by
          intro h
          rcases List.mem_cons.1 h.1 with h1 | h1
          · exact e h1
          · exact hr ⟨h1, h.2⟩
        rw [if_neg hne]
        split
        · simp only; split <;> simp [Function.update_noteq e]
        · rfl

theorem topoScoreFold_spec (score : BowVector → BowVector → ℚ) (topo : TopoMap)
    (qbow : BowVector) (minScore : ℚ) (mLoopWords : Nat → Option Int) (minCommonWords : Int) :
    ∀ (l : List Nat) (s : (Nat → Option ℚ) × List (ℚ × Nat)),
      (l.foldl (topoScoreStep score topo qbow minScore mLoopWords minCommonWords) s).2
        = s.2 ++ ((l.filter (fun id => decide ((mLoopWords id).getD 0 > minCommonWords))).map
            (fun id => (score qbow (topo.getKeyFrameBowVector id), id))).filter
              (fun it => decide (it.1 ≥ minScore)) ∧
      ∀ id, (l.foldl (topoScoreStep score topo qbow minScore mLoopWords minCommonWords) s).1 id
        = if id ∈ l ∧ (mLoopWords id).getD 0 > minCommonWords
          then some (score qbow (topo.getKeyFrameBowVector id)) else s.1 id := by
  intro l
  induction l with
  | nil => intro s; simp
  | cons x rest ih =>
    intro s
    simp only [List.foldl_cons]
    obtain ⟨ih1, ih2⟩ := ih (topoScoreStep score topo qbow minScore mLoopWords minCommonWords s x)
    refine ⟨?_, ?_⟩
    · rw [ih1]
      unfold topoScoreStep
      by_cases hw : (mLoopWords x).getD 0 > minCommonWords
      · by_cases hm : score qbow (topo.getKeyFrameBowVector x) ≥ minScore
        · simp [hw, hm, List.filter_cons]
        · simp [hw, hm, List.filter_cons]
      · simp [hw, List.filter_cons]
    · intro id
      rw [ih2 id]
      by_cases hr : id ∈ rest ∧ (mLoopWords id).getD 0 > minCommonWords
      · have : id ∈ x :: rest ∧ (mLoopWords id).getD 0 > minCommonWords :=
          ⟨List.mem_cons_of_mem _ hr.1, hr.2⟩
        rw [if_pos hr, if_pos this]
      · rw [if_neg hr]
        unfold topoScoreStep
        by_cases e : id = x
        · subst e
          by_cases hw : (mLoopWords id).getD 0 > minCommonWords
          · simp only [hw, if_true, List.mem_cons, true_or, and_self]
            split <;> simp
          · simp [hw]
        · have hne : ¬ (id ∈ x :: rest ∧ (mLoopWords id).getD 0 > minCommonWords) := by
            intro h
            rcases List.mem_cons.1 h.1 with h1 | h1
            · exact e h1
            · exact hr ⟨h1, h.2⟩
          rw [if_neg hne]
          split
          · simp only; split <;> simp [Function.update_noteq e]
          · rfl

theorem relocScoreStep_fields (score : BowVector → BowVector → ℚ) (fbow : BowVector)
    (minCommonWords : Int) (s : Heap × List (ℚ × KFPtr)) (pKFi p : KFPtr) :
    ((relocScoreStep score fbow minCommonWords s pKFi).1 p).mnRelocQuery
        = (s.1 p).mnRelocQuery ∧
    ((relocScoreStep score fbow minCommonWords s pKFi).1 p).mnRelocWords
        = (s.1 p).mnRelocWords ∧
    ((relocScoreStep score fbow minCommonWords s pKFi).1 p).mBowVec
        = (s.1 p).mBowVec := by
  unfold relocScoreStep
  by_cases e : p = pKFi
  · subst e
    split <;> simp
  · split
    · simp [Function.update_noteq e]
    · simp

theorem relocScoreFold_spec (score : BowVector → BowVector → ℚ) (fbow : BowVector)
    (minCommonWords : Int) (h0 : Heap) :
    ∀ (l : List KFPtr) (s : Heap × List (ℚ × KFPtr)),
      (∀ p, (s.1 p).mnRelocWords = (h0 p).mnRelocWords ∧ (s.1 p).mBowVec = (h0 p).mBowVec) →
      (l.foldl (relocScoreStep score fbow minCommonWords) s).2
        = s.2 ++ (l.filter (fun p => decide ((h0 p).mnRelocWords > minCommonWords))).map
            (fun p => (score fbow (h0 p).mBowVec, p)) ∧
      (∀ p, ((l.foldl (relocScoreStep score fbow minCommonWords) s).1 p).mRelocScore
        = if p ∈ l ∧ (h0 p).mnRelocWords > minCommonWords then score fbow (h0 p).mBowVec
          else (s.1 p).mRelocScore) ∧
      (∀ p, ((l.foldl (relocScoreStep score fbow minCommonWords) s).1 p).mnRelocQuery
          = (s.1 p).mnRelocQuery ∧
        ((l.foldl (relocScoreStep score fbow minCommonWords) s).1 p).mnRelocWords
          = (s.1 p).mnRelocWords) := by
  intro l
  induction l with
  | nil => intro s _; simp
  | cons x rest ih =>
    intro s hs
    simp only [List.foldl_cons]
    have hs' : ∀ q, ((relocScoreStep score fbow minCommonWords s x).1 q).mnRelocWords
          = (h0 q).mnRelocWords ∧
        ((relocScoreStep score fbow minCommonWords s x).1 q).mBowVec = (h0 q).mBowVec := by
      intro q
      obtain ⟨_, b2, b3⟩ := relocScoreStep_fields score fbow minCommonWords s x q
      exact ⟨b2.trans (hs q).1, b3.trans (hs q).2⟩
    obtain ⟨ih1, ih2, ih3⟩ := ih _ hs'
    refine ⟨?_, ?_, ?_⟩
    · rw [ih1]
      unfold relocScoreStep
      rw [(hs x).1, (hs x).2]
      by_cases hw : (h0 x).mnRelocWords > minCommonWords
      · simp [hw, List.filter_cons]
      · simp [hw, List.filter_cons]
    · intro p
      rw [ih2 p]
      by_cases hr : p ∈ rest ∧ (h0 p).mnRelocWords > minCommonWords
      · have : p ∈ x :: rest ∧ (h0 p).mnRelocWords > minCommonWords :=
          ⟨List.mem_cons_of_mem _ hr.1, hr.2⟩
        rw [if_pos hr, if_pos this]
      · rw [if_neg hr]
        unfold relocScoreStep
        rw [(hs x).1, (hs x).2]
        by_cases e : p = x
        · subst e
          by_cases hw : (h0 p).mnRelocWords > minCommonWords
          · simp [hw]
          · simp [hw]
        · have hne : ¬ (p ∈ x :: rest ∧ (h0 p).mnRelocWords > minCommonWords) := by
            intro h
            rcases List.mem_cons.1 h.1 with h1 | h1
            · exact e h1
            · exact hr ⟨h1, h.2⟩
          rw [if_neg hne]
          split
          · simp [Function.update_noteq e]
          · rfl
    · intro p
      obtain ⟨a1, a2⟩ := ih3 p
      obtain ⟨b1, b2, _⟩ := relocScoreStep_fields score fbow minCommonWords s x p
      exact ⟨a1.trans b1, a2.trans b2⟩

theorem neighStep_congr {α : Type} (c c' : α → Bool) (s s' : α → ℚ)
    (hc : ∀ p, c p = c' p) (hs : ∀ p, c p = true → s p = s' p) :
    neighStep c s = neighStep c' s' := by
  funext st n
  unfold neighStep
  rw [← hc n]
  by_cases h : c n = true
  · simp only [h, if_true, hs n h]
  · simp [h]

theorem accumulate_congr {α : Type} (neighs : α → List α) (c c' : α → Bool) (s s' : α → ℚ)
    (hc : ∀ p, c p = c' p) (hs : ∀ p, c p = true → s p = s' p) (seed : ℚ)
    (l : List (ℚ × α)) :
    accumulate neighs c s seed l = accumulate neighs c' s' seed l := by
  unfold accumulate
  have : accumulateStep neighs c s = accumulateStep neighs c' s' := by
    funext st it
    unfold accumulateStep groupOf
    rw [neighStep_congr c c' s s' hc hs]
  rw [this]

theorem maxCommonWordsFold_congr {α : Type} (w w' : α → Int) :
    ∀ (l : List α) (m : Int), (∀ p ∈ l, w p = w' p) →
      l.foldl (fun m p => if w p > m then w p else m) m
        = l.foldl (fun m p => if w' p > m then w' p else m) m := by
  intro l
  induction l with
  | nil => intro m _; rfl
  | cons x rest ih =>
    intro m h
    simp only [List.foldl_cons]
    rw [h x (List.mem_cons_self _ _)]
    exact ih _ (fun p hp => h p (List.mem_cons_of_mem _ hp))

theorem maxCommonWordsLoop_congr {α : Type} (w w' : α → Int) (l : List α)
    (h : ∀ p ∈ l, w p = w' p) : maxCommonWordsLoop w l = maxCommonWordsLoop w' l :=
  maxCommonWordsFold_congr w w' l 0 h

/-- With no keyframe tagged by the query on entry, `DetectLoopCandidates` returns
what the reference ranking returns on the live, non-connected keyframes posted
under the words of the query, counted by their postings. -/
theorem DetectLoopCandidates_eq_reference (score : BowVector → BowVector → ℚ)
    (cov : Covisibility) (db : KeyFrameDatabase) (heap : Heap) (pKF : KFPtr) (minScore : ℚ)
    (hrange : ∀ w ∈ (heap pKF).mBowVec.words, w < db.mvInvertedFile.length)
    (hfresh : ∀ p, (heap p).mnLoopQuery ≠ (heap pKF).mnId) :
    ∃ o, DetectLoopCandidates score cov db heap pKF minScore = some o ∧
      o.ret = rankReference (fun p => cov.GetBestCovisibilityKeyFrames p 10)
        (fun p => score (heap pKF).mBowVec (heap p).mBowVec)
        (fun p => (((liveHandles (visitedPostings db.mvInvertedFile
          (heap pKF).mBowVec)).count p : Nat) : Int))
        minScore
        (firstOccurrences ((liveHandles (visitedPostings db.mvInvertedFile
          (heap pKF).mBowVec)).filter
            (fun p => decide (p ∉ cov.GetConnectedKeyFrames pKF)))) := by
  have hg := loopGather_eq_fold db.mvInvertedFile (heap pKF).mnId
    (cov.GetConnectedKeyFrames pKF) (heap pKF).mBowVec (heap, []) hrange
  obtain ⟨o, ho, _, hret⟩ := DetectLoopCandidates_of_gather score cov db heap pKF minScore _ hg
  refine ⟨o, ho, ?_⟩
  rw [hret]
  obtain ⟨g1, g2, g3, g4⟩ := loopGatherFold_fresh (heap pKF).mnId
    (cov.GetConnectedKeyFrames pKF) heap hfresh
    (visitedPostings db.mvInvertedFile (heap pKF).mBowVec)
  generalize (visitedPostings db.mvInvertedFile (heap pKF).mBowVec).foldl
    (loopGatherStep (heap pKF).mnId (cov.GetConnectedKeyFrames pKF)) (heap, []) = g
    at g1 g2 g3 g4 ⊢
  generalize liveHandles (visitedPostings db.mvInvertedFile (heap pKF).mBowVec) = H
    at g1 g3 ⊢
  unfold rankReference
  rw [← g1]
  have hmax : maxCommonWordsLoop (fun p => (g.1 p).mnLoopWords) g.2
      = maxCommonWordsLoop (fun p => ((H.count p : Nat) : Int)) g.2 :=
    maxCommonWordsLoop_congr _ _ _ g3
  rw [hmax]
  generalize minCommonWordsOf (maxCommonWordsLoop (fun p => ((H.count p : Nat) : Int)) g.2)
    = mc
  by_cases hge : g.2.isEmpty = true
  · simp [hge]
  · simp only [hge, Bool.false_eq_true, if_false]
    have hsnd := loopScoreFold_snd score (heap pKF).mBowVec minScore mc g.1 g.2 (g.1, [])
      (fun p => ⟨rfl, rfl⟩)
    have hfilt : g.2.filter (fun p => decide ((g.1 p).mnLoopWords > mc))
        = g.2.filter (fun p => decide (((H.count p : Nat) : Int) > mc)) := by
      apply List.filter_congr
      intro p hp
      rw [g3 p hp]
    have hmap : (g.2.filter (fun p => decide (((H.count p : Nat) : Int) > mc))).map
          (fun p => (score (heap pKF).mBowVec (g.1 p).mBowVec, p))
        = (g.2.filter (fun p => decide (((H.count p : Nat) : Int) > mc))).map
          (fun p => (score (heap pKF).mBowVec (heap p).mBowVec, p)) := by
      apply List.map_congr_left
      intro p _
      rw [g4 p]
    rw [hfilt, hmap, List.nil_append] at hsnd
    rw [hsnd]
    split
    · rfl
    · congr 1
      · congr 1
        apply congrArg
        apply accumulate_congr
        · intro p
          rw [(loopScoreFold_fields _ _ _ _ _ _ p).1, (loopScoreFold_fields _ _ _ _ _ _ p).2.1]
          by_cases hp : p ∈ g.2
          · simp [(g2 p).2 hp, hp, g3 p hp]
          · have : ¬ (g.1 p).mnLoopQuery = (heap pKF).mnId := fun h => hp ((g2 p).1 h)
            simp [this, hp]
        · intro p hc
          simp only [Bool.and_eq_true, decide_eq_true_eq] at hc
          rw [(loopScoreFold_fields _ _ _ _ _ _ p).1, (loopScoreFold_fields _ _ _ _ _ _ p).2.1]
            at hc
          rw [loopScoreFold_score score _ minScore mc g.1 g.2 (g.1, []) (fun p => ⟨rfl, rfl⟩) p]
          have hp : p ∈ g.2 := (g2 p).1 hc.1
          rw [if_pos ⟨hp, hc.2⟩, g4 p]
      · apply congrArg
        apply accumulate_congr
        · intro p
          rw [(loopScoreFold_fields _ _ _ _ _ _ p).1, (loopScoreFold_fields _ _ _ _ _ _ p).2.1]
          by_cases hp : p ∈ g.2
          · simp [(g2 p).2 hp, hp, g3 p hp]
          · have : ¬ (g.1 p).mnLoopQuery = (heap pKF).mnId := fun h => hp ((g2 p).1 h)
            simp [this, hp]
        · intro p hc
          simp only [Bool.and_eq_true, decide_eq_true_eq] at hc
          rw [(loopScoreFold_fields _ _ _ _ _ _ p).1, (loopScoreFold_fields _ _ _ _ _ _ p).2.1]
            at hc
          rw [loopScoreFold_score score _ minScore mc g.1 g.2 (g.1, []) (fun p => ⟨rfl, rfl⟩) p]
          have hp : p ∈ g.2 := (g2 p).1 hc.1
          rw [if_pos ⟨hp, hc.2⟩, g4 p]

/-- `DetectLoopCandidatesInTopoMap` returns what the reference ranking returns on
the non-connected ids posted under the words of the query, counted by their
postings. -/
theorem DetectLoopCandidatesInTopoMap_eq_reference (score : BowVector → BowVector → ℚ)
    (topo : TopoMap) (db : KeyFrameDatabase) (heap : Heap) (pKF : KFPtr) (minScore : ℚ)
    (hrange : ∀ w ∈ (heap pKF).mBowVec.words, w < db.mvInvertedFile.length) :
    ∃ o, DetectLoopCandidatesInTopoMap score topo db heap pKF minScore = some o ∧
      o.ret = rankReference (fun id => topo.GetBestCovisibilityKeyFrames id 10)
        (fun id => score (heap pKF).mBowVec (topo.getKeyFrameBowVector id))
        (fun id => (((postingIds (visitedPostings db.mvInvertedFile
          (heap pKF).mBowVec)).count id : Nat) : Int))
        minScore
        (firstOccurrences ((postingIds (visitedPostings db.mvInvertedFile
          (heap pKF).mBowVec)).filter
            (fun id => decide (id ∉ topo.GetConnectedKeyFrames (heap pKF).mnId)))) := by
  have hg := topoGather_eq_fold db.mvInvertedFile (topo.GetConnectedKeyFrames (heap pKF).mnId)
    (heap pKF).mBowVec (fun _ => none, []) hrange
  obtain ⟨o, ho, _, _, hret⟩ :=
    DetectLoopCandidatesInTopoMap_of_gather score topo db heap pKF minScore _ hg
  refine ⟨o, ho, ?_⟩
  rw [hret]
  obtain ⟨g1, g2⟩ := topoGatherFold_spec (topo.GetConnectedKeyFrames (heap pKF).mnId)
    (visitedPostings db.mvInvertedFile (heap pKF).mBowVec)
  generalize (visitedPostings db.mvInvertedFile (heap pKF).mBowVec).foldl
    (topoGatherStep (topo.GetConnectedKeyFrames (heap pKF).mnId)) (fun _ => none, []) = g
    at g1 g2 ⊢
  generalize postingIds (visitedPostings db.mvInvertedFile (heap pKF).mBowVec) = H
    at g1 g2 ⊢
  unfold rankReference
  rw [← g1]
  have g3 : ∀ id ∈ g.2, (g.1 id).getD 0 = ((H.count id : Nat) : Int) := by
    intro id hid
    rw [g2 id, if_pos hid]; rfl
  have hmax : maxCommonWordsLoop (fun id => (g.1 id).getD 0) g.2
      = maxCommonWordsLoop (fun id => ((H.count id : Nat) : Int)) g.2 :=
    maxCommonWordsLoop_congr _ _ _ g3
  rw [hmax]
  generalize minCommonWordsOf (maxCommonWordsLoop (fun id => ((H.count id : Nat) : Int)) g.2)
    = mc
  by_cases hge : g.2.isEmpty = true
  · simp [hge]
  · simp only [hge, Bool.false_eq_true, if_false]
    obtain ⟨hsnd, hsc⟩ := topoScoreFold_spec score topo (heap pKF).mBowVec minScore g.1 mc g.2
      (fun _ => none, [])
    have hfilt : g.2.filter (fun id => decide ((g.1 id).getD 0 > mc))
        = g.2.filter (fun id => decide (((H.count id : Nat) : Int) > mc)) := by
      apply List.filter_congr
      intro p hp
      rw [g3 p hp]
    rw [hfilt, List.nil_append] at hsnd
    rw [hsnd]
    have hcontr : ∀ id, ((g.1 id).isSome &&
          ((g.2.foldl (topoScoreStep score topo (heap pKF).mBowVec minScore g.1 mc)
            (fun _ => none, [])).1 id).isSome && decide ((g.1 id).getD 0 > mc))
        = (decide (id ∈ g.2) && decide (((H.count id : Nat) : Int) > mc)) := by
      intro id
      rw [hsc id]
      by_cases hp : id ∈ g.2
      · rw [g3 id hp]
        have h1 : (g.1 id).isSome = true := by rw [g2 id, if_pos hp]; rfl
        by_cases hw : ((H.count id : Nat) : Int) > mc
        · simp [h1, hp, hw]
        · simp [h1, hp, hw]
      · have h1 : g.1 id = none := by rw [g2 id, if_neg hp]
        simp [h1, hp]
    have hscore : ∀ id, ((g.1 id).isSome &&
          ((g.2.foldl (topoScoreStep score topo (heap pKF).mBowVec minScore g.1 mc)
            (fun _ => none, [])).1 id).isSome && decide ((g.1 id).getD 0 > mc)) = true →
        ((g.2.foldl (topoScoreStep score topo (heap pKF).mBowVec minScore g.1 mc)
            (fun _ => none, [])).1 id).getD 0
          = score (heap pKF).mBowVec (topo.getKeyFrameBowVector id) := by
      intro id hc
      rw [hcontr id] at hc
      simp only [Bool.and_eq_true, decide_eq_true_eq] at hc
      rw [hsc id, if_pos ⟨hc.1, by rw [g3 id hc.1]; exact hc.2⟩]
      rfl
    split
    · rfl
    · congr 1
      · congr 1
        apply congrArg
        exact accumulate_congr _ _ _ _ _ hcontr hscore _ _
      · apply congrArg
        exact accumulate_congr _ _ _ _ _ hcontr hscore _ _

theorem firstOccurrences_map {α β : Type} [DecidableEq α] [DecidableEq β] (f : α → β)
    (l : List α) (hinj : ∀ p ∈ l, ∀ q ∈ l, f p = f q → p = q) :
    firstOccurrences (l.map f) = (firstOccurrences l).map f := by
  induction l using List.reverseRecOn with
  | nil => simp [firstOccurrences]
  | append_singleton l x ih =>
    have hinj' : ∀ p ∈ l, ∀ q ∈ l, f p = f q → p = q := fun p hp q hq =>
      hinj p (List.mem_append_left _ hp) q (List.mem_append_left _ hq)
    rw [List.map_append, List.map_singleton, firstOccurrences_append_singleton,
      firstOccurrences_append_singleton, ih hinj']
    have hiff : f x ∈ (firstOccurrences l).map f ↔ x ∈ firstOccurrences l := by
      constructor
      · intro h
        obtain ⟨y, hy, e⟩ := List.mem_map.1 h
        have hyl : y ∈ l := (mem_firstOccurrences l y).1 hy
        have := hinj y (List.mem_append_left _ hyl) x (by simp) e
        rw [← this]; exact hy
      · intro h; exact List.mem_map_of_mem f h
    by_cases hx : x ∈ firstOccurrences l
    · rw [if_pos (hiff.2 hx), if_pos hx]
    · rw [if_neg (fun h => hx (hiff.1 h)), if_neg hx]
      simp

theorem count_map_of_injOn {α β : Type} [DecidableEq α] [DecidableEq β] (f : α → β)
    (l : List α) (p : α) (hinj : ∀ q ∈ l, f q = f p → q = p) :
    (l.map f).count (f p) = l.count p := by
  induction l with
  | nil => rfl
  | cons x rest ih =>
    have ih' := ih (fun q hq => hinj q (List.mem_cons_of_mem _ hq))
    simp only [List.map_cons, List.count_cons, ih']
    by_cases e : x = p
    · simp [e]
    · have : f x ≠ f p := fun h => e (hinj x (List.mem_cons_self _ _) h)
      simp [e, this]

theorem selectFold_map {α β : Type} [DecidableEq α] [DecidableEq β] (f : α → β) (thr : ℚ)
    (S : α → Prop) (hinj : ∀ p q, S p → S q → f p = f q → p = q) :
    ∀ (l : List (ℚ × α)) (s : List α × List α),
      (∀ it ∈ l, S it.2) → (∀ x ∈ s.1, S x) →
      (l.map (fun it => (it.1, f it.2))).foldl (selectStep thr) (s.1.map f, s.2.map f)
        = (((l.foldl (selectStep thr) s).1).map f, ((l.foldl (selectStep thr) s).2).map f) := by
  intro l
  induction l with
  | nil => intro s _ _; rfl
  | cons it rest ih =>
    intro s hl hs
    simp only [List.map_cons, List.foldl_cons]
    have hit : S it.2 := hl it (List.mem_cons_self _ _)
    have hiff : f it.2 ∈ s.1.map f ↔ it.2 ∈ s.1 := by
      constructor
      · intro h
        obtain ⟨y, hy, e⟩ := List.mem_map.1 h
        have := hinj y it.2 (hs y hy) hit e
        rw [← this]; exact hy
      · intro h; exact List.mem_map_of_mem f h
    have hstep : selectStep thr (s.1.map f, s.2.map f) (it.1, f it.2)
        = (((selectStep thr s it).1).map f, ((selectStep thr s it).2).map f) := by
      unfold selectStep
      by_cases hgt : it.1 > thr
      · by_cases hin : it.2 ∈ s.1
        · simp [hgt, hin, hiff.2 hin]
        · have : ¬ f it.2 ∈ s.1.map f := fun h => hin (hiff.1 h)
          simp only [hgt, if_true, this, not_false_eq_true, hin]
          simp
      · simp [hgt]
    rw [hstep]
    apply ih
    · exact fun x hx => hl x (List.mem_cons_of_mem _ hx)
    · intro x hx
      unfold selectStep at hx
      split at hx
      · split at hx
        · rcases List.mem_cons.1 hx with h | h
          · rw [h]; exact hit
          · exact hs x h
        · exact hs x hx
      · exact hs x hx

theorem selectLoop_map {α β : Type} [DecidableEq α] [DecidableEq β] (f : α → β) (thr : ℚ)
    (S : α → Prop) (hinj : ∀ p q, S p → S q → f p = f q → p = q)
    (l : List (ℚ × α)) (hl : ∀ it ∈ l, S it.2) :
    selectLoop thr (l.map (fun it => (it.1, f it.2))) = (selectLoop thr l).map f := by
  have := selectFold_map f thr S hinj l ([], []) hl (by simp)
  simp only [List.map_nil] at this
  unfold selectLoop
  rw [this]

theorem neighFold_map {α β : Type} (f : α → β) (c : α → Bool) (s : α → ℚ)
    (c' : β → Bool) (s' : β → ℚ) :
    ∀ (ns : List α) (st : ℚ × ℚ × α),
      (∀ n ∈ ns, c' (f n) = c n ∧ s' (f n) = s n) →
      (ns.map f).foldl (neighStep c' s') (st.1, st.2.1, f st.2.2)
        = ((ns.foldl (neighStep c s) st).1, (ns.foldl (neighStep c s) st).2.1,
            f (ns.foldl (neighStep c s) st).2.2) := by
  intro ns
  induction ns with
  | nil => intro st _; rfl
  | cons n rest ih =>
    intro st h
    simp only [List.map_cons, List.foldl_cons]
    have hn := h n (List.mem_cons_self _ _)
    have hstep : neighStep c' s' (st.1, st.2.1, f st.2.2) (f n)
        = ((neighStep c s st n).1, (neighStep c s st n).2.1, f (neighStep c s st n).2.2) := by
      unfold neighStep
      rw [hn.1, hn.2]
      by_cases hc : c n = true
      · simp only [hc, if_true]
        split <;> rfl
      · simp [hc]
    rw [hstep]
    exact ih _ (fun m hm => h m (List.mem_cons_of_mem _ hm))

theorem neighFold_rep_mem {α : Type} (c : α → Bool) (s : α → ℚ) :
    ∀ (ns : List α) (st : ℚ × ℚ × α),
      (ns.foldl (neighStep c s) st).2.2 = st.2.2 ∨ (ns.foldl (neighStep c s) st).2.2 ∈ ns := by
  intro ns st
  rcases neighFold_rep c s ns st with h | ⟨n, hn, _, e⟩
  · exact Or.inl h
  · exact Or.inr (e ▸ hn)

theorem accumulateFold_map {α β : Type} (f : α → β) (neighs : α → List α) (c : α → Bool)
    (s : α → ℚ) (neighs' : β → List β) (c' : β → Bool) (s' : β → ℚ) (S : α → Prop)
    (hneigh : ∀ p, S p → neighs' (f p) = (neighs p).map f)
    (hcs : ∀ p, S p → ∀ n ∈ neighs p, c' (f n) = c n ∧ s' (f n) = s n) :
    ∀ (l : List (ℚ × α)) (st : List (ℚ × α) × ℚ), (∀ it ∈ l, S it.2) →
      (l.map (fun it => (it.1, f it.2))).foldl (accumulateStep neighs' c' s')
          (st.1.map (fun it => (it.1, f it.2)), st.2)
        = (((l.foldl (accumulateStep neighs c s) st).1).map (fun it => (it.1, f it.2)),
            (l.foldl (accumulateStep neighs c s) st).2) := by
  intro l
  induction l with
  | nil => intro st _; rfl
  | cons it rest ih =>
    intro st hl
    simp only [List.map_cons, List.foldl_cons]
    have hit : S it.2 := hl it (List.mem_cons_self _ _)
    have hg : groupOf neighs' c' s' (it.1, f it.2)
        = ((groupOf neighs c s it).1, f (groupOf neighs c s it).2) := by
      unfold groupOf
      simp only
      rw [hneigh it.2 hit, neighFold_map f c s c' s' (neighs it.2) (it.1, it.1, it.2)
        (hcs it.2 hit)]
    have hstep : accumulateStep neighs' c' s' (st.1.map (fun it => (it.1, f it.2)), st.2)
          (it.1, f it.2)
        = (((accumulateStep neighs c s st it).1).map (fun it => (it.1, f it.2)),
            (accumulateStep neighs c s st it).2) := by
      unfold accumulateStep
      simp only [hg, List.map_append, List.map_cons, List.map_nil]
    rw [hstep]
    exact ih _ (fun x hx => hl x (List.mem_cons_of_mem _ hx))

/-- The reference ranking commutes with a renaming of the candidates that is
injective on the keys in play. -/
theorem rankReference_map {α β : Type} [DecidableEq α] [DecidableEq β] (f : α → β)
    (S : α → Prop) (hinj : ∀ p q, S p → S q → f p = f q → p = q)
    (neighs : α → List α) (neighs' : β → List β) (scoreOf : α → ℚ) (scoreOf' : β → ℚ)
    (words : α → Int) (words' : β → Int) (minScore : ℚ) (cands : List α)
    (hc : ∀ p ∈ cands, S p)
    (hneigh : ∀ p, S p → neighs' (f p) = (neighs p).map f ∧ ∀ n ∈ neighs p, S n)
    (hscore : ∀ p, S p → scoreOf' (f p) = scoreOf p)
    (hwords : ∀ p, S p → words' (f p) = words p) :
    rankReference neighs' scoreOf' words' minScore (cands.map f)
      = (rankReference neighs scoreOf words minScore cands).map f := by
  unfold rankReference
  have hmax : maxCommonWordsLoop words' (cands.map f) = maxCommonWordsLoop words cands := by
    unfold maxCommonWordsLoop
    rw [List.foldl_map]
    exact maxCommonWordsFold_congr (fun p => words' (f p)) words cands 0
      (fun p hp => hwords p (hc p hp))
  rw [hmax]
  generalize minCommonWordsOf (maxCommonWordsLoop words cands) = mc
  by_cases he : cands.isEmpty = true
  · have : (cands.map f).isEmpty = true := by
      rw [List.isEmpty_iff] at he ⊢; rw [he]; rfl
    simp [he, this]
  · have he' : (cands.map f).isEmpty = false := by
      cases cands with
      | nil => simp at he
      | cons a as => rfl
    simp only [he, he', Bool.false_eq_true, if_false]
    have hseeds : (((cands.map f).filter (fun p => decide (words' p > mc))).map
          (fun p => (scoreOf' p, p))).filter (fun it => decide (it.1 ≥ minScore))
        = ((((cands.filter (fun p => decide (words p > mc))).map
          (fun p => (scoreOf p, p))).filter (fun it => decide (it.1 ≥ minScore))).map
            (fun it => (it.1, f it.2))) := by
      have h1 : (cands.map f).filter (fun p => decide (words' p > mc))
          = (cands.filter (fun p => decide (words p > mc))).map f := by
        rw [List.filter_map]
        congr 1
        apply List.filter_congr
        intro p hp
        simp only [Function.comp_apply, hwords p (hc p hp)]
      rw [h1]
      have hsub : ∀ p ∈ cands.filter (fun p => decide (words p > mc)), S p :=
        fun p hp => hc p (List.mem_filter.1 hp).1
      generalize cands.filter (fun p => decide (words p > mc)) = L at hsub ⊢
      induction L with
      | nil => rfl
      | cons x rest ih =>
        have ih' := ih (fun p hp => hsub p (List.mem_cons_of_mem _ hp))
        have hx := hscore x (hsub x (List.mem_cons_self _ _))
        simp only [List.map_cons, List.filter_cons, hx]
        split
        · simp only [List.map_cons]
          rw [ih']
        · exact ih'
    rw [hseeds]
    generalize hsd : ((cands.filter (fun p => decide (words p > mc))).map
          (fun p => (scoreOf p, p))).filter (fun it => decide (it.1 ≥ minScore)) = seeds
    have hseedsS : ∀ it ∈ seeds, S it.2 := by
      intro it hit
      rw [← hsd] at hit
      obtain ⟨p, hp, e⟩ := List.mem_map.1 (List.mem_filter.1 hit).1
      rw [← e]
      exact hc p (List.mem_filter.1 hp).1
    by_cases hs : seeds.isEmpty = true
    · have : (seeds.map (fun it => (it.1, f it.2))).isEmpty = true := by
        rw [List.isEmpty_iff] at hs ⊢; rw [hs]; rfl
      simp [hs, this]
    · have hs' : (seeds.map (fun it => (it.1, f it.2))).isEmpty = false := by
        cases seeds with
        | nil => simp at hs
        | cons a as => rfl
      simp only [hs, hs', Bool.false_eq_true, if_false]
      have hmemiff : ∀ n, S n → (f n ∈ cands.map f ↔ n ∈ cands) := by
        intro n hn
        constructor
        · intro h
          obtain ⟨y, hy, e⟩ := List.mem_map.1 h
          have := hinj y n (hc y hy) hn e
          rw [← this]; exact hy
        · intro h; exact List.mem_map_of_mem f h
      have hacc := accumulateFold_map f neighs
        (fun p => decide (p ∈ cands) && decide (words p > mc)) scoreOf neighs'
        (fun p => decide (p ∈ cands.map f) && decide (words' p > mc)) scoreOf' S
        (fun p hp => (hneigh p hp).1)
        (fun p hp n hn => by
          have hSn := (hneigh p hp).2 n hn
          refine ⟨?_, hscore n hSn⟩
          show (decide (f n ∈ cands.map f) && decide (words' (f n) > mc))
            = (decide (n ∈ cands) && decide (words n > mc))
          rw [hwords n hSn]
          by_cases hm : n ∈ cands
          · simp [hm, (hmemiff n hSn).2 hm]
          · have : ¬ f n ∈ cands.map f := fun h => hm ((hmemiff n hSn).1 h)
            simp only [hm, this, decide_False, Bool.false_and])
        seeds ([], minScore) hseedsS
      simp only [List.map_nil] at hacc
      unfold accumulate
      rw [hacc]
      apply selectLoop_map f _ S hinj
      intro it hit
      have hfst := accumulateFold_fst neighs
        (fun p => decide (p ∈ cands) && decide (words p > mc)) scoreOf seeds ([], minScore)
      rw [hfst, List.nil_append] at hit
      obtain ⟨sd, hsdm, e⟩ := List.mem_map.1 hit
      rw [← e]
      rcases groupOf_rep neighs (fun p => decide (p ∈ cands) && decide (words p > mc))
        scoreOf sd with h | ⟨n, hn, _, h⟩
      · rw [h]; exact hseedsS sd hsdm
      · rw [h]; exact (hneigh sd.2 (hseedsS sd hsdm)).2 n hn

theorem mem_visitedPostings (inv : List (List LightKeyFrame)) :
    ∀ (bow : BowVector) (r : LightKeyFrame),
      r ∈ visitedPostings inv bow ↔
        ∃ w ∈ bow.words, ∃ l, inv[w]? = some l ∧ r ∈ l := by
  intro bow
  induction bow with
  | nil => intro r; simp [visitedPostings, BowVector.words]
  | cons e rest ih =>
    obtain ⟨w0, x0⟩ := e
    intro r
    simp only [visitedPostings, List.mem_append, ih r, BowVector.words, List.map_cons,
      List.mem_cons, exists_eq_or_imp]
    apply or_congr_left
    cases hg : inv[w0]? with
    | none => simp [List.getD, hg]
    | some l => simp [List.getD, hg]

theorem postingIds_eq_map_liveHandles (heap : Heap) :
    ∀ V : List LightKeyFrame,
      (∀ r ∈ V, ∃ p, r.getKeyFrame = some p ∧ (heap p).mnId = r.mnId) →
      postingIds V = (liveHandles V).map (fun p => (heap p).mnId) := by
  intro V
  induction V with
  | nil => intro _; rfl
  | cons r rest ih =>
    intro h
    obtain ⟨p, hp, hid⟩ := h r (List.mem_cons_self _ _)
    have ih' := ih (fun x hx => h x (List.mem_cons_of_mem _ hx))
    unfold postingIds at ih' ⊢
    unfold liveHandles at ih' ⊢
    simp only [List.map_cons, List.filterMap_cons, hp, ih', hid]

theorem mem_liveHandles (V : List LightKeyFrame) (p : KFPtr) :
    p ∈ liveHandles V ↔ ∃ r ∈ V, r.getKeyFrame = some p := by
  simp [liveHandles, List.mem_filterMap]

/-- Claim C14 (the identifier-addressed variant against the in-process variant).
Let distinct keyframes in play have distinct ids, let every record of the index
hold a live handle to a keyframe of its id, let the topological map report for
the id of each keyframe the same connected-set membership, bag-of-words vector
and top-10 neighbour list as the live objects do, and let no keyframe carry the
tag of the query on entry.  Then both calls return, and the ids returned by
`DetectLoopCandidatesInTopoMap` are, element for element, the ids of the
keyframes returned by `DetectLoopCandidates`. -/
theorem topo_variant_equivalent (score : BowVector → BowVector → ℚ) (cov : Covisibility)
    (topo : TopoMap) (db : KeyFrameDatabase) (heap : Heap) (pKF : KFPtr) (minScore : ℚ)
    (S : KFPtr → Prop)
    (hrange : ∀ w ∈ (heap pKF).mBowVec.words, w < db.mvInvertedFile.length)
    (hinj : ∀ p q, S p → S q → (heap p).mnId = (heap q).mnId → p = q)
    (hrec : ∀ l ∈ db.mvInvertedFile, ∀ r ∈ l,
      ∃ p, r.getKeyFrame = some p ∧ S p ∧ (heap p).mnId = r.mnId)
    (hconn : ∀ p, S p → ((heap p).mnId ∈ topo.GetConnectedKeyFrames (heap pKF).mnId ↔
      p ∈ cov.GetConnectedKeyFrames pKF))
    (hbow : ∀ p, S p → topo.getKeyFrameBowVector (heap p).mnId = (heap p).mBowVec)
    (hneigh : ∀ p, S p →
      topo.GetBestCovisibilityKeyFrames (heap p).mnId 10
        = (cov.GetBestCovisibilityKeyFrames p 10).map (fun n => (heap n).mnId) ∧
      ∀ n ∈ cov.GetBestCovisibilityKeyFrames p 10, S n)
    (hfresh : ∀ p, (heap p).mnLoopQuery ≠ (heap pKF).mnId) :
    ∃ oT oL, DetectLoopCandidatesInTopoMap score topo db heap pKF minScore = some oT ∧
      DetectLoopCandidates score cov db heap pKF minScore = some oL ∧
      oT.ret = oL.ret.map (fun p => (heap p).mnId) := by
  obtain ⟨oT, hT, hTret⟩ :=
    DetectLoopCandidatesInTopoMap_eq_reference score topo db heap pKF minScore hrange
  obtain ⟨oL, hL, hLret⟩ :=
    DetectLoopCandidates_eq_reference score cov db heap pKF minScore hrange hfresh
  refine ⟨oT, oL, hT, hL, ?_⟩
  rw [hTret, hLret]
  have hV : ∀ r ∈ visitedPostings db.mvInvertedFile (heap pKF).mBowVec,
      ∃ p, r.getKeyFrame = some p ∧ S p ∧ (heap p).mnId = r.mnId := by
    intro r hr
    obtain ⟨w, _, l, hl, hrl⟩ := (mem_visitedPostings _ _ r).1 hr
    exact hrec l (List.getElem?_mem hl) r hrl
  have hids := postingIds_eq_map_liveHandles heap
    (visitedPostings db.mvInvertedFile (heap pKF).mBowVec)
    (fun r hr => by obtain ⟨p, h1, _, h3⟩ := hV r hr; exact ⟨p, h1, h3⟩)
  have hHS : ∀ p ∈ liveHandles (visitedPostings db.mvInvertedFile (heap pKF).mBowVec), S p := by
    intro p hp
    obtain ⟨r, hr, hrp⟩ := (mem_liveHandles _ p).1 hp
    obtain ⟨q, h1, h2, _⟩ := hV r hr
    rw [hrp] at h1
    rw [Option.some.inj h1]; exact h2
  rw [hids]
  generalize liveHandles (visitedPostings db.mvInvertedFile (heap pKF).mBowVec) = H at hHS ⊢
  have hfilt : (H.map (fun p => (heap p).mnId)).filter
        (fun id => decide (id ∉ topo.GetConnectedKeyFrames (heap pKF).mnId))
      = (H.filter (fun p => decide (p ∉ cov.GetConnectedKeyFrames pKF))).map
          (fun p => (heap p).mnId) := by
    rw [List.filter_map]
    congr 1
    apply List.filter_congr
    intro p hp
    simp only [Function.comp_apply, hconn p (hHS p hp)]
  rw [hfilt]
  have hcS : ∀ p ∈ H.filter (fun p => decide (p ∉ cov.GetConnectedKeyFrames pKF)), S p :=
    fun p hp => hHS p (List.mem_filter.1 hp).1
  rw [firstOccurrences_map (fun p => (heap p).mnId) _
    (fun p hp q hq e => hinj p q (hcS p hp) (hcS q hq) e)]
  apply rankReference_map (fun p => (heap p).mnId) S hinj
  · intro p hp
    exact hcS p ((mem_firstOccurrences _ p).1 hp)
  · exact hneigh
  · intro p hp
    simp only [hbow p hp]
  · intro p hp
    rw [count_map_of_injOn (fun p => (heap p).mnId) H p
      (fun q hq e => hinj q p (hHS q hq) hp e)]

theorem loopGatherStep_frame (qid : Nat) (conn : List KFPtr) (s : Heap × List KFPtr)
    (r : LightKeyFrame) (p : KFPtr) :
    ((loopGatherStep qid conn s r).1 p).mnId = (s.1 p).mnId ∧
    ((loopGatherStep qid conn s r).1 p).mBowVec = (s.1 p).mBowVec ∧
    (((loopGatherStep qid conn s r).1 p).mnLoopQuery = (s.1 p).mnLoopQuery ∨
      ((loopGatherStep qid conn s r).1 p).mnLoopQuery = qid) := by
  cases hr : r.getKeyFrame with
  | none =>
    have hs : loopGatherStep qid conn s r = s := by
      unfold loopGatherStep; rw [hr]
    rw [hs]; exact ⟨rfl, rfl, Or.inl rfl⟩
  | some q =>
    rw [loopGatherStep_some qid conn s r q hr]
    by_cases e : p = q
    · subst e
      by_cases ht : (s.1 p).mnLoopQuery = qid
      · simp [ht]
      · by_cases hc : p ∈ conn
        · simp [ht, hc]
        · simp [ht, hc]
    · by_cases ht : (s.1 q).mnLoopQuery = qid
      · simp [ht, Function.update_noteq e]
      · by_cases hc : q ∈ conn
        · simp [ht, hc, Function.update_noteq e]
        · simp [ht, hc, Function.update_noteq e]

theorem loopGatherFold_frame (qid : Nat) (conn : List KFPtr) :
    ∀ (V : List LightKeyFrame) (s : Heap × List KFPtr) (p : KFPtr),
      ((V.foldl (loopGatherStep qid conn) s).1 p).mnId = (s.1 p).mnId ∧
      ((V.foldl (loopGatherStep qid conn) s).1 p).mBowVec = (s.1 p).mBowVec ∧
      (((V.foldl (loopGatherStep qid conn) s).1 p).mnLoopQuery = (s.1 p).mnLoopQuery ∨
        ((V.foldl (loopGatherStep qid conn) s).1 p).mnLoopQuery = qid) := by
  intro V
  induction V with
  | nil => intro s p; exact ⟨rfl, rfl, Or.inl rfl⟩
  | cons r rest ih =>
    intro s p
    simp only [List.foldl_cons]
    obtain ⟨a1, a2, a3⟩ := ih (loopGatherStep qid conn s r) p
    obtain ⟨b1, b2, b3⟩ := loopGatherStep_frame qid conn s r p
    refine ⟨a1.trans b1, a2.trans b2, ?_⟩
    rcases a3 with h | h
    · rcases b3 with h' | h'
      · exact Or.inl (h.trans h')
      · exact Or.inr (h.trans h')
    · exact Or.inr h

theorem sampleHeap_untagged (qid : Nat) (hq : qid ≠ 0) (p : KFPtr) :
    (sampleHeap p).mnLoopQuery ≠ qid := by
  unfold sampleHeap
  split_ifs <;> exact fun h => hq h.symm

theorem rankReference_subset {α : Type} [DecidableEq α] (neighs : α → List α)
    (scoreOf : α → ℚ) (words : α → Int) (minScore : ℚ) (cands : List α) :
    ∀ x ∈ rankReference neighs scoreOf words minScore cands, x ∈ cands := by
  intro x hx
  unfold rankReference at hx
  split at hx
  · simp at hx
  · simp only at hx
    split at hx
    · simp at hx
    · rcases select_accumulate_mem _ _ _ _ _ _ x hx with ⟨it, hit, e⟩ | hc
      · obtain ⟨p, hp, e'⟩ := List.mem_map.1 (List.mem_filter.1 hit).1
        rw [← e, ← e']
        exact (List.mem_filter.1 hp).1
      · simp only [Bool.and_eq_true, decide_eq_true_eq] at hc
        exact hc.1

/-- After `add` and `erase` of a keyframe whose id was in no posting list, the index
is the one before the `add`. -/
theorem add_erase_restores (db : KeyFrameDatabase) (heap : Heap) (pKF : KFPtr)
    (hwf : (heap pKF).mBowVec.wellFormed)
    (hrange : ∀ w ∈ (heap pKF).mBowVec.words, w < db.mvInvertedFile.length)
    (hfresh : ∀ l ∈ db.mvInvertedFile, ∀ r ∈ l, r.mnId ≠ (heap pKF).mnId) :
    ∃ db1, db.add heap pKF = some db1 ∧ db1.erase heap pKF = some db := by
  obtain ⟨db1, h1, hv1, hl1, hs1⟩ := add_spec db heap pKF hwf hrange
  obtain ⟨db2, h2, hv2, hl2, hs2⟩ := erase_spec db1 heap pKF hwf (by rw [hl1]; exact hrange)
  have heq : db2 = db := by
    apply db_ext_of_getElem db db2 (hv2.trans hv1) (hl2.trans hl1)
    intro w l hl
    rw [hs2 w _ (hs1 w l hl)]
    have hfr : ∀ r ∈ l, r.mnId ≠ (LightKeyFrame.ofKeyFrame heap pKF).mnId :=
      hfresh l (List.getElem?_mem hl)
    by_cases hw : w ∈ (heap pKF).mBowVec.words
    · simp only [hw, if_true]
      rw [eraseFirst_append_self _ l hfr]
    · simp [hw]
  exact ⟨db1, h1, heq ▸ h2⟩

theorem scenario_index_erased (heap : Heap) (pA pB : KFPtr) (a0 a1 b1 b2 : ℚ)
    (hA : (heap pA).mBowVec = [(0, a0), (1, a1)])
    (hB : (heap pB).mBowVec = [(1, b1), (2, b2)]) :
    (((KeyFrameDatabase.new 5).add heap pA).bind (fun d => d.add heap pB)).bind
        (fun d => d.erase heap pA)
      = some { vocSize := 5,
               mvInvertedFile :=
                [[], [LightKeyFrame.ofKeyFrame heap pB], [LightKeyFrame.ofKeyFrame heap pB],
                 [], []] } := by
  rw [scenario_index heap pA pB a0 a1 b1 b2 hA hB]
  simp [KeyFrameDatabase.erase, hA, eraseLoop, eraseFirst, LightKeyFrame.eqv]

theorem rankReference_single {α : Type} [DecidableEq α] (neighs : α → List α)
    (scoreOf : α → ℚ) (words : α → Int) (p : α) (hw : words p = 1) (hs : scoreOf p = 1)
    (hn : neighs p = []) :
    rankReference neighs scoreOf words (1 / 10) [p] = [p] := by
  have hmax : maxCommonWordsLoop words [p] = 1 := by simp [maxCommonWordsLoop, hw]
  have hmin : minCommonWordsOf 1 = 0 := by decide
  have hacc : ∀ c : α → Bool, accumulate neighs c scoreOf (1 / 10) [(1, p)]
      = ([(1, p)], 1) := by
    intro c
    unfold accumulate accumulateStep groupOf
    simp only [List.foldl_cons, List.foldl_nil, hn, List.nil_append]
    norm_num
  have hsel : selectLoop (floatMul34 1) [((1 : ℚ), p)] = [p] := by
    unfold selectLoop selectStep
    simp only [List.foldl_cons, List.foldl_nil, floatMul34_one]
    norm_num
  have hseeds : (([p].filter (fun q => decide (words q > 0))).map
        (fun q => (scoreOf q, q))).filter (fun it => decide (it.1 ≥ (1 / 10 : ℚ)))
      = [((1 : ℚ), p)] := by
    have h1 : [p].filter (fun q => decide (words q > 0)) = [p] := by
      simp [List.filter_cons, hw]
    rw [h1, List.map_cons, List.map_nil, hs, List.filter_cons]
    norm_num
  unfold rankReference
  simp only [hmax, hmin, hseeds, List.isEmpty_cons, Bool.false_eq_true, if_false, hacc]
  exact hsel

/-- Claim C12 (an erased keyframe is not returned).  With no keyframe tagged by the
query on entry, every keyframe returned by `DetectLoopCandidates` has a posting
in the list of some word of the query; hence a keyframe without such a posting
is not returned, in particular a keyframe that was in no list, then added and
erased.  In the spec scenario with `erase(A)` before the query the result is
exactly `[B]`. -/
theorem erased_keyframe_not_returned (score : BowVector → BowVector → ℚ)
    (cov : Covisibility) (db : KeyFrameDatabase) (heap : Heap) (pKF : KFPtr) (minScore : ℚ)
    (hrange : ∀ w ∈ (heap pKF).mBowVec.words, w < db.mvInvertedFile.length)
    (hfresh : ∀ p, (heap p).mnLoopQuery ≠ (heap pKF).mnId) :
    (∃ o, DetectLoopCandidates score cov db heap pKF minScore = some o ∧
      (∀ p ∈ o.ret, ∃ w ∈ (heap pKF).mBowVec.words, ∃ l, db.mvInvertedFile[w]? = some l ∧
        ∃ r ∈ l, r.getKeyFrame = some p) ∧
      (∀ pA, (∀ w ∈ (heap pKF).mBowVec.words, ∀ l, db.mvInvertedFile[w]? = some l →
        ∀ r ∈ l, r.getKeyFrame ≠ some pA) → pA ∉ o.ret) ∧
      (∀ (db0 db1 : KeyFrameDatabase) (pA : KFPtr),
        (heap pA).mBowVec.wellFormed →
        (∀ w ∈ (heap pA).mBowVec.words, w < db0.mvInvertedFile.length) →
        (∀ l ∈ db0.mvInvertedFile, ∀ r ∈ l,
          r.mnId ≠ (heap pA).mnId ∧ r.getKeyFrame ≠ some pA) →
        db0.add heap pA = some db1 → db1.erase heap pA = some db → pA ∉ o.ret)) ∧
    (∀ (pA pB : KFPtr) (a0 a1 b1 b2 q1 : ℚ) (db2 : KeyFrameDatabase),
      (heap pA).mBowVec = [(0, a0), (1, a1)] →
      (heap pB).mBowVec = [(1, b1), (2, b2)] →
      (heap pKF).mBowVec = [(1, q1)] →
      (((KeyFrameDatabase.new 5).add heap pA).bind (fun d => d.add heap pB)).bind
        (fun d => d.erase heap pA) = some db2 →
      cov.GetConnectedKeyFrames pKF = [] →
      cov.GetBestCovisibilityKeyFrames pB 10 = [] →
      score (heap pKF).mBowVec (heap pB).mBowVec = 1 →
      ∃ o, DetectLoopCandidates score cov db2 heap pKF (1 / 10) = some o ∧ o.ret = [pB]) := by
  refine ⟨?_, ?_⟩
  · obtain ⟨o, ho, hret⟩ :=
      DetectLoopCandidates_eq_reference score cov db heap pKF minScore hrange hfresh
    have hposted : ∀ p ∈ o.ret, ∃ w ∈ (heap pKF).mBowVec.words, ∃ l,
        db.mvInvertedFile[w]? = some l ∧ ∃ r ∈ l, r.getKeyFrame = some p := by
      intro p hp
      rw [hret] at hp
      have h1 := rankReference_subset _ _ _ _ _ p hp
      have h2 := (List.mem_filter.1 ((mem_firstOccurrences _ p).1 h1)).1
      obtain ⟨r, hr, hrp⟩ := (mem_liveHandles _ p).1 h2
      obtain ⟨w, hw, l, hl, hrl⟩ := (mem_visitedPostings _ _ r).1 hr
      exact ⟨w, hw, l, hl, r, hrl, hrp⟩
    have hnot : ∀ pA, (∀ w ∈ (heap pKF).mBowVec.words, ∀ l, db.mvInvertedFile[w]? = some l →
        ∀ r ∈ l, r.getKeyFrame ≠ some pA) → pA ∉ o.ret := by
      intro pA hno hin
      obtain ⟨w, hw, l, hl, r, hrl, hrp⟩ := hposted pA hin
      exact hno w hw l hl r hrl hrp
    refine ⟨o, ho, hposted, hnot, ?_⟩
    intro db0 db1 pA hwf hrA hfr hadd herase
    obtain ⟨db1', h1, h2⟩ := add_erase_restores db0 heap pA hwf hrA
      (fun l hl r hr => (hfr l hl r hr).1)
    have e1 : db1' = db1 := Option.some.inj (h1.symm.trans hadd)
    rw [e1] at h2
    have e2 : db0 = db := Option.some.inj (h2.symm.trans herase)
    apply hnot
    intro w _ l hl r hr
    rw [← e2] at hl
    exact (hfr l (List.getElem?_mem hl) r hr).2
  · intro pA pB a0 a1 b1 b2 q1 db2 hA hB hQ hdb hconn hnB hsB
    rw [scenario_index_erased heap pA pB a0 a1 b1 b2 hA hB] at hdb
    have hdb' := (Option.some.inj hdb).symm
    obtain ⟨o, ho, hret⟩ :=
      DetectLoopCandidates_eq_reference score cov db2 heap pKF (1 / 10)
        (by rw [hdb', hQ]; simp [BowVector.words]) hfresh
    refine ⟨o, ho, ?_⟩
    rw [hret]
    have hV : visitedPostings db2.mvInvertedFile (heap pKF).mBowVec
        = [LightKeyFrame.ofKeyFrame heap pB] := by
      rw [hdb', hQ]; rfl
    have hH : liveHandles [LightKeyFrame.ofKeyFrame heap pB] = [pB] := rfl
    rw [hV, hH, hconn]
    have hc : firstOccurrences ([pB].filter (fun p => decide (p ∉ ([] : List KFPtr))))
        = [pB] := by
      simp [firstOccurrences]
    rw [hc]
    exact rankReference_single _ _ _ pB (by simp) hsB hnB

/-- Claim C12 at the running example: `A` erased from the index holding `A` and `B`. -/
theorem erased_keyframe_not_returned_witness :
    (∀ w ∈ (sampleHeap 9).mBowVec.words, w < sampleDbB.mvInvertedFile.length) ∧
    ∃ o, DetectLoopCandidates sampleScore sampleCov sampleDbB sampleHeap 9 (1 / 10) = some o ∧
      (1 : KFPtr) ∉ o.ret := by
  obtain ⟨o, ho, _, hnot, _⟩ :=
    (erased_keyframe_not_returned sampleScore sampleCov sampleDbB sampleHeap 9 (1 / 10)
      (by decide) (sampleHeap_untagged 109 (by decide))).1
  exact ⟨by decide, o, ho, hnot 1 (by decide)⟩

/-- Claim C14 at the running example, with `B` connected to `Q` on both sides. -/
theorem topo_variant_equivalent_witness :
    ∃ oT oL, DetectLoopCandidatesInTopoMap sampleScore connectedTopo sampleDb sampleHeap 9
        (1 / 10) = some oT ∧
      DetectLoopCandidates sampleScore connectedCov sampleDb sampleHeap 9 (1 / 10) = some oL ∧
      oT.ret = oL.ret.map (fun p => (sampleHeap p).mnId) := by
  apply topo_variant_equivalent sampleScore connectedCov connectedTopo sampleDb sampleHeap 9
    (1 / 10) (fun p => p = 1 ∨ p = 2) (by decide)
  · rintro p q (rfl | rfl) (rfl | rfl) h
    · rfl
    · exact absurd h (by decide)
    · exact absurd h (by decide)
    · rfl
  · decide
  · rintro p (rfl | rfl) <;> decide
  · rintro p (rfl | rfl) <;> rfl
  · rintro p (rfl | rfl)
    · exact ⟨rfl, by decide⟩
    · exact ⟨rfl, by decide⟩
  · exact sampleHeap_untagged 109 (by decide)

/-- Claim C15 (queries never mutate the index).  Each of the three detection calls,
whatever it returns, leaves the database object, and so every posting list, as
it was before the call. -/
theorem queries_leave_index_unchanged (score : BowVector → BowVector → ℚ)
    (cov : Covisibility) (topo : TopoMap) (db : KeyFrameDatabase) (heap : Heap)
    (pKF : KFPtr) (F : Frame) (minScore : ℚ)
    (hrange : ∀ w ∈ (heap pKF).mBowVec.words, w < db.mvInvertedFile.length)
    (hF : ∀ w ∈ F.mBowVec.words, w < db.mvInvertedFile.length) :
    (∃ o, DetectLoopCandidates score cov db heap pKF minScore = some o ∧ o.db = db ∧
      o.db.mvInvertedFile = db.mvInvertedFile) ∧
    (∃ o, DetectLoopCandidatesInTopoMap score topo db heap pKF minScore = some o ∧
      o.db = db ∧ o.db.mvInvertedFile = db.mvInvertedFile) ∧
    (∃ o, DetectRelocalizationCandidates score cov db heap F = some o ∧ o.db = db ∧
      o.db.mvInvertedFile = db.mvInvertedFile) := by
  refine ⟨?_, ?_, ?_⟩
  · obtain ⟨g, hg⟩ := loopGather_total db.mvInvertedFile (heap pKF).mnId
      (cov.GetConnectedKeyFrames pKF) (heap pKF).mBowVec (heap, []) hrange
    obtain ⟨o, ho, hdb, _⟩ :=
      DetectLoopCandidates_of_gather score cov db heap pKF minScore g hg
    exact ⟨o, ho, hdb, by rw [hdb]⟩
  · obtain ⟨g, hg⟩ := topoGather_total db.mvInvertedFile
      (topo.GetConnectedKeyFrames (heap pKF).mnId) (heap pKF).mBowVec (fun _ => none, [])
      hrange
    obtain ⟨o, ho, hdb, _⟩ :=
      DetectLoopCandidatesInTopoMap_of_gather score topo db heap pKF minScore g hg
    exact ⟨o, ho, hdb, by rw [hdb]⟩
  · obtain ⟨g, hg⟩ := relocGather_total db.mvInvertedFile F.mnId F.mBowVec (heap, []) hF
    obtain ⟨o, ho, hdb, _⟩ :=
      DetectRelocalizationCandidates_of_gather score cov db heap F g hg
    exact ⟨o, ho, hdb, by rw [hdb]⟩

/-- Claim C15 at the running example. -/
theorem queries_leave_index_unchanged_witness :
    (∀ w ∈ (sampleHeap 9).mBowVec.words, w < sampleDb.mvInvertedFile.length) ∧
    (∃ o, DetectLoopCandidates sampleScore sampleCov sampleDb sampleHeap 9 (1 / 10) = some o ∧
      o.db = sampleDb ∧ o.db.mvInvertedFile = sampleDb.mvInvertedFile) :=
  ⟨by decide,
    (queries_leave_index_unchanged sampleScore sampleCov connectedTopo sampleDb sampleHeap 9
      sampleFrame (1 / 10) (by decide) (by decide)).1⟩

theorem count_postingIds_visited (inv : List (List LightKeyFrame)) (id : Nat) :
    ∀ bow : BowVector,
      (postingIds (visitedPostings inv bow)).count id
        = (bow.words.map (fun w => (postingIds (inv.getD w [])).count id)).sum := by
  intro bow
  induction bow with
  | nil => rfl
  | cons e rest ih =>
    obtain ⟨w0, x0⟩ := e
    unfold postingIds at ih ⊢
    simp only [visitedPostings, List.map_append, List.count_append, ih, BowVector.words,
      List.map_cons, List.sum_cons]

theorem sum_count_eq_length_filter (inv : List (List LightKeyFrame)) (id : Nat)
    (hone : ∀ l ∈ inv, (postingIds l).Nodup) :
    ∀ ws : List WordId,
      (ws.map (fun w => (postingIds (inv.getD w [])).count id)).sum
        = (ws.filter (fun w => decide (id ∈ postingIds (inv.getD w [])))).length := by
  intro ws
  induction ws with
  | nil => rfl
  | cons w rest ih =>
    have hnd : (postingIds (inv.getD w [])).Nodup := by
      cases hg : inv[w]? with
      | none => simp [List.getD, hg, postingIds]
      | some l =>
        have : inv.getD w [] = l := by simp [List.getD, hg]
        rw [this]
        exact hone l (List.getElem?_mem hg)
    simp only [List.map_cons, List.sum_cons, ih]
    by_cases hm : id ∈ postingIds (inv.getD w [])
    · rw [List.count_eq_one_of_mem hnd hm,
        List.filter_cons_of_pos (by simp only [hm, decide_True]), List.length_cons]
      omega
    · rw [List.count_eq_zero_of_not_mem hm,
        List.filter_cons_of_neg (by simp only [hm, decide_False, Bool.false_eq_true,
          not_false_eq_true])]
      omega

theorem bitLengthAux_spec :
    ∀ (fuel n : Nat), n ≤ fuel →
      n < 2 ^ bitLengthAux fuel n ∧ (0 < n → 2 ^ (bitLengthAux fuel n - 1) ≤ n) := by
  intro fuel
  induction fuel with
  | zero =>
    intro n hn
    have : n = 0 := by omega
    subst this
    simp [bitLengthAux]
  | succ f ih =>
    intro n hn
    by_cases h0 : n = 0
    · subst h0; simp [bitLengthAux]
    · simp only [bitLengthAux, h0, if_false]
      obtain ⟨h1, h2⟩ := ih (n / 2) (by omega)
      refine ⟨?_, ?_⟩
      · rw [pow_succ]; omega
      · intro _
        simp only [Nat.add_sub_cancel]
        by_cases hh : n / 2 = 0
        · have : bitLengthAux f (n / 2) = 0 := by
            rw [hh]; cases f <;> simp [bitLengthAux]
          rw [this]; simp; omega
        · have h3 := h2 (by omega)
          have hb : 0 < bitLengthAux f (n / 2) := by
            by_contra hc
            have : bitLengthAux f (n / 2) = 0 := by omega
            rw [this] at h1
            simp at h1
            exact hh h1
          have : 2 ^ bitLengthAux f (n / 2) = 2 * 2 ^ (bitLengthAux f (n / 2) - 1) := by
            conv_lhs => rw [← Nat.sub_add_cancel hb]
            rw [pow_succ]; ring
          rw [this]; omega

theorem bitLength_spec (n : Nat) :
    n < 2 ^ bitLength n ∧ (0 < n → 2 ^ (bitLength n - 1) ≤ n) :=
  bitLengthAux_spec n n (le_refl n)

theorem bitLength_le_of_lt (n k : Nat) (h : n < 2 ^ k) : bitLength n ≤ k := by
  by_cases h0 : n = 0
  · subst h0
    have : bitLength 0 = 0 := by simp [bitLength, bitLengthAux]
    omega
  · have h2 := (bitLength_spec n).2 (by omega)
    by_contra hc
    have hk : k ≤ bitLength n - 1 := by omega
    have := Nat.pow_le_pow_right (by norm_num : 0 < 2) hk
    omega

theorem roundBinary32_small (n : Nat) (h : n < 16777216) : roundBinary32 n = n := by
  have : bitLength n ≤ 24 := bitLength_le_of_lt n 24 (by norm_num; exact h)
  simp [roundBinary32, this]

theorem round_div_aux (n T k P c half q r q1 : Nat)
    (hT : T = P * c) (hP : P = 2 * half) (hn : n = P * q + r) (hr : r < P)
    (hk1 : T * k ≤ n)
    (hq1 : q1 = q ∨ (q1 = q + 1 ∧ half ≤ r))
    (hgap : n + half < T * (k + 1)) :
    T * k ≤ q1 * P ∧ q1 * P < T * (k + 1) := by
  have hck : c * k ≤ q := by
    by_contra h
    have h' : q + 1 ≤ c * k := by omega
    have h2 := Nat.mul_le_mul_left P h'
    rw [Nat.mul_add, Nat.mul_one, ← Nat.mul_assoc, ← hT] at h2
    omega
  have hTk : T * k ≤ P * q := by
    have := Nat.mul_le_mul_left P hck
    rw [← Nat.mul_assoc, ← hT] at this
    exact this
  rcases hq1 with h | ⟨h, hh⟩
  · rw [h, Nat.mul_comm q P]
    exact ⟨hTk, by omega⟩
  · rw [h, Nat.add_mul, Nat.one_mul, Nat.mul_comm q P]
    exact ⟨by omega, by omega⟩

/-- For shared-word counts up to 3355443 the binary32 computation of
`maxCommonWords * 0.8f`, truncated, is `⌊4 maxCommonWords / 5⌋`. -/
theorem minCommonWordsOf_eq (m : Nat) (hm : 5 * m < 16777216) :
    minCommonWordsOf (m : Int) = ((4 * m / 5 : Nat) : Int) := by
  unfold minCommonWordsOf
  rw [Int.toNat_ofNat, roundBinary32_small m (by omega)]
  congr 1
  generalize hn : m * 13421773 = n
  by_cases hb : bitLength n ≤ 24
  · have h1 := (bitLength_spec n).1
    have h2 : 2 ^ bitLength n ≤ 2 ^ 24 := Nat.pow_le_pow_right (by norm_num) hb
    have h3 : n < 16777216 := by norm_num at h2; omega
    have : roundBinary32 n = n := roundBinary32_small n h3
    rw [this]
    omega
  · have hpos : 0 < n := by
      by_contra h
      have : n = 0 := by omega
      rw [this] at hb
      exact hb (by simp [bitLength, bitLengthAux])
    have hlow := (bitLength_spec n).2 hpos
    have hb48 : bitLength n ≤ 48 := bitLength_le_of_lt n 48 (by norm_num; omega)
    generalize hsh : bitLength n - 24 = shift at *
    have hshift1 : 1 ≤ shift := by omega
    have hshift2 : shift ≤ 24 := by omega
    have hbl : bitLength n - 1 = (shift - 1) + 24 := by omega
    rw [hbl, pow_add] at hlow
    have hT : 16777216 = 2 ^ shift * 2 ^ (24 - shift) := by
      rw [← pow_add]
      have : shift + (24 - shift) = 24 := by omega
      rw [this]; norm_num
    have hP : 2 ^ shift = 2 * 2 ^ (shift - 1) := by
      conv_lhs => rw [← Nat.sub_add_cancel hshift1]
      rw [pow_succ]; ring
    have hPpos : 0 < 2 ^ shift := pow_pos (by norm_num) _
    have hk1 : 16777216 * (4 * m / 5) ≤ n := by omega
    have hk2 : n < 16777216 * (4 * m / 5 + 1) := by omega
    have hhalf : 2 ^ (shift - 1) ≤ 4 * m / 5 := by
      have h24 : (2 : Nat) ^ 24 = 16777216 := by norm_num
      rw [h24] at hlow
      have : 16777216 * 2 ^ (shift - 1) < 16777216 * (4 * m / 5 + 1) := by
        rw [Nat.mul_comm]; omega
      have := Nat.lt_of_mul_lt_mul_left this
      omega
    have hgap : n + 2 ^ (shift - 1) < 16777216 * (4 * m / 5 + 1) := by omega
    have hdm := Nat.div_add_mod n (2 ^ shift)
    have hmod := Nat.mod_lt n hPpos
    have hmain := round_div_aux n 16777216 (4 * m / 5) (2 ^ shift) (2 ^ (24 - shift))
      (2 ^ (shift - 1)) (n / 2 ^ shift) (n % 2 ^ shift)
      (if n % 2 ^ shift > 2 ^ (shift - 1) ∨
          (n % 2 ^ shift = 2 ^ (shift - 1) ∧ n / 2 ^ shift % 2 = 1)
        then n / 2 ^ shift + 1 else n / 2 ^ shift)
      hT hP hdm.symm hmod hk1
      (by
        split
        · next hc =>
          right
          refine ⟨rfl, ?_⟩
          rcases hc with h | h
          · omega
          · omega
        · left; rfl)
      hgap
    have hround : roundBinary32 n
        = (if n % 2 ^ shift > 2 ^ (shift - 1) ∨
            (n % 2 ^ shift = 2 ^ (shift - 1) ∧ n / 2 ^ shift % 2 = 1)
          then n / 2 ^ shift + 1 else n / 2 ^ shift) * 2 ^ shift := by
      unfold roundBinary32
      simp only [hb, if_false, hsh]
    rw [hround]
    apply Nat.div_eq_of_lt_le
    · rw [Nat.mul_comm (4 * m / 5)]; exact hmain.1
    · rw [Nat.mul_comm (4 * m / 5 + 1)]; exact hmain.2

theorem maxCommonWordsFold_spec {α : Type} (w : α → Int) :
    ∀ (l : List α) (m : Int),
      m ≤ l.foldl (fun m p => if w p > m then w p else m) m ∧
      (∀ p ∈ l, w p ≤ l.foldl (fun m p => if w p > m then w p else m) m) ∧
      (l.foldl (fun m p => if w p > m then w p else m) m = m ∨
        ∃ p ∈ l, w p = l.foldl (fun m p => if w p > m then w p else m) m) := by
  intro l
  induction l with
  | nil => intro m; simp
  | cons x rest ih =>
    intro m
    simp only [List.foldl_cons]
    obtain ⟨h1, h2, h3⟩ := ih (if w x > m then w x else m)
    have hm : m ≤ (if w x > m then w x else m) := by split <;> omega
    have hx : w x ≤ (if w x > m then w x else m) := by split <;> omega
    refine ⟨le_trans hm h1, ?_, ?_⟩
    · intro p hp
      rcases List.mem_cons.1 hp with e | hp'
      · rw [e]; exact le_trans hx h1
      · exact h2 p hp'
    · rcases h3 with h | ⟨p, hp, e⟩
      · rw [h]
        split
        · exact Or.inr ⟨x, List.mem_cons_self _ _, rfl⟩
        · exact Or.inl rfl
      · exact Or.inr ⟨p, List.mem_cons_of_mem _ hp, e⟩

/-- The loop computing `maxCommonWords` returns the maximum of 0 and the counts. -/
theorem maxCommonWordsLoop_spec {α : Type} (w : α → Int) (l : List α) :
    0 ≤ maxCommonWordsLoop w l ∧ (∀ p ∈ l, w p ≤ maxCommonWordsLoop w l) ∧
      (maxCommonWordsLoop w l = 0 ∨ ∃ p ∈ l, w p = maxCommonWordsLoop w l) :=
  maxCommonWordsFold_spec w l 0

theorem minCommonWordsOf_5242881 : minCommonWordsOf 5242881 = 4194305 := by decide

/-- The vector returned by `DetectLoopCandidates` past both early returns is the
selection over the pairs `loopGroupOf` of the entries of `lScoreAndMatch`. -/
theorem DetectLoopCandidates_groups (score : BowVector → BowVector → ℚ)
    (cov : Covisibility) (db : KeyFrameDatabase) (heap : Heap) (pKF : KFPtr) (minScore : ℚ)
    (g : Heap × List KFPtr)
    (hg : loopGather db.mvInvertedFile (heap pKF).mnId (cov.GetConnectedKeyFrames pKF)
      (heap pKF).mBowVec (heap, []) = some g)
    (h1 : g.2.isEmpty = false)
    (h2 : (loopScored score (heap pKF).mBowVec minScore g).2.isEmpty = false) :
    ∃ o best, DetectLoopCandidates score cov db heap pKF minScore = some o ∧
      o.ret = selectLoop (floatMul34 best)
        ((loopScored score (heap pKF).mBowVec minScore g).2.map
          (loopGroupOf cov (heap pKF).mnId (loopMinCommonWords g)
            (loopScored score (heap pKF).mBowVec minScore g).1)) := by
  obtain ⟨o, ho, _, hret⟩ := DetectLoopCandidates_of_gather score cov db heap pKF minScore g hg
  unfold loopScored loopMinCommonWords at h2
  simp only [h1, h2, Bool.false_eq_true, if_false] at hret
  rw [accumulate_fst] at hret
  exact ⟨o, _, ho, hret⟩

/-- The vector returned by `DetectRelocalizationCandidates` past both early returns
is the selection over the pairs `relocGroupOf` of the entries of
`lScoreAndMatch`. -/
theorem DetectRelocalizationCandidates_groups (score : BowVector → BowVector → ℚ)
    (cov : Covisibility) (db : KeyFrameDatabase) (heap : Heap) (F : Frame)
    (g : Heap × List KFPtr)
    (hg : relocGather db.mvInvertedFile F.mnId F.mBowVec (heap, []) = some g)
    (h1 : g.2.isEmpty = false)
    (h2 : (relocScored score F.mBowVec g).2.isEmpty = false) :
    ∃ o best, DetectRelocalizationCandidates score cov db heap F = some o ∧
      o.ret = selectLoop (floatMul34 best)
        ((relocScored score F.mBowVec g).2.map
          (relocGroupOf cov F.mnId (relocScored score F.mBowVec g).1)) := by
  obtain ⟨o, ho, _, hret⟩ := DetectRelocalizationCandidates_of_gather score cov db heap F g hg
  unfold relocScored relocMinCommonWords at h2
  simp only [h1, h2, Bool.false_eq_true, if_false] at hret
  rw [accumulate_fst] at hret
  exact ⟨o, _, ho, hret⟩

/-- The vector returned by `DetectLoopCandidatesInTopoMap` past both early returns
is the selection over the pairs `topoGroupOf` of the entries of
`lScoreAndMatch`. -/
theorem DetectLoopCandidatesInTopoMap_groups (score : BowVector → BowVector → ℚ)
    (topo : TopoMap) (db : KeyFrameDatabase) (heap : Heap) (pKF : KFPtr) (minScore : ℚ)
    (g : (Nat → Option Int) × List Nat)
    (hg : topoGather db.mvInvertedFile (topo.GetConnectedKeyFrames (heap pKF).mnId)
      (heap pKF).mBowVec (fun _ => none, []) = some g)
    (h1 : g.2.isEmpty = false)
    (h2 : (topoScored score topo (heap pKF).mBowVec minScore g).2.isEmpty = false) :
    ∃ o best, DetectLoopCandidatesInTopoMap score topo db heap pKF minScore = some o ∧
      o.ret = selectLoop (floatMul34 best)
        ((topoScored score topo (heap pKF).mBowVec minScore g).2.map
          (topoGroupOf topo (topoMinCommonWords g) g.1
            (topoScored score topo (heap pKF).mBowVec minScore g).1)) := by
  obtain ⟨o, ho, _, _, hret⟩ :=
    DetectLoopCandidatesInTopoMap_of_gather score topo db heap pKF minScore g hg
  unfold topoScored topoMinCommonWords at h2
  simp only [h1, h2, Bool.false_eq_true, if_false] at hret
  rw [accumulate_fst] at hret
  exact ⟨o, _, ho, hret⟩

/-- Claim C19, failing input. After `DetectRelocalizationCandidates` for the frame
`relocFrame0` (which scores `N` with 1), the call for `relocFrame` gathers `A`
with 2 shared words and `N` with 1 shared word, so `minCommonWords = 1` and `N`
is discarded by the word-overlap filter: only `A` is scored, with 1/2. The
accumulation for `A` still adds `mRelocScore` of its neighbour `N`, the value 1
left by the earlier call: the group of `A` is `(3/2, N)` and the call returns
`[N]`, where counting scored neighbours only gives the group `(1/2, A)` and the
result `[A]`. -/
theorem reloc_filtered_neighbour_counted :
    ∃ o1 g o2,
      DetectRelocalizationCandidates sampleScore thresholdCov relocDb relocHeap relocFrame0
        = some o1 ∧
      relocGather o1.db.mvInvertedFile relocFrame.mnId relocFrame.mBowVec (o1.heap, [])
        = some g ∧
      DetectRelocalizationCandidates sampleScore thresholdCov o1.db o1.heap relocFrame
        = some o2 ∧
      g.2 = [1, 4] ∧ relocMinCommonWords g = 1 ∧
      (g.1 4).mnRelocQuery = relocFrame.mnId ∧ (g.1 4).mnRelocWords = 1 ∧
      (g.1 4).mRelocScore = 1 ∧
      (relocScored sampleScore relocFrame.mBowVec g).2 = [(1 / 2, 1)] ∧
      (relocScored sampleScore relocFrame.mBowVec g).2.map
          (relocGroupOf thresholdCov relocFrame.mnId
            (relocScored sampleScore relocFrame.mBowVec g).1) = [(3 / 2, 4)] ∧
      o2.ret = [4] := by
  refine ⟨_, _, _, rfl, rfl, rfl, ?_, ?_, ?_, ?_, ?_, ?_, ?_, ?_⟩ <;> decide!

theorem neighFold_sum {α : Type} (c : α → Bool) (s : α → ℚ) :
    ∀ (ns : List α) (st : ℚ × ℚ × α),
      (ns.foldl (neighStep c s) st).2.1 = ((ns.filter c).map s).foldl floatAdd st.2.1 := by
  intro ns
  induction ns with
  | nil => intro st; simp
  | cons n rest ih =>
    intro st
    simp only [List.foldl_cons]
    rw [ih]
    unfold neighStep
    by_cases hc : c n = true
    · rw [List.filter_cons_of_pos hc, List.map_cons, List.foldl_cons]
      simp only [hc, if_true]
      split <;> rfl
    · rw [List.filter_cons_of_neg hc]
      simp [hc]

theorem neighFold_rep_filter {α : Type} (c : α → Bool) (s : α → ℚ) (ns : List α)
    (st : ℚ × ℚ × α) :
    (ns.foldl (neighStep c s) st).2.2 = st.2.2 ∨
      (ns.foldl (neighStep c s) st).2.2 ∈ ns.filter c := by
  rcases neighFold_rep c s ns st with h | ⟨n, hn, hc, e⟩
  · exact Or.inl h
  · exact Or.inr (e ▸ List.mem_filter.mpr ⟨hn, hc⟩)

/-- The pair emitted for an entry: its score to which the stored scores of the
contributing neighbours are added one after the other in binary32, and as
representative the entry or one of them. -/
theorem groupOf_spec {α : Type} (neighs : α → List α) (c : α → Bool) (s : α → ℚ)
    (it : ℚ × α) :
    (groupOf neighs c s it).1 = (((neighs it.2).filter c).map s).foldl floatAdd it.1 ∧
    ((groupOf neighs c s it).2 = it.2 ∨ (groupOf neighs c s it).2 ∈ (neighs it.2).filter c) :=
  ⟨neighFold_sum c s (neighs it.2) (it.1, it.1, it.2),
    neighFold_rep_filter c s (neighs it.2) (it.1, it.1, it.2)⟩

theorem groupOf_congr {α : Type} (neighs : α → List α) (c c' : α → Bool) (s s' : α → ℚ)
    (hc : ∀ p, c p = c' p) (hs : ∀ p, c p = true → s p = s' p) (it : ℚ × α) :
    groupOf neighs c s it = groupOf neighs c' s' it := by
  unfold groupOf
  rw [neighStep_congr c c' s s' hc hs]

/-- The groups of `DetectLoopCandidates` on a gather result `g` reached from a state
with no keyframe tagged by the query. -/
theorem loopGroupOf_spec (score : BowVector → BowVector → ℚ) (cov : Covisibility)
    (heap : Heap) (qid : Nat) (conn : List KFPtr) (qbow : BowVector) (minScore : ℚ)
    (hfresh : ∀ p, (heap p).mnLoopQuery ≠ qid) (V : List LightKeyFrame)
    (g : Heap × List KFPtr) (hg : V.foldl (loopGatherStep qid conn) (heap, []) = g)
    (it : ℚ × KFPtr) (hit : it ∈ (loopScored score qbow minScore g).2) :
    it.2 ∈ g.2 ∧ (g.1 it.2).mnLoopWords > loopMinCommonWords g ∧
    it.1 = score qbow (heap it.2).mBowVec ∧ it.1 ≥ minScore ∧
    (loopGroupOf cov qid (loopMinCommonWords g) (loopScored score qbow minScore g).1 it).1
      = (((cov.GetBestCovisibilityKeyFrames it.2 10).filter
          (fun p => decide (p ∈ g.2) &&
            decide ((g.1 p).mnLoopWords > loopMinCommonWords g))).map
          (fun p => score qbow (heap p).mBowVec)).foldl floatAdd it.1 ∧
    ((loopGroupOf cov qid (loopMinCommonWords g) (loopScored score qbow minScore g).1 it).2
        = it.2 ∨
      (loopGroupOf cov qid (loopMinCommonWords g) (loopScored score qbow minScore g).1 it).2
        ∈ (cov.GetBestCovisibilityKeyFrames it.2 10).filter
          (fun p => decide (p ∈ g.2) &&
            decide ((g.1 p).mnLoopWords > loopMinCommonWords g))) := by
  obtain ⟨_, g2, _, g4⟩ := loopGatherFold_fresh qid conn heap hfresh V
  rw [hg] at g2 g4
  have hsnd := loopScoreFold_snd score qbow minScore (loopMinCommonWords g) g.1 g.2 (g.1, [])
    (fun p => ⟨rfl, rfl⟩)
  have hit' := hit
  unfold loopScored at hit'
  rw [hsnd] at hit'
  simp only [List.nil_append, List.mem_filter, List.mem_map, decide_eq_true_eq] at hit'
  obtain ⟨⟨p, ⟨hp, hw⟩, e⟩, hms⟩ := hit'
  have e1 : it.1 = score qbow (heap it.2).mBowVec := by rw [← e, g4 p]
  have e2 : it.2 = p := by rw [← e]
  have hcongr : loopGroupOf cov qid (loopMinCommonWords g)
        (loopScored score qbow minScore g).1 it
      = groupOf (fun p => cov.GetBestCovisibilityKeyFrames p 10)
          (fun p => decide (p ∈ g.2) && decide ((g.1 p).mnLoopWords > loopMinCommonWords g))
          (fun p => score qbow (heap p).mBowVec) it := by
    unfold loopGroupOf loopScored
    apply groupOf_congr
    · intro q
      rw [(loopScoreFold_fields _ _ _ _ _ _ q).1, (loopScoreFold_fields _ _ _ _ _ _ q).2.1]
      by_cases hq : q ∈ g.2
      · simp [(g2 q).2 hq, hq]
      · have : ¬ (g.1 q).mnLoopQuery = qid := fun h => hq ((g2 q).1 h)
        simp [this, hq]
    · intro q hc
      simp only [Bool.and_eq_true, decide_eq_true_eq] at hc
      rw [(loopScoreFold_fields _ _ _ _ _ _ q).1, (loopScoreFold_fields _ _ _ _ _ _ q).2.1]
        at hc
      rw [loopScoreFold_score score qbow minScore (loopMinCommonWords g) g.1 g.2 (g.1, [])
        (fun p => ⟨rfl, rfl⟩) q]
      have hq : q ∈ g.2 := (g2 q).1 hc.1
      rw [if_pos ⟨hq, hc.2⟩, g4 q]
  rw [hcongr]
  exact ⟨e2 ▸ hp, e2 ▸ hw, e1, hms, groupOf_spec _ _ _ it⟩

/-- The groups of `DetectLoopCandidatesInTopoMap` on a gather result `g`. -/
theorem topoGroupOf_spec (score : BowVector → BowVector → ℚ) (topo : TopoMap)
    (conn : List Nat) (qbow : BowVector) (minScore : ℚ) (V : List LightKeyFrame)
    (g : (Nat → Option Int) × List Nat)
    (hg : V.foldl (topoGatherStep conn) (fun _ => none, []) = g)
    (it : ℚ × Nat) (hit : it ∈ (topoScored score topo qbow minScore g).2) :
    it.2 ∈ g.2 ∧ (g.1 it.2).getD 0 > topoMinCommonWords g ∧
    it.1 = score qbow (topo.getKeyFrameBowVector it.2) ∧ it.1 ≥ minScore ∧
    (topoGroupOf topo (topoMinCommonWords g) g.1 (topoScored score topo qbow minScore g).1 it).1
      = (((topo.GetBestCovisibilityKeyFrames it.2 10).filter
          (fun id => decide (id ∈ g.2) &&
            decide ((g.1 id).getD 0 > topoMinCommonWords g))).map
          (fun id => score qbow (topo.getKeyFrameBowVector id))).foldl floatAdd it.1 ∧
    ((topoGroupOf topo (topoMinCommonWords g) g.1
        (topoScored score topo qbow minScore g).1 it).2 = it.2 ∨
      (topoGroupOf topo (topoMinCommonWords g) g.1
        (topoScored score topo qbow minScore g).1 it).2
        ∈ (topo.GetBestCovisibilityKeyFrames it.2 10).filter
          (fun id => decide (id ∈ g.2) &&
            decide ((g.1 id).getD 0 > topoMinCommonWords g))) := by
  obtain ⟨_, g2⟩ := topoGatherFold_spec conn V
  rw [hg] at g2
  obtain ⟨s1, s2⟩ := topoScoreFold_spec score topo qbow minScore g.1 (topoMinCommonWords g)
    g.2 (fun _ => none, [])
  have hit' := hit
  unfold topoScored at hit'
  rw [s1] at hit'
  simp only [List.nil_append, List.mem_filter, List.mem_map, decide_eq_true_eq] at hit'
  obtain ⟨⟨p, ⟨hp, hw⟩, e⟩, hms⟩ := hit'
  have e1 : it.1 = score qbow (topo.getKeyFrameBowVector it.2) := by rw [← e]
  have e2 : it.2 = p := by rw [← e]
  have hcongr : topoGroupOf topo (topoMinCommonWords g) g.1
        (topoScored score topo qbow minScore g).1 it
      = groupOf (fun id => topo.GetBestCovisibilityKeyFrames id 10)
          (fun id => decide (id ∈ g.2) && decide ((g.1 id).getD 0 > topoMinCommonWords g))
          (fun id => score qbow (topo.getKeyFrameBowVector id)) it := by
    unfold topoGroupOf topoScored
    apply groupOf_congr
    · intro q
      rw [s2 q]
      by_cases hq : q ∈ g.2
      · by_cases hw' : (g.1 q).getD 0 > topoMinCommonWords g
        · rw [if_pos ⟨hq, hw'⟩]
          have : (g.1 q).isSome = true := by rw [g2 q, if_pos hq]; rfl
          simp [this, hq, hw']
        · simp [hw']
      · have : g.1 q = none := by rw [g2 q, if_neg hq]
        simp [this, hq]
    · intro q hc
      simp only [Bool.and_eq_true, decide_eq_true_eq] at hc
      have hq : q ∈ g.2 := by
        by_contra hq
        have : g.1 q = none := by rw [g2 q, if_neg hq]
        rw [this] at hc
        simp at hc
      rw [s2 q, if_pos ⟨hq, hc.2⟩]
      rfl
  rw [hcongr]
  exact ⟨e2 ▸ hp, e2 ▸ hw, e1, hms, groupOf_spec _ _ _ it⟩

theorem thresholdHeap_untagged (qid : Nat) (hq : qid ≠ 0) (p : KFPtr) :
    (thresholdHeap p).mnLoopQuery ≠ qid := by
  unfold thresholdHeap
  split_ifs <;> exact fun h => hq h.symm

theorem lockedThroughout_bracket (mid : List Stmt)
    (h : ∀ s ∈ mid, s ≠ Stmt.lock ∧ s ≠ Stmt.unlock) :
    lockedThroughout ([Stmt.lock] ++ mid ++ [Stmt.unlock]) = true := by
  simp only [List.singleton_append, List.cons_append, lockedThroughout, List.reverse_append,
    List.reverse_cons, List.reverse_nil, List.nil_append, List.singleton_append]
  rw [List.all_eq_true]
  intro s hs
  exact decide_eq_true (h s (List.mem_reverse.1 hs))

theorem runAlone_pushBack (tLKF : LightKeyFrame) (tail : List Stmt) :
    ∀ (bow : BowVector) (s : Shared),
      runAlone (bow.map (fun e => Stmt.pushBack e.1 tLKF) ++ tail) s
        = (addLoop tLKF bow s.mvInvertedFile).bind
            (fun inv => runAlone tail { s with mvInvertedFile := inv }) := by
  intro bow
  induction bow with
  | nil => intro s; simp [addLoop]
  | cons e rest ih =>
    intro s
    obtain ⟨w, x⟩ := e
    simp only [List.map_cons, List.cons_append, runAlone, execStmt, addLoop]
    cases hw : s.mvInvertedFile[w]? with
    | none => simp
    | some l => exact ih _

theorem runAlone_eraseScan (tLKF : LightKeyFrame) (tail : List Stmt) :
    ∀ (bow : BowVector) (s : Shared),
      runAlone (bow.map (fun e => Stmt.eraseScan e.1 tLKF) ++ tail) s
        = (eraseLoop tLKF bow s.mvInvertedFile).bind
            (fun inv => runAlone tail { s with mvInvertedFile := inv }) := by
  intro bow
  induction bow with
  | nil => intro s; simp [eraseLoop]
  | cons e rest ih =>
    intro s
    obtain ⟨w, x⟩ := e
    simp only [List.map_cons, List.cons_append, runAlone, execStmt, eraseLoop]
    cases hw : s.mvInvertedFile[w]? with
    | none => simp
    | some l => exact ih _

/-- Run by one thread alone, the statement lists compute what the functions
`add`, `erase` and `clear` compute. -/
theorem runAlone_eq (db : KeyFrameDatabase) (heap : Heap) (pKF : KFPtr) :
    runAlone (addStmts heap pKF) ⟨none, db.mvInvertedFile⟩
      = (db.add heap pKF).map (fun d => d.mvInvertedFile) ∧
    runAlone (eraseStmts heap pKF) ⟨none, db.mvInvertedFile⟩
      = (db.erase heap pKF).map (fun d => d.mvInvertedFile) ∧
    runAlone (clearStmts db.vocSize) ⟨none, db.mvInvertedFile⟩
      = some db.clear.mvInvertedFile := by
  refine ⟨?_, ?_, ?_⟩
  · unfold addStmts KeyFrameDatabase.add
    rw [List.append_assoc]
    have e : ∀ l : List Stmt, runAlone ([Stmt.lock] ++ l) ⟨none, db.mvInvertedFile⟩
        = runAlone l ⟨some 0, db.mvInvertedFile⟩ := fun _ => rfl
    rw [e, runAlone_pushBack]
    cases addLoop (LightKeyFrame.ofKeyFrame heap pKF) (heap pKF).mBowVec db.mvInvertedFile
      <;> simp [runAlone, execStmt]
  · unfold eraseStmts KeyFrameDatabase.erase
    rw [List.append_assoc]
    have e : ∀ l : List Stmt, runAlone ([Stmt.lock] ++ l) ⟨none, db.mvInvertedFile⟩
        = runAlone l ⟨some 0, db.mvInvertedFile⟩ := fun _ => rfl
    rw [e, runAlone_eraseScan]
    cases eraseLoop (LightKeyFrame.ofKeyFrame heap pKF) (heap pKF).mBowVec db.mvInvertedFile
      <;> simp [runAlone, execStmt]
  · simp [clearStmts, runAlone, execStmt, KeyFrameDatabase.clear]

/-- Claim C16, checked on the statements of the functions.  `add`, `erase` and the
gather block of a query hold `mMutex` from their first to their last statement,
and a thread calling `add` or `erase` waits while a query holds it; `clear` has
no lock statement.  Failing input: on the index holding `A` (words 0, 1) and `B`
(words 1, 2), a query with words 1 and 2 gathers while another thread calls
`clear()`.  Scheduled after the walk of list 1, `clear()` runs although the
query holds the mutex, and the query sees `B` under word 1 and not under word
2; scheduled between the two statements of `clear()`, the walk indexes the
emptied vector.  Without interruption the query sees `B` under both words. -/
theorem clear_runs_without_the_lock :
    (∀ heap pKF, lockedThroughout (addStmts heap pKF) = true) ∧
    (∀ heap pKF, lockedThroughout (eraseStmts heap pKF) = true) ∧
    (∀ bow, lockedThroughout (gatherStmts bow) = true) ∧
    (∀ vocSize, lockedThroughout (clearStmts vocSize) = false) ∧
    (∀ heap pKF p0 inv seen,
      runSchedule [true] (p0, addStmts heap pKF) ⟨some 0, inv⟩ seen = RunResult.blocked ∧
      runSchedule [true] (p0, eraseStmts heap pKF) ⟨some 0, inv⟩ seen = RunResult.blocked) ∧
    runSchedule [false, false, false, false, true, true]
        (gatherStmts [(1, 1), (2, 1)], clearStmts 5) ⟨none, sampleDb.mvInvertedFile⟩ []
      = RunResult.finished ⟨none, List.replicate 5 []⟩
          [[⟨101, some 1⟩, ⟨102, some 2⟩], [⟨102, some 2⟩]] ∧
    runSchedule [false, false, true, true, false, false]
        (gatherStmts [(1, 1), (2, 1)], clearStmts 5) ⟨none, sampleDb.mvInvertedFile⟩ []
      = RunResult.finished ⟨none, List.replicate 5 []⟩
          [[⟨101, some 1⟩, ⟨102, some 2⟩], []] ∧
    runSchedule [false, false, true, false]
        (gatherStmts [(1, 1), (2, 1)], clearStmts 5) ⟨none, sampleDb.mvInvertedFile⟩ []
      = RunResult.outOfRange 0 ⟨some 0, []⟩ := by
  refine ⟨?_, ?_, ?_, ?_, ?_, ?_, ?_, ?_⟩
  · intro heap pKF
    apply lockedThroughout_bracket
    intro s hs
    obtain ⟨e, _, rfl⟩ := List.mem_map.1 hs
    exact ⟨by simp, by simp⟩
  · intro heap pKF
    apply lockedThroughout_bracket
    intro s hs
    obtain ⟨e, _, rfl⟩ := List.mem_map.1 hs
    exact ⟨by simp, by simp⟩
  · intro bow
    apply lockedThroughout_bracket
    intro s hs
    obtain ⟨e, _, rfl⟩ := List.mem_map.1 hs
    exact ⟨by simp, by simp⟩
  · intro vocSize
    rfl
  · intro heap pKF p0 inv seen
    exact ⟨rfl, rfl⟩
  · decide!
  · decide!
  · decide!

theorem accumulateFold_snd {α : Type} (neighs : α → List α) (contributes : α → Bool)
    (scoreOf : α → ℚ) :
    ∀ (l : List (ℚ × α)) (s : List (ℚ × α) × ℚ),
      (l.foldl (accumulateStep neighs contributes scoreOf) s).2
        = bestAccScoreLoop s.2 (l.map (groupOf neighs contributes scoreOf)) := by
  intro l
  induction l with
  | nil => intro s; rfl
  | cons it rest ih =>
    intro s
    simp only [List.foldl_cons, ih, accumulateStep, List.map_cons, bestAccScoreLoop]

theorem accumulate_snd {α : Type} (neighs : α → List α) (contributes : α → Bool)
    (scoreOf : α → ℚ) (seed : ℚ) (l : List (ℚ × α)) :
    (accumulate neighs contributes scoreOf seed l).2
      = bestAccScoreLoop seed (l.map (groupOf neighs contributes scoreOf)) :=
  accumulateFold_snd neighs contributes scoreOf l ([], seed)

theorem foldr_max_max (l : List ℚ) (a b : ℚ) :
    l.foldr max (max a b) = max a (l.foldr max b) := by
  induction l with
  | nil => rfl
  | cons x rest ih => simp only [List.foldr_cons, ih, max_left_comm]

/-- The running maximum of the accumulation loop is the maximum of the seed and
all group scores. -/
theorem bestAccScoreLoop_eq_spec {α : Type} :
    ∀ (groups : List (ℚ × α)) (seed : ℚ),
      bestAccScoreLoop seed groups = specBestAccScore seed groups := by
  intro groups
  induction groups with
  | nil => intro seed; rfl
  | cons x rest ih =>
    intro seed
    have h : bestAccScoreLoop seed (x :: rest)
        = bestAccScoreLoop (if x.1 > seed then x.1 else seed) rest := rfl
    rw [h, ih]
    unfold specBestAccScore
    simp only [List.map_cons, List.foldr_cons]
    have hm : (if x.1 > seed then x.1 else seed) = max x.1 seed := by
      split
      · next hgt => exact (max_eq_left (le_of_lt hgt)).symm
      · next hle => exact (max_eq_right (not_lt.1 hle)).symm
    rw [hm, foldr_max_max]

/-- The selection loop returns the representatives of the pairs above the
threshold, each at its first occurrence. -/
theorem selectLoop_eq_firstOccurrences {α : Type} [DecidableEq α] (thr : ℚ)
    (l : List (ℚ × α)) :
    selectLoop thr l
      = firstOccurrences ((l.filter (fun g => decide (g.1 > thr))).map Prod.snd) := by
  unfold selectLoop
  induction l using List.reverseRecOn with
  | nil => simp [firstOccurrences]
  | append_singleton l x ih =>
    rw [List.foldl_append]
    simp only [List.foldl_cons, List.foldl_nil]
    have hsets := selectFold_sets thr l ([], []) (by simp)
    generalize l.foldl (selectStep thr) ([], []) = st at ih hsets
    unfold selectStep
    by_cases hgt : x.1 > thr
    · have hf : (l ++ [x]).filter (fun g => decide (g.1 > thr))
          = l.filter (fun g => decide (g.1 > thr)) ++ [x] := by
        simp [List.filter_append, hgt]
      rw [hf, List.map_append, List.map_singleton, firstOccurrences_append_singleton, ← ih]
      simp only [hgt, if_true]
      by_cases hm : x.2 ∈ st.1
      · have hm2 : x.2 ∈ st.2 := (hsets x.2).1 hm
        simp [hm, hm2]
      · have hm2 : x.2 ∉ st.2 := fun h => hm ((hsets x.2).2 h)
        simp [hm, hm2]
    · have hf : (l ++ [x]).filter (fun g => decide (g.1 > thr))
          = l.filter (fun g => decide (g.1 > thr)) := by
        simp [List.filter_append, hgt]
      rw [hf, ← ih]
      simp [hgt]

/-- On every path of `DetectLoopCandidates` the returned vector is the selection
loop over `lAccScoreAndMatch` (empty at the early returns) with the threshold
`0.75f * bestAccScore`. -/
theorem DetectLoopCandidates_selection (score : BowVector → BowVector → ℚ)
    (cov : Covisibility) (db : KeyFrameDatabase) (heap : Heap) (pKF : KFPtr) (minScore : ℚ)
    (g : Heap × List KFPtr)
    (hg : loopGather db.mvInvertedFile (heap pKF).mnId (cov.GetConnectedKeyFrames pKF)
      (heap pKF).mBowVec (heap, []) = some g) :
    ∃ o, DetectLoopCandidates score cov db heap pKF minScore = some o ∧
      o.ret = selectLoop (floatMul34 (bestAccScoreLoop minScore
          (loopGroups score cov (heap pKF).mnId (heap pKF).mBowVec minScore g)))
        (loopGroups score cov (heap pKF).mnId (heap pKF).mBowVec minScore g) := by
  obtain ⟨o, ho, _, hret⟩ := DetectLoopCandidates_of_gather score cov db heap pKF minScore g hg
  refine ⟨o, ho, ?_⟩
  rw [hret]
  unfold loopGroups loopGroupOf loopScored loopMinCommonWords
  by_cases h1 : g.2.isEmpty = true
  · have : g.2 = [] := List.isEmpty_iff.1 h1
    simp [this, selectLoop]
  · simp only [h1, Bool.false_eq_true, if_false]
    split
    · next h2 =>
      rw [List.isEmpty_iff.1 h2]
      simp [selectLoop]
    · rw [accumulate_fst, accumulate_snd]

/-- On every path of `DetectLoopCandidatesInTopoMap` the returned vector is the
selection loop over `lAccScoreAndMatch` with the threshold `0.75f * bestAccScore`. -/
theorem DetectLoopCandidatesInTopoMap_selection (score : BowVector → BowVector → ℚ)
    (topo : TopoMap) (db : KeyFrameDatabase) (heap : Heap) (pKF : KFPtr) (minScore : ℚ)
    (g : (Nat → Option Int) × List Nat)
    (hg : topoGather db.mvInvertedFile (topo.GetConnectedKeyFrames (heap pKF).mnId)
      (heap pKF).mBowVec (fun _ => none, []) = some g) :
    ∃ o, DetectLoopCandidatesInTopoMap score topo db heap pKF minScore = some o ∧
      o.ret = selectLoop (floatMul34 (bestAccScoreLoop minScore
          (topoGroups score topo (heap pKF).mBowVec minScore g)))
        (topoGroups score topo (heap pKF).mBowVec minScore g) := by
  obtain ⟨o, ho, _, _, hret⟩ :=
    DetectLoopCandidatesInTopoMap_of_gather score topo db heap pKF minScore g hg
  refine ⟨o, ho, ?_⟩
  rw [hret]
  unfold topoGroups topoGroupOf topoScored topoMinCommonWords
  by_cases h1 : g.2.isEmpty = true
  · have : g.2 = [] := List.isEmpty_iff.1 h1
    simp [this, selectLoop]
  · simp only [h1, Bool.false_eq_true, if_false]
    split
    · next h2 =>
      rw [List.isEmpty_iff.1 h2]
      simp [selectLoop]
    · rw [accumulate_fst, accumulate_snd]

/-- On every path of `DetectRelocalizationCandidates` the returned vector is the
selection loop over `lAccScoreAndMatch` with the threshold `0.75f * bestAccScore`. -/
theorem DetectRelocalizationCandidates_selection (score : BowVector → BowVector → ℚ)
    (cov : Covisibility) (db : KeyFrameDatabase) (heap : Heap) (F : Frame)
    (g : Heap × List KFPtr)
    (hg : relocGather db.mvInvertedFile F.mnId F.mBowVec (heap, []) = some g) :
    ∃ o, DetectRelocalizationCandidates score cov db heap F = some o ∧
      o.ret = selectLoop (floatMul34 (bestAccScoreLoop 0
          (relocGroups score cov F.mnId F.mBowVec g)))
        (relocGroups score cov F.mnId F.mBowVec g) := by
  obtain ⟨o, ho, _, hret⟩ := DetectRelocalizationCandidates_of_gather score cov db heap F g hg
  refine ⟨o, ho, ?_⟩
  rw [hret]
  unfold relocGroups relocGroupOf relocScored relocMinCommonWords
  by_cases h1 : g.2.isEmpty = true
  · have : g.2 = [] := List.isEmpty_iff.1 h1
    simp [this, selectLoop]
  · simp only [h1, Bool.false_eq_true, if_false]
    split
    · next h2 =>
      rw [List.isEmpty_iff.1 h2]
      simp [selectLoop]
    · rw [accumulate_fst, accumulate_snd]

/-- The selection with the threshold of the accumulation loop is the selection
`roundedSelection`, and an element is returned exactly when it is the
representative of a pair strictly above the rounded threshold. -/
theorem selectLoop_eq_spec {α : Type} [DecidableEq α] (seed : ℚ) (groups : List (ℚ × α)) :
    bestAccScoreLoop seed groups = specBestAccScore seed groups ∧
    selectLoop (floatMul34 (bestAccScoreLoop seed groups)) groups
      = roundedSelection seed groups ∧
    (roundedSelection seed groups).Nodup ∧
    (∀ x, x ∈ roundedSelection seed groups ↔
      ∃ gr ∈ groups, gr.2 = x ∧ gr.1 > floatMul34 (specBestAccScore seed groups)) ∧
    seed ≤ specBestAccScore seed groups ∧
    (∀ gr ∈ groups, gr.1 ≤ specBestAccScore seed groups) ∧
    (specBestAccScore seed groups = seed ∨
      ∃ gr ∈ groups, gr.1 = specBestAccScore seed groups) := by
  have hb := bestAccScoreLoop_eq_spec groups seed
  refine ⟨hb, ?_, firstOccurrences_nodup _, ?_, ?_, ?_, ?_⟩
  · rw [selectLoop_eq_firstOccurrences, hb]
    rfl
  · intro x
    unfold roundedSelection
    rw [mem_firstOccurrences]
    simp only [List.mem_map, List.mem_filter, decide_eq_true_eq]
    constructor
    · rintro ⟨gr, ⟨h1, h2⟩, h3⟩
      exact ⟨gr, h1, h3, h2⟩
    · rintro ⟨gr, h1, h3, h2⟩
      exact ⟨gr, ⟨h1, h2⟩, h3⟩
  · unfold specBestAccScore
    induction groups with
    | nil => exact le_refl _
    | cons x rest ih =>
      simp only [List.map_cons, List.foldr_cons]
      exact le_trans (ih (bestAccScoreLoop_eq_spec rest seed)) (le_max_right _ _)
  · unfold specBestAccScore
    clear hb
    induction groups with
    | nil => intro gr h; simp at h
    | cons x rest ih =>
      intro gr h
      simp only [List.map_cons, List.foldr_cons]
      rcases List.mem_cons.1 h with h1 | h1
      · rw [h1]; exact le_max_left _ _
      · exact le_trans (ih gr h1) (le_max_right _ _)
  · unfold specBestAccScore
    clear hb
    induction groups with
    | nil => exact Or.inl rfl
    | cons x rest ih =>
      simp only [List.map_cons, List.foldr_cons]
      rcases le_total x.1 ((rest.map Prod.fst).foldr max seed) with hle | hle
      · rw [max_eq_right hle]
        rcases ih with h | ⟨gr, hgr, e⟩
        · exact Or.inl h
        · exact Or.inr ⟨gr, List.mem_cons_of_mem _ hgr, e⟩
      · rw [max_eq_left hle]
        exact Or.inr ⟨x, List.mem_cons_self _ _, rfl⟩

theorem foldr_max_ge_init (l : List ℚ) (b : ℚ) : b ≤ l.foldr max b := by
  induction l with
  | nil => exact le_refl b
  | cons x rest ih => exact le_trans ih (le_max_right _ _)

theorem foldr_max_ge_mem (l : List ℚ) (b : ℚ) : ∀ x ∈ l, x ≤ l.foldr max b := by
  induction l with
  | nil => intro x h; simp at h
  | cons y rest ih =>
    intro x h
    rcases List.mem_cons.1 h with h1 | h1
    · rw [h1]; exact le_max_left _ _
    · exact le_trans (ih x h1) (le_max_right _ _)

/-- After the neighbour loop `bestScore` is the maximum of its initial value and
the stored scores of the contributing neighbours, and `pBestKF` is the initial
keyframe if `bestScore` is unchanged, else a contributing neighbour with that
score. -/
theorem neighFold_best {α : Type} (c : α → Bool) (s : α → ℚ) :
    ∀ (ns : List α) (st : ℚ × ℚ × α),
      (ns.foldl (neighStep c s) st).1 = ((ns.filter c).map s).foldr max st.1 ∧
      (((ns.foldl (neighStep c s) st).2.2 = st.2.2 ∧ (ns.foldl (neighStep c s) st).1 = st.1) ∨
        ∃ n ∈ ns.filter c, (ns.foldl (neighStep c s) st).2.2 = n ∧
          s n = (ns.foldl (neighStep c s) st).1) := by
  intro ns
  induction ns with
  | nil => intro st; exact ⟨rfl, Or.inl ⟨rfl, rfl⟩⟩
  | cons n rest ih =>
    intro st
    simp only [List.foldl_cons]
    obtain ⟨ih1, ih2⟩ := ih (neighStep c s st n)
    by_cases hc : c n = true
    · rw [List.filter_cons_of_pos hc]
      have hstep : (neighStep c s st n).1 = max (s n) st.1 ∧
          (((neighStep c s st n).2.2 = st.2.2 ∧ (neighStep c s st n).1 = st.1) ∨
            ((neighStep c s st n).2.2 = n ∧ s n = (neighStep c s st n).1)) := by
        unfold neighStep
        simp only [hc, if_true]
        split
        · next hgt => exact ⟨(max_eq_left (le_of_lt hgt)).symm, Or.inr ⟨rfl, rfl⟩⟩
        · next hle => exact ⟨(max_eq_right (not_lt.1 hle)).symm, Or.inl ⟨rfl, rfl⟩⟩
      refine ⟨?_, ?_⟩
      · rw [ih1, hstep.1, List.map_cons, List.foldr_cons, foldr_max_max]
      · rcases ih2 with ⟨e1, e2⟩ | ⟨m, hm, e1, e2⟩
        · rcases hstep.2 with ⟨f1, f2⟩ | ⟨f1, f2⟩
          · exact Or.inl ⟨e1.trans f1, e2.trans f2⟩
          · exact Or.inr ⟨n, List.mem_cons_self _ _, e1.trans f1, f2.trans e2.symm⟩
        · exact Or.inr ⟨m, List.mem_cons_of_mem _ hm, e1, e2⟩
    · rw [List.filter_cons_of_neg hc]
      have hstep : neighStep c s st n = st := by
        unfold neighStep
        simp [hc]
      rw [hstep] at ih1 ih2
      rw [hstep]
      exact ⟨ih1, ih2⟩

/-- The representative of a group carries the maximum of the entry's score and
the stored scores of the contributing neighbours. -/
theorem groupOf_best {α : Type} (neighs : α → List α) (c : α → Bool) (s : α → ℚ)
    (it : ℚ × α) :
    ((groupOf neighs c s it).2 = it.2 ∧
        (((neighs it.2).filter c).map s).foldr max it.1 = it.1) ∨
      ∃ n ∈ (neighs it.2).filter c, (groupOf neighs c s it).2 = n ∧
        s n = (((neighs it.2).filter c).map s).foldr max it.1 := by
  obtain ⟨h1, h2⟩ := neighFold_best c s (neighs it.2) (it.1, it.1, it.2)
  rcases h2 with ⟨e1, e2⟩ | ⟨n, hn, e1, e2⟩
  · exact Or.inl ⟨e1, h1 ▸ e2⟩
  · exact Or.inr ⟨n, hn, e1, h1 ▸ e2⟩

/-- With no keyframe tagged by the query on entry, the accumulation of
`DetectLoopCandidates` counts the gathered keyframes above `minCommonWords`,
each with its score against the query. -/
theorem loopGroupOf_eq_groupOf (score : BowVector → BowVector → ℚ) (cov : Covisibility)
    (heap : Heap) (qid : Nat) (conn : List KFPtr) (qbow : BowVector) (minScore : ℚ)
    (hfresh : ∀ p, (heap p).mnLoopQuery ≠ qid) (V : List LightKeyFrame)
    (g : Heap × List KFPtr) (hg : V.foldl (loopGatherStep qid conn) (heap, []) = g)
    (it : ℚ × KFPtr) :
    loopGroupOf cov qid (loopMinCommonWords g) (loopScored score qbow minScore g).1 it
      = groupOf (fun p => cov.GetBestCovisibilityKeyFrames p 10)
          (fun p => decide (p ∈ g.2) && decide ((g.1 p).mnLoopWords > loopMinCommonWords g))
          (fun p => score qbow (heap p).mBowVec) it := by
  obtain ⟨_, g2, _, g4⟩ := loopGatherFold_fresh qid conn heap hfresh V
  rw [hg] at g2 g4
  unfold loopGroupOf loopScored
  apply groupOf_congr
  · intro q
    rw [(loopScoreFold_fields _ _ _ _ _ _ q).1, (loopScoreFold_fields _ _ _ _ _ _ q).2.1]
    by_cases hq : q ∈ g.2
    · simp [(g2 q).2 hq, hq]
    · have : ¬ (g.1 q).mnLoopQuery = qid := fun h => hq ((g2 q).1 h)
      simp [this, hq]
  · intro q hc
    simp only [Bool.and_eq_true, decide_eq_true_eq] at hc
    rw [(loopScoreFold_fields _ _ _ _ _ _ q).1, (loopScoreFold_fields _ _ _ _ _ _ q).2.1]
      at hc
    rw [loopScoreFold_score score qbow minScore (loopMinCommonWords g) g.1 g.2 (g.1, [])
      (fun p => ⟨rfl, rfl⟩) q]
    have hq : q ∈ g.2 := (g2 q).1 hc.1
    rw [if_pos ⟨hq, hc.2⟩, g4 q]

/-- The accumulation of `DetectLoopCandidatesInTopoMap` counts the gathered ids
above `minCommonWords`, each with its score against the query. -/
theorem topoGroupOf_eq_groupOf (score : BowVector → BowVector → ℚ) (topo : TopoMap)
    (conn : List Nat) (qbow : BowVector) (minScore : ℚ) (V : List LightKeyFrame)
    (g : (Nat → Option Int) × List Nat)
    (hg : V.foldl (topoGatherStep conn) (fun _ => none, []) = g) (it : ℚ × Nat) :
    topoGroupOf topo (topoMinCommonWords g) g.1 (topoScored score topo qbow minScore g).1 it
      = groupOf (fun id => topo.GetBestCovisibilityKeyFrames id 10)
          (fun id => decide (id ∈ g.2) && decide ((g.1 id).getD 0 > topoMinCommonWords g))
          (fun id => score qbow (topo.getKeyFrameBowVector id)) it := by
  obtain ⟨_, g2⟩ := topoGatherFold_spec conn V
  rw [hg] at g2
  obtain ⟨_, s2⟩ := topoScoreFold_spec score topo qbow minScore g.1 (topoMinCommonWords g)
    g.2 (fun _ => none, [])
  unfold topoGroupOf topoScored
  apply groupOf_congr
  · intro q
    rw [s2 q]
    by_cases hq : q ∈ g.2
    · by_cases hw' : (g.1 q).getD 0 > topoMinCommonWords g
      · rw [if_pos ⟨hq, hw'⟩]
        have : (g.1 q).isSome = true := by rw [g2 q, if_pos hq]; rfl
        simp [this, hq, hw']
      · simp [hw']
    · have : g.1 q = none := by rw [g2 q, if_neg hq]
      simp [this, hq]
  · intro q hc
    simp only [Bool.and_eq_true, decide_eq_true_eq] at hc
    have hq : q ∈ g.2 := by
      by_contra hq
      have : g.1 q = none := by rw [g2 q, if_neg hq]
      rw [this] at hc
      simp at hc
    rw [s2 q, if_pos ⟨hq, hc.2⟩]
    rfl

/-- Claim C22 (every returned loop candidate clears `minScore` itself).  In
`DetectLoopCandidates`, when no keyframe carries the tag of the query on entry,
and in `DetectLoopCandidatesInTopoMap`, the call returns and every returned
keyframe is the representative of the group of some entry of `lScoreAndMatch`;
its score against the query, which is the score the call stored for it, is the
maximum of the entry's score and the scores of the contributing neighbours
(gathered and above `minCommonWords`, no `minScore` test), and is at least
`minScore`. -/
theorem returned_candidates_clear_minScore (score : BowVector → BowVector → ℚ)
    (cov : Covisibility) (topo : TopoMap) (db : KeyFrameDatabase) (heap : Heap)
    (pKF : KFPtr) (minScore : ℚ)
    (hrange : ∀ w ∈ (heap pKF).mBowVec.words, w < db.mvInvertedFile.length) :
    ((∀ p, (heap p).mnLoopQuery ≠ (heap pKF).mnId) →
      ∃ g o, loopGather db.mvInvertedFile (heap pKF).mnId (cov.GetConnectedKeyFrames pKF)
          (heap pKF).mBowVec (heap, []) = some g ∧
        DetectLoopCandidates score cov db heap pKF minScore = some o ∧
        ∀ x ∈ o.ret,
          score (heap pKF).mBowVec (heap x).mBowVec ≥ minScore ∧
          ((loopScored score (heap pKF).mBowVec minScore g).1 x).mLoopScore
            = score (heap pKF).mBowVec (heap x).mBowVec ∧
          ∃ it ∈ (loopScored score (heap pKF).mBowVec minScore g).2,
            (loopGroupOf cov (heap pKF).mnId (loopMinCommonWords g)
              (loopScored score (heap pKF).mBowVec minScore g).1 it).2 = x ∧
            it.1 = score (heap pKF).mBowVec (heap it.2).mBowVec ∧
            score (heap pKF).mBowVec (heap x).mBowVec
              = (((cov.GetBestCovisibilityKeyFrames it.2 10).filter
                  (fun p => decide (p ∈ g.2) &&
                    decide ((g.1 p).mnLoopWords > loopMinCommonWords g))).map
                  (fun p => score (heap pKF).mBowVec (heap p).mBowVec)).foldr max it.1) ∧
    (∃ g o, topoGather db.mvInvertedFile (topo.GetConnectedKeyFrames (heap pKF).mnId)
          (heap pKF).mBowVec (fun _ => none, []) = some g ∧
      DetectLoopCandidatesInTopoMap score topo db heap pKF minScore = some o ∧
      ∀ x ∈ o.ret,
        score (heap pKF).mBowVec (topo.getKeyFrameBowVector x) ≥ minScore ∧
        (topoScored score topo (heap pKF).mBowVec minScore g).1 x
          = some (score (heap pKF).mBowVec (topo.getKeyFrameBowVector x)) ∧
        ∃ it ∈ (topoScored score topo (heap pKF).mBowVec minScore g).2,
          (topoGroupOf topo (topoMinCommonWords g) g.1
            (topoScored score topo (heap pKF).mBowVec minScore g).1 it).2 = x ∧
          it.1 = score (heap pKF).mBowVec (topo.getKeyFrameBowVector it.2) ∧
          score (heap pKF).mBowVec (topo.getKeyFrameBowVector x)
            = (((topo.GetBestCovisibilityKeyFrames it.2 10).filter
                (fun id => decide (id ∈ g.2) &&
                  decide ((g.1 id).getD 0 > topoMinCommonWords g))).map
                (fun id => score (heap pKF).mBowVec (topo.getKeyFrameBowVector id))).foldr
                  max it.1) := by
  refine ⟨?_, ?_⟩
  · intro hfresh
    have hg := loopGather_eq_fold db.mvInvertedFile (heap pKF).mnId
      (cov.GetConnectedKeyFrames pKF) (heap pKF).mBowVec (heap, []) hrange
    obtain ⟨o, ho, hret⟩ := DetectLoopCandidates_selection score cov db heap pKF minScore _ hg
    refine ⟨_, o, hg, ho, ?_⟩
    obtain ⟨_, _, _, g4⟩ := loopGatherFold_fresh (heap pKF).mnId
      (cov.GetConnectedKeyFrames pKF) heap hfresh
      (visitedPostings db.mvInvertedFile (heap pKF).mBowVec)
    generalize hgen : (visitedPostings db.mvInvertedFile (heap pKF).mBowVec).foldl
      (loopGatherStep (heap pKF).mnId (cov.GetConnectedKeyFrames pKF)) (heap, []) = g
      at hret g4 ⊢
    intro x hx
    rw [hret] at hx
    obtain ⟨gr, hgr, hx2, _⟩ := selectLoop_mem _ _ x hx
    unfold loopGroups at hgr
    obtain ⟨it, hit, hgrp⟩ := List.mem_map.1 hgr
    obtain ⟨m1, m2, m3, m4, _, _⟩ := loopGroupOf_spec score cov heap (heap pKF).mnId
      (cov.GetConnectedKeyFrames pKF) (heap pKF).mBowVec minScore hfresh _ g hgen it hit
    have heq := loopGroupOf_eq_groupOf score cov heap (heap pKF).mnId
      (cov.GetConnectedKeyFrames pKF) (heap pKF).mBowVec minScore hfresh _ g hgen it
    have hrep : (loopGroupOf cov (heap pKF).mnId (loopMinCommonWords g)
        (loopScored score (heap pKF).mBowVec minScore g).1 it).2 = x := by
      rw [hgrp]; exact hx2
    have hstored : ∀ q, q ∈ g.2 → (g.1 q).mnLoopWords > loopMinCommonWords g →
        ((loopScored score (heap pKF).mBowVec minScore g).1 q).mLoopScore
          = score (heap pKF).mBowVec (heap q).mBowVec := by
      intro q hq hw
      unfold loopScored
      rw [loopScoreFold_score score (heap pKF).mBowVec minScore (loopMinCommonWords g) g.1 g.2
        (g.1, []) (fun p => ⟨rfl, rfl⟩) q, if_pos ⟨hq, hw⟩, g4 q]
    rw [heq] at hrep
    rcases groupOf_best (fun p => cov.GetBestCovisibilityKeyFrames p 10)
      (fun p => decide (p ∈ g.2) && decide ((g.1 p).mnLoopWords > loopMinCommonWords g))
      (fun p => score (heap pKF).mBowVec (heap p).mBowVec) it with ⟨e1, e2⟩ | ⟨n, hn, e1, e2⟩
    · have hxi : it.2 = x := e1.symm.trans hrep
      subst hxi
      refine ⟨m3 ▸ m4, hstored _ m1 m2, it, hit, heq ▸ hrep, m3, ?_⟩
      rw [e2]; exact m3.symm
    · have hxn : n = x := e1.symm.trans hrep
      subst hxn
      have hc := (List.mem_filter.1 hn).2
      simp only [Bool.and_eq_true, decide_eq_true_eq] at hc
      refine ⟨?_, hstored _ hc.1 hc.2, it, hit, heq ▸ hrep, m3, e2⟩
      have := foldr_max_ge_init (((cov.GetBestCovisibilityKeyFrames it.2 10).filter
        (fun p => decide (p ∈ g.2) &&
          decide ((g.1 p).mnLoopWords > loopMinCommonWords g))).map
        (fun p => score (heap pKF).mBowVec (heap p).mBowVec)) it.1
      exact le_trans m4 (e2 ▸ this)
  · have hg := topoGather_eq_fold db.mvInvertedFile
      (topo.GetConnectedKeyFrames (heap pKF).mnId) (heap pKF).mBowVec (fun _ => none, []) hrange
    obtain ⟨o, ho, hret⟩ :=
      DetectLoopCandidatesInTopoMap_selection score topo db heap pKF minScore _ hg
    refine ⟨_, o, hg, ho, ?_⟩
    generalize hgen : (visitedPostings db.mvInvertedFile (heap pKF).mBowVec).foldl
      (topoGatherStep (topo.GetConnectedKeyFrames (heap pKF).mnId)) (fun _ => none, []) = g
      at hret ⊢
    intro x hx
    rw [hret] at hx
    obtain ⟨gr, hgr, hx2, _⟩ := selectLoop_mem _ _ x hx
    unfold topoGroups at hgr
    obtain ⟨it, hit, hgrp⟩ := List.mem_map.1 hgr
    obtain ⟨m1, m2, m3, m4, _, _⟩ := topoGroupOf_spec score topo
      (topo.GetConnectedKeyFrames (heap pKF).mnId) (heap pKF).mBowVec minScore _ g hgen it hit
    have heq := topoGroupOf_eq_groupOf score topo
      (topo.GetConnectedKeyFrames (heap pKF).mnId) (heap pKF).mBowVec minScore _ g hgen it
    have hrep : (topoGroupOf topo (topoMinCommonWords g) g.1
        (topoScored score topo (heap pKF).mBowVec minScore g).1 it).2 = x := by
      rw [hgrp]; exact hx2
    have hstored : ∀ q, q ∈ g.2 → (g.1 q).getD 0 > topoMinCommonWords g →
        (topoScored score topo (heap pKF).mBowVec minScore g).1 q
          = some (score (heap pKF).mBowVec (topo.getKeyFrameBowVector q)) := by
      intro q hq hw
      unfold topoScored
      rw [(topoScoreFold_spec score topo (heap pKF).mBowVec minScore g.1
        (topoMinCommonWords g) g.2 (fun _ => none, [])).2 q, if_pos ⟨hq, hw⟩]
    rw [heq] at hrep
    rcases groupOf_best (fun id => topo.GetBestCovisibilityKeyFrames id 10)
      (fun id => decide (id ∈ g.2) && decide ((g.1 id).getD 0 > topoMinCommonWords g))
      (fun id => score (heap pKF).mBowVec (topo.getKeyFrameBowVector id)) it
      with ⟨e1, e2⟩ | ⟨n, hn, e1, e2⟩
    · have hxi : it.2 = x := e1.symm.trans hrep
      subst hxi
      refine ⟨m3 ▸ m4, hstored _ m1 m2, it, hit, heq ▸ hrep, m3, ?_⟩
      rw [e2]; exact m3.symm
    · have hxn : n = x := e1.symm.trans hrep
      subst hxn
      have hc := (List.mem_filter.1 hn).2
      simp only [Bool.and_eq_true, decide_eq_true_eq] at hc
      refine ⟨?_, hstored _ hc.1 hc.2, it, hit, heq ▸ hrep, m3, e2⟩
      have := foldr_max_ge_init (((topo.GetBestCovisibilityKeyFrames it.2 10).filter
        (fun id => decide (id ∈ g.2) &&
          decide ((g.1 id).getD 0 > topoMinCommonWords g))).map
        (fun id => score (heap pKF).mBowVec (topo.getKeyFrameBowVector id))) it.1
      exact le_trans m4 (e2 ▸ this)

/-- Claim C22 at the threshold example with `minScore = 1/2`: every keyframe
returned by `DetectLoopCandidates` scores at least 1/2 against the query. -/
theorem returned_candidates_clear_minScore_witness :
    (∀ w ∈ (thresholdHeap 9).mBowVec.words, w < thresholdDb.mvInvertedFile.length) ∧
    (∀ p, (thresholdHeap p).mnLoopQuery ≠ (thresholdHeap 9).mnId) ∧
    ∃ o, DetectLoopCandidates sampleScore thresholdCov thresholdDb thresholdHeap 9 (1 / 2)
        = some o ∧
      ∀ x ∈ o.ret, sampleScore (thresholdHeap 9).mBowVec (thresholdHeap x).mBowVec ≥ 1 / 2 := by
  refine ⟨by decide, thresholdHeap_untagged 109 (by decide), ?_⟩
  obtain ⟨g, o, _, ho, h⟩ :=
    (returned_candidates_clear_minScore sampleScore thresholdCov connectedTopo thresholdDb
      thresholdHeap 9 (1 / 2) (by decide)).1 (thresholdHeap_untagged 109 (by decide))
  exact ⟨o, ho, fun x hx => (h x hx).1⟩

/-- Rounding to 24 significant bits raises a number by at most one part in `2^24`. -/
theorem roundBinary32_le (n : Nat) : roundBinary32 n * 16777216 ≤ n * 16777217 := by
  unfold roundBinary32
  by_cases hb : bitLength n ≤ 24
  · simp only [hb, if_true]
    omega
  · simp only [hb, if_false]
    have hpos : 0 < n := by
      by_contra h
      have h0 : n = 0 := by omega
      rw [h0] at hb
      exact hb (by simp [bitLength, bitLengthAux])
    have hlow := (bitLength_spec n).2 hpos
    obtain ⟨k, hk⟩ : ∃ k, bitLength n - 24 = k + 1 := ⟨bitLength n - 25, by omega⟩
    have hbits : bitLength n - 1 = k + 24 := by omega
    rw [hbits] at hlow
    rw [hk]
    have hP : 2 ^ (k + 1) = 2 * 2 ^ k := by rw [pow_succ]; ring
    have hL : 2 ^ (k + 24) = 2 ^ k * 16777216 := by rw [pow_add]; norm_num
    simp only [Nat.add_sub_cancel]
    generalize hh : 2 ^ k = half at hP hL
    rw [hL] at hlow
    rw [hP]
    have hdm := Nat.div_add_mod n (2 * half)
    have hhalf : 0 < half := by rw [← hh]; exact pow_pos (by norm_num) k
    have hr := Nat.mod_lt n (show 0 < 2 * half by omega)
    generalize n / (2 * half) = q at hdm
    generalize n % (2 * half) = r at hdm hr
    have hqh : 2 * half * q = 2 * (half * q) := by ring
    split
    · next hc =>
      have hrh : half ≤ r := by
        rcases hc with h | h
        · omega
        · omega
      have e : (q + 1) * (2 * half) * 16777216
          = (2 * (half * q)) * 16777216 + 2 * (half * 16777216) := by ring
      rw [e]
      rw [hqh] at hdm
      omega
    · have e : q * (2 * half) * 16777216 = (2 * (half * q)) * 16777216 := by ring
      rw [e]
      rw [hqh] at hdm
      omega

/-- The word-overlap bound is below the maximum: `(int)(m * 0.8f) < m` for every
positive count `m`. -/
theorem minCommonWordsOf_lt (m : Int) (hm : 0 < m) : minCommonWordsOf m < m := by
  unfold minCommonWordsOf
  obtain ⟨k, rfl⟩ : ∃ k : Nat, m = (k : Int) := ⟨m.toNat, (Int.toNat_of_nonneg (le_of_lt hm)).symm⟩
  rw [Int.toNat_ofNat]
  have hk : 0 < k := by exact_mod_cast hm
  have h1 := roundBinary32_le k
  have h2 := roundBinary32_le (roundBinary32 k * 13421773)
  generalize roundBinary32 k = a at h1 h2
  generalize roundBinary32 (a * 13421773) = b at h2
  have hlt : b / 16777216 < k := by
    rw [Nat.div_lt_iff_lt_mul (by norm_num)]
    nlinarith
  exact_mod_cast hlt

theorem pow2_eq_zpow (e : Int) : pow2 e = (2 : ℚ) ^ e := by
  unfold pow2
  split
  · next h =>
    obtain ⟨n, rfl⟩ := Int.eq_ofNat_of_zero_le h
    simp
  · next h =>
    obtain ⟨n, hn⟩ : ∃ n : Nat, e = -(n : Int) := ⟨(-e).toNat, by omega⟩
    subst hn
    simp

theorem pow2_pos (e : Int) : 0 < pow2 e := by
  rw [pow2_eq_zpow]; positivity

theorem pow2_add (a b : Int) : pow2 (a + b) = pow2 a * pow2 b := by
  simp only [pow2_eq_zpow]
  exact zpow_add₀ (by norm_num) a b

theorem pow2_le_pow2 (a b : Int) (h : a ≤ b) : pow2 a ≤ pow2 b := by
  simp only [pow2_eq_zpow]
  exact zpow_le_zpow_right₀ (by norm_num) h

theorem pow2_lt_pow2 (a b : Int) (h : a < b) : pow2 a < pow2 b := by
  simp only [pow2_eq_zpow]
  exact zpow_lt_zpow_right₀ (by norm_num) h

/-- For positive `x` the exponent found by `floorLog2` brackets `x`. -/
theorem floorLog2_spec (x : ℚ) (hx : 0 < x) :
    pow2 (floorLog2 x) ≤ x ∧ x < pow2 (floorLog2 x + 1) := by
  have hnum : 0 < x.num := Rat.num_pos.2 hx
  obtain ⟨p, hp⟩ : ∃ p : Nat, x.num = (p : Int) := ⟨x.num.toNat, by omega⟩
  have hp0 : 0 < p := by omega
  have hq0 : 0 < x.den := x.den_pos
  have hxe : x = (p : ℚ) / (x.den : ℚ) := by
    have := Rat.num_div_den x
    rw [hp, Int.cast_natCast] at this
    exact this.symm
  have bp := bitLength_spec p
  have bq := bitLength_spec x.den
  have bp2 := bp.2 hp0
  have bq2 := bq.2 hq0
  have hbp : 1 ≤ bitLength p := by
    by_contra h
    have : bitLength p = 0 := by omega
    rw [this] at bp; simp at bp; omega
  have hbq : 1 ≤ bitLength x.den := by
    by_contra h
    have : bitLength x.den = 0 := by omega
    rw [this] at bq; simp at bq
  -- bounds in ℚ
  have h1 : (p : ℚ) < (2 : ℚ) ^ (bitLength p : Int) := by
    rw [zpow_natCast]; exact_mod_cast bp.1
  have h2 : (2 : ℚ) ^ ((bitLength p : Int) - 1) ≤ (p : ℚ) := by
    have : ((bitLength p : Int) - 1) = ((bitLength p - 1 : Nat) : Int) := by omega
    rw [this, zpow_natCast]; exact_mod_cast bp2
  have h3 : (x.den : ℚ) < (2 : ℚ) ^ (bitLength x.den : Int) := by
    rw [zpow_natCast]; exact_mod_cast bq.1
  have h4 : (2 : ℚ) ^ ((bitLength x.den : Int) - 1) ≤ (x.den : ℚ) := by
    have : ((bitLength x.den : Int) - 1) = ((bitLength x.den - 1 : Nat) : Int) := by omega
    rw [this, zpow_natCast]; exact_mod_cast bq2
  have hqpos : (0 : ℚ) < x.den := by exact_mod_cast hq0
  have hd : (bitLength x.num.toNat : Int) - (bitLength x.den : Int)
      = (bitLength p : Int) - (bitLength x.den : Int) := by
    rw [hp]; simp
  unfold floorLog2
  simp only [hd]
  generalize hdd : (bitLength p : Int) - (bitLength x.den : Int) = d
  have hlow : pow2 (d - 1) ≤ x := by
    rw [pow2_eq_zpow, hxe, le_div_iff₀ hqpos]
    have e : d - 1 = ((bitLength p : Int) - 1) - (bitLength x.den : Int) := by omega
    rw [e, zpow_sub₀ (by norm_num : (2 : ℚ) ≠ 0)]
    have hpos2 : (0 : ℚ) < (2 : ℚ) ^ (bitLength x.den : Int) := by positivity
    rw [div_mul_eq_mul_div, div_le_iff₀ hpos2]
    have hp2pos : (0 : ℚ) ≤ (2 : ℚ) ^ ((bitLength p : Int) - 1) := by positivity
    calc (2 : ℚ) ^ ((bitLength p : Int) - 1) * (x.den : ℚ)
        ≤ (2 : ℚ) ^ ((bitLength p : Int) - 1) * (2 : ℚ) ^ (bitLength x.den : Int) :=
          mul_le_mul_of_nonneg_left (le_of_lt h3) hp2pos
      _ ≤ (p : ℚ) * (2 : ℚ) ^ (bitLength x.den : Int) :=
          mul_le_mul_of_nonneg_right h2 (le_of_lt hpos2)
  have hhigh : x < pow2 (d + 1) := by
    rw [pow2_eq_zpow, hxe, div_lt_iff₀ hqpos]
    have e : d + 1 = (bitLength p : Int) - ((bitLength x.den : Int) - 1) := by omega
    rw [e, zpow_sub₀ (by norm_num : (2 : ℚ) ≠ 0)]
    have hpos2 : (0 : ℚ) < (2 : ℚ) ^ ((bitLength x.den : Int) - 1) := by positivity
    rw [div_mul_eq_mul_div, lt_div_iff₀ hpos2]
    have hppos : (0 : ℚ) < (p : ℚ) := by exact_mod_cast hp0
    calc (p : ℚ) * (2 : ℚ) ^ ((bitLength x.den : Int) - 1)
        ≤ (p : ℚ) * (x.den : ℚ) := mul_le_mul_of_nonneg_left h4 (le_of_lt hppos)
      _ < (2 : ℚ) ^ (bitLength p : Int) * (x.den : ℚ) :=
          mul_lt_mul_of_pos_right h1 hqpos
  split
  · next hc => exact ⟨hc, hhigh⟩
  · next hc =>
    refine ⟨hlow, ?_⟩
    have : d - 1 + 1 = d := by omega
    rw [this]
    exact lt_of_not_le hc

/-- The exponent is determined by the bracket. -/
theorem floorLog2_unique (x : ℚ) (e : Int) (h1 : pow2 e ≤ x) (h2 : x < pow2 (e + 1)) :
    floorLog2 x = e := by
  have hx : 0 < x := lt_of_lt_of_le (pow2_pos e) h1
  obtain ⟨s1, s2⟩ := floorLog2_spec x hx
  by_contra hne
  rcases lt_or_gt_of_ne hne with h | h
  · have : pow2 (floorLog2 x + 1) ≤ pow2 e := pow2_le_pow2 _ _ (by omega)
    linarith
  · have : pow2 (e + 1) ≤ pow2 (floorLog2 x) := pow2_le_pow2 _ _ (by omega)
    linarith

theorem floorLog2_mono (x y : ℚ) (hx : 0 < x) (hxy : x ≤ y) : floorLog2 x ≤ floorLog2 y := by
  obtain ⟨s1, _⟩ := floorLog2_spec x hx
  obtain ⟨_, t2⟩ := floorLog2_spec y (lt_of_lt_of_le hx hxy)
  by_contra h
  have : pow2 (floorLog2 y + 1) ≤ pow2 (floorLog2 x) := pow2_le_pow2 _ _ (by omega)
  linarith

theorem roundHalfEven_le (z : ℚ) : (roundHalfEven z : ℚ) ≤ z + 1 / 2 := by
  unfold roundHalfEven
  have h1 := Int.floor_le z
  have h2 := Int.lt_floor_add_one z
  simp only
  split
  · next h =>
    push_cast
    rcases h with h | h
    · linarith
    · linarith [h.1]
  · linarith

theorem roundHalfEven_ge (z : ℚ) : z - 1 / 2 ≤ (roundHalfEven z : ℚ) := by
  unfold roundHalfEven
  have h1 := Int.floor_le z
  have h2 := Int.lt_floor_add_one z
  simp only
  split
  · push_cast; linarith
  · next h =>
    push_neg at h
    linarith [h.1]

theorem roundHalfEven_intCast (k : Int) : roundHalfEven (k : ℚ) = k := by
  unfold roundHalfEven
  simp

theorem roundHalfEven_mono (a b : ℚ) (h : a ≤ b) : roundHalfEven a ≤ roundHalfEven b := by
  have hf : Int.floor a ≤ Int.floor b := Int.floor_mono h
  rcases lt_or_eq_of_le hf with hlt | heq
  · -- different floors
    have ha : roundHalfEven a ≤ Int.floor a + 1 := by
      unfold roundHalfEven; simp only; split <;> omega
    have hb : Int.floor b ≤ roundHalfEven b := by
      unfold roundHalfEven; simp only; split <;> omega
    omega
  · unfold roundHalfEven
    simp only
    rw [← heq]
    by_cases hb : b - (Int.floor a : ℚ) > 1 / 2 ∨
        (b - (Int.floor a : ℚ) = 1 / 2 ∧ Int.floor a % 2 = 1)
    · rw [if_pos hb]
      split <;> omega
    · rw [if_neg hb]
      have hna : ¬ (a - (Int.floor a : ℚ) > 1 / 2 ∨
          (a - (Int.floor a : ℚ) = 1 / 2 ∧ Int.floor a % 2 = 1)) := by
        push_neg at hb ⊢
        refine ⟨by linarith [hb.1], ?_⟩
        intro ha
        apply hb.2
        linarith [hb.1]
      rw [if_neg hna]

/-- Rounding to a grid of spacing `u` does not pass a grid point. -/
theorem gridRound_le (u x : ℚ) (k : Int) (hu : 0 < u) (h : x ≤ (k : ℚ) * u) :
    (roundHalfEven (x / u) : ℚ) * u ≤ (k : ℚ) * u := by
  have : x / u ≤ (k : ℚ) := by rw [div_le_iff₀ hu]; exact h
  have := roundHalfEven_mono _ _ this
  rw [roundHalfEven_intCast] at this
  exact mul_le_mul_of_nonneg_right (by exact_mod_cast this) (le_of_lt hu)

theorem gridRound_ge (u x : ℚ) (k : Int) (hu : 0 < u) (h : (k : ℚ) * u ≤ x) :
    (k : ℚ) * u ≤ (roundHalfEven (x / u) : ℚ) * u := by
  have : (k : ℚ) ≤ x / u := by rw [le_div_iff₀ hu]; exact h
  have := roundHalfEven_mono _ _ this
  rw [roundHalfEven_intCast] at this
  exact mul_le_mul_of_nonneg_right (by exact_mod_cast this) (le_of_lt hu)

theorem pow2_mul_of_le (a b : Int) (h : a ≤ b) :
    pow2 b = (((2 ^ (b - a).toNat : Nat) : Int) : ℚ) * pow2 a := by
  have e : b = ((b - a).toNat : Int) + a := by omega
  conv_lhs => rw [e]
  rw [pow2_add]
  congr 1

theorem floatUlp_pos (x : ℚ) : 0 < floatUlp x := pow2_pos _

theorem floatRound_zero : floatRound 0 = 0 := by
  unfold floatRound
  simp [roundHalfEven]

theorem floatRound_nonneg (x : ℚ) (hx : 0 ≤ x) : 0 ≤ floatRound x := by
  unfold floatRound
  have := gridRound_ge (floatUlp x) x 0 (floatUlp_pos x) (by simpa using hx)
  simpa using this

/-- Rounding to binary32 is monotone on the non-negative numbers. -/
theorem floatRound_mono (x y : ℚ) (hx : 0 ≤ x) (hxy : x ≤ y) :
    floatRound x ≤ floatRound y := by
  rcases eq_or_lt_of_le hx with h0 | hpos
  · rw [← h0, floatRound_zero]
    exact floatRound_nonneg y (le_trans hx hxy)
  · have hy : 0 < y := lt_of_lt_of_le hpos hxy
    have hex := floorLog2_mono x y hpos hxy
    unfold floatRound floatUlp
    rw [abs_of_pos hpos, abs_of_pos hy]
    by_cases hu : max (floorLog2 x - 23) (-149) = max (floorLog2 y - 23) (-149)
    · rw [hu]
      have hup := pow2_pos (max (floorLog2 y - 23) (-149))
      apply mul_le_mul_of_nonneg_right _ (le_of_lt hup)
      have : x / pow2 (max (floorLog2 y - 23) (-149))
          ≤ y / pow2 (max (floorLog2 y - 23) (-149)) :=
        div_le_div_of_nonneg_right hxy (le_of_lt hup)
      exact_mod_cast roundHalfEven_mono _ _ this
    · have hlt : floorLog2 x < floorLog2 y := by
        rcases lt_or_eq_of_le hex with h | h
        · exact h
        · rw [h] at hu; exact absurd rfl hu
      have hyn : -149 < floorLog2 y - 23 := by
        by_contra hc
        apply hu
        rw [max_eq_right (by omega), max_eq_right (by omega)]
      obtain ⟨_, sx⟩ := floorLog2_spec x hpos
      obtain ⟨sy, _⟩ := floorLog2_spec y hy
      have hB1 : x ≤ pow2 (floorLog2 y) :=
        le_trans (le_of_lt sx) (pow2_le_pow2 _ _ (by omega))
      have e1 := pow2_mul_of_le (max (floorLog2 x - 23) (-149)) (floorLog2 y) (by
        rcases max_cases (floorLog2 x - 23) (-149) with h | h <;> omega)
      have e2 := pow2_mul_of_le (max (floorLog2 y - 23) (-149)) (floorLog2 y) (by
        rcases max_cases (floorLog2 y - 23) (-149) with h | h <;> omega)
      have l1 := gridRound_le (pow2 (max (floorLog2 x - 23) (-149))) x _ (pow2_pos _)
        (e1 ▸ hB1)
      have l2 := gridRound_ge (pow2 (max (floorLog2 y - 23) (-149))) y _ (pow2_pos _)
        (e2 ▸ sy)
      rw [← e1] at l1
      rw [← e2] at l2
      exact le_trans l1 l2

/-- Rounding to binary32 raises a number by at most half a unit in the last place. -/
theorem floatRound_le (x : ℚ) : floatRound x ≤ x + floatUlp x / 2 := by
  unfold floatRound
  have hu := floatUlp_pos x
  have h := roundHalfEven_le (x / floatUlp x)
  have := mul_le_mul_of_nonneg_right h (le_of_lt hu)
  have e : (x / floatUlp x + 1 / 2) * floatUlp x = x + floatUlp x / 2 := by
    field_simp
    ring
  rw [e] at this
  exact this

/-- Above the smallest normal binary32 number, `0.75f * x` rounds to less than `x`. -/
theorem floatMul34_lt (x : ℚ) (hx : pow2 (-126) ≤ x) : floatMul34 x < x := by
  have hxpos : 0 < x := lt_of_lt_of_le (pow2_pos _) hx
  have hypos : 0 < (3 / 4 : ℚ) * x := by positivity
  unfold floatMul34
  refine lt_of_le_of_lt (floatRound_le _) ?_
  have hu : floatUlp ((3 / 4 : ℚ) * x) / 2 < x / 4 := by
    unfold floatUlp
    rw [abs_of_pos hypos]
    rcases max_cases (floorLog2 ((3 / 4 : ℚ) * x) - 23) (-149) with ⟨h, _⟩ | ⟨h, _⟩
    · rw [h]
      obtain ⟨s1, _⟩ := floorLog2_spec _ hypos
      have e : floorLog2 ((3 / 4 : ℚ) * x) - 23 = floorLog2 ((3 / 4 : ℚ) * x) + (-23) := by
        omega
      rw [e, pow2_add]
      have h23 : pow2 (-23) = 1 / 8388608 := by decide!
      rw [h23]
      have hp := pow2_pos (floorLog2 ((3 / 4 : ℚ) * x))
      nlinarith
    · rw [h]
      have h149 : pow2 (-149) < pow2 (-126) / 4 := by decide!
      linarith
  linarith

/-- A binary32 sum is not below a non-negative binary32 number that the exact sum
reaches. -/
theorem floatAdd_ge (c a b : ℚ) (hc : 0 ≤ c) (hfc : floatRound c = c) (h : c ≤ a + b) :
    c ≤ floatAdd a b := by
  unfold floatAdd
  have := floatRound_mono c (a + b) hc h
  rw [hfc] at this
  exact this

theorem loopGatherStep_stale (qid : Nat) (conn : List KFPtr) (h0 : Heap)
    (s : Heap × List KFPtr) (r : LightKeyFrame) (h : LoopGatherStale qid h0 s) :
    LoopGatherStale qid h0 (loopGatherStep qid conn s r) := by
  obtain ⟨i1, i2, i3⟩ := h
  cases hr : r.getKeyFrame with
  | none =>
    have hs : loopGatherStep qid conn s r = s := by
      unfold loopGatherStep; rw [hr]
    rw [hs]; exact ⟨i1, i2, i3⟩
  | some q =>
    rw [loopGatherStep_some qid conn s r q hr]
    by_cases ht : (s.1 q).mnLoopQuery = qid
    · simp only [ht, if_true]
      refine ⟨?_, ?_, ?_⟩
      · intro p
        by_cases e : p = q
        · subst e; simp [i1 p]
        · simp [Function.update_noteq e, i1 p]
      · intro p hp
        by_cases e : p = q
        · subst e; exact i2 p ht
        · have hp' : (s.1 p).mnLoopQuery = qid := by
            simpa [Function.update_noteq e] using hp
          exact i2 p hp'
      · intro p hp
        have hp' : p ∈ s.2 := hp
        by_cases e : p = q
        · subst e
          have := (i3 p hp').2
          simp only [Function.update_same]
          exact ⟨trivial, by omega⟩
        · simp only [Function.update_noteq e]
          exact i3 p hp'
    · by_cases hc : q ∈ conn
      · simp only [ht, hc, if_false, if_true]
        refine ⟨?_, ?_, ?_⟩
        · intro p
          by_cases e : p = q
          · subst e; simp [i1 p]
          · simp [Function.update_noteq e, i1 p]
        · intro p hp
          by_cases e : p = q
          · subst e
            have hp' : (s.1 p).mnLoopQuery = qid := by simpa using hp
            exact absurd hp' ht
          · have hp' : (s.1 p).mnLoopQuery = qid := by
              simpa [Function.update_noteq e] using hp
            exact i2 p hp'
        · intro p hp
          have hp' : p ∈ s.2 := hp
          by_cases e : p = q
          · subst e; exact absurd (i3 p hp').1 ht
          · simp only [Function.update_noteq e]
            exact i3 p hp'
      · simp only [ht, hc, if_false]
        refine ⟨?_, ?_, ?_⟩
        · intro p
          by_cases e : p = q
          · subst e; simp [i1 p]
          · simp [Function.update_noteq e, i1 p]
        · intro p hp
          by_cases e : p = q
          · subst e; exact Or.inl (List.mem_append_right _ (List.mem_singleton_self _))
          · have hp' : (s.1 p).mnLoopQuery = qid := by
              simpa [Function.update_noteq e] using hp
            rcases i2 p hp' with h1 | h1
            · exact Or.inl (List.mem_append_left _ h1)
            · exact Or.inr h1
        · intro p hp
          have hp' : p ∈ s.2 ++ [q] := hp
          by_cases e : p = q
          · subst e
            simp only [Function.update_same]
            exact ⟨trivial, le_refl _⟩
          · simp only [Function.update_noteq e]
            rcases List.mem_append.1 hp' with h1 | h1
            · exact i3 p h1
            · exact absurd (List.mem_singleton.1 h1) e

theorem loopGatherFold_stale (qid : Nat) (conn : List KFPtr) (h0 : Heap) :
    ∀ (V : List LightKeyFrame) (s : Heap × List KFPtr),
      LoopGatherStale qid h0 s → LoopGatherStale qid h0 (V.foldl (loopGatherStep qid conn) s) := by
  intro V
  induction V with
  | nil => intro s h; exact h
  | cons r rest ih =>
    intro s h
    exact ih _ (loopGatherStep_stale qid conn h0 s r h)

theorem foldl_floatAdd_ge (c : ℚ) (hc : 0 ≤ c) (hfc : floatRound c = c) :
    ∀ (l : List ℚ) (acc : ℚ), c ≤ acc → (∀ b ∈ l, 0 ≤ b) → c ≤ l.foldl floatAdd acc := by
  intro l
  induction l with
  | nil => intro acc h _; exact h
  | cons b rest ih =>
    intro acc h hl
    simp only [List.foldl_cons]
    apply ih
    · apply floatAdd_ge c acc b hc hfc
      have := hl b (List.mem_cons_self _ _)
      linarith
    · intro x hx
      exact hl x (List.mem_cons_of_mem _ hx)

/-- A group score is at least the entry's score when that score is a non-negative
binary32 number and the stored scores of the contributing neighbours are
non-negative. -/
theorem groupOf_ge {α : Type} (neighs : α → List α) (c : α → Bool) (s : α → ℚ)
    (it : ℚ × α) (h0 : 0 ≤ it.1) (hf : floatRound it.1 = it.1)
    (hs : ∀ p, c p = true → 0 ≤ s p) :
    it.1 ≤ (groupOf neighs c s it).1 := by
  rw [(groupOf_spec neighs c s it).1]
  apply foldl_floatAdd_ge it.1 h0 hf _ _ (le_refl _)
  intro x hx
  obtain ⟨p, hp, e⟩ := List.mem_map.1 hx
  rw [← e]
  exact hs p (List.mem_filter.1 hp).2

/-- When the list of pairs is not empty, every group score is at least the seed,
and the seed is at least the smallest normal binary32 number: `bestAccScore` is
the score of a pair, that pair is strictly above `0.75f * bestAccScore`, and its
representative is returned. -/
theorem selectLoop_best_returned {α : Type} [DecidableEq α] (seed : ℚ)
    (groups : List (ℚ × α)) (hne : groups ≠ []) (hpos : pow2 (-126) ≤ seed)
    (hge : ∀ gr ∈ groups, seed ≤ gr.1) :
    ∃ gr ∈ groups, gr.1 = bestAccScoreLoop seed groups ∧
      gr.1 > floatMul34 (bestAccScoreLoop seed groups) ∧
      gr.2 ∈ selectLoop (floatMul34 (bestAccScoreLoop seed groups)) groups := by
  obtain ⟨hb, _, _, _, h5, h6, h7⟩ := selectLoop_eq_spec seed groups
  rw [hb]
  have hatt : ∃ gr ∈ groups, gr.1 = specBestAccScore seed groups := by
    rcases h7 with h | h
    · obtain ⟨x, hx⟩ := List.exists_mem_of_ne_nil groups hne
      refine ⟨x, hx, le_antisymm (h6 x hx) ?_⟩
      rw [h]; exact hge x hx
    · exact h
  obtain ⟨gr, hgr, e⟩ := hatt
  have hgt : gr.1 > floatMul34 (specBestAccScore seed groups) := by
    rw [e]; exact floatMul34_lt _ (le_trans hpos h5)
  exact ⟨gr, hgr, e, hgt, selectLoop_complete _ groups gr hgr hgt⟩

/-- A non-empty candidate list whose counts are all positive holds a candidate
with the maximal count, and that count is above `minCommonWords`. -/
theorem maxCommon_passes_filter {α : Type} (w : α → Int) (l : List α) (hne : l ≠ [])
    (hw : ∀ p ∈ l, 1 ≤ w p) :
    ∃ p ∈ l, w p = maxCommonWordsLoop w l ∧
      w p > minCommonWordsOf (maxCommonWordsLoop w l) := by
  obtain ⟨_, h2, h3⟩ := maxCommonWordsLoop_spec w l
  obtain ⟨x, hx⟩ := List.exists_mem_of_ne_nil l hne
  have hpos : 0 < maxCommonWordsLoop w l := by
    have := hw x hx
    have := h2 x hx
    omega
  rcases h3 with h | ⟨p, hp, e⟩
  · omega
  · exact ⟨p, hp, e, by rw [e]; exact minCommonWordsOf_lt _ hpos⟩

/-- The keyframe objects left by a `DetectLoopCandidates` call are those left by
its scoring loop, on every path. -/
theorem DetectLoopCandidates_heap (score : BowVector → BowVector → ℚ)
    (cov : Covisibility) (db : KeyFrameDatabase) (heap : Heap) (pKF : KFPtr) (minScore : ℚ)
    (g : Heap × List KFPtr)
    (hg : loopGather db.mvInvertedFile (heap pKF).mnId (cov.GetConnectedKeyFrames pKF)
      (heap pKF).mBowVec (heap, []) = some g) :
    ∃ o, DetectLoopCandidates score cov db heap pKF minScore = some o ∧
      o.heap = (loopScored score (heap pKF).mBowVec minScore g).1 := by
  simp only [DetectLoopCandidates, hg]
  unfold loopScored loopMinCommonWords
  split
  · next h1 =>
    rw [List.isEmpty_iff.1 h1]
    exact ⟨_, rfl, rfl⟩
  · split
    · exact ⟨_, rfl, rfl⟩
    · exact ⟨_, rfl, rfl⟩

/-- A `DetectLoopCandidatesInTopoMap` call is its gather phase followed by the
ranking of the gather result `g`: it returns the selection over the pairs
emitted for `g` and leaves the index and the keyframe objects as they were. -/
theorem DetectLoopCandidatesInTopoMap_eq_of_gather (score : BowVector → BowVector → ℚ)
    (topo : TopoMap) (db : KeyFrameDatabase) (heap : Heap) (pKF : KFPtr) (minScore : ℚ)
    (g : (Nat → Option Int) × List Nat)
    (hg : topoGather db.mvInvertedFile (topo.GetConnectedKeyFrames (heap pKF).mnId)
      (heap pKF).mBowVec (fun _ => none, []) = some g) :
    DetectLoopCandidatesInTopoMap score topo db heap pKF minScore
      = some ⟨selectLoop (floatMul34 (bestAccScoreLoop minScore
            (topoGroups score topo (heap pKF).mBowVec minScore g)))
          (topoGroups score topo (heap pKF).mBowVec minScore g), db, heap⟩ := by
  obtain ⟨o, ho, hret⟩ :=
    DetectLoopCandidatesInTopoMap_selection score topo db heap pKF minScore g hg
  obtain ⟨o', ho', hdb, hheap, _⟩ :=
    DetectLoopCandidatesInTopoMap_of_gather score topo db heap pKF minScore g hg
  have e : o' = o := Option.some.inj (ho'.symm.trans ho)
  subst e
  rw [ho]
  cases o' with
  | mk r d h =>
    simp only at hret hdb hheap
    rw [hret, hdb, hheap]

/-- Claim C17 (the gather counts shared words).  `DetectLoopCandidatesInTopoMap`
is its gather phase followed by the ranking of what the gather recorded: the
gather returns a pair `g` of `mLoopWords` and the candidate list, and the call
returns the selection computed from `g`.  The candidate list has no duplicates;
an id is a candidate exactly when it has a posting in the list of some word of
the query and is not in the connected set; `mLoopWords` holds, for exactly the
candidates, the number of postings of the id over the lists of the words of the
query; and when no list holds an id twice, that number is the number of
(distinct) words of the query whose list holds the id. -/
theorem topo_gather_counts_shared_words (score : BowVector → BowVector → ℚ)
    (topo : TopoMap) (db : KeyFrameDatabase) (heap : Heap) (pKF : KFPtr) (minScore : ℚ)
    (hwf : (heap pKF).mBowVec.wellFormed)
    (hrange : ∀ w ∈ (heap pKF).mBowVec.words, w < db.mvInvertedFile.length) :
    ∃ g, topoGather db.mvInvertedFile (topo.GetConnectedKeyFrames (heap pKF).mnId)
        (heap pKF).mBowVec (fun _ => none, []) = some g ∧
      DetectLoopCandidatesInTopoMap score topo db heap pKF minScore
        = some ⟨selectLoop (floatMul34 (bestAccScoreLoop minScore
              (topoGroups score topo (heap pKF).mBowVec minScore g)))
            (topoGroups score topo (heap pKF).mBowVec minScore g), db, heap⟩ ∧
      g.2.Nodup ∧
      (∀ id, id ∈ g.2 ↔
        ((∃ w ∈ (heap pKF).mBowVec.words, ∃ l, db.mvInvertedFile[w]? = some l ∧
            ∃ r ∈ l, r.mnId = id) ∧
          id ∉ topo.GetConnectedKeyFrames (heap pKF).mnId)) ∧
      (∀ id, g.1 id = if id ∈ g.2 then
          some ((((heap pKF).mBowVec.words.map
            (fun w => (postingIds (db.mvInvertedFile.getD w [])).count id)).sum : Nat) : Int)
        else none) ∧
      ((∀ l ∈ db.mvInvertedFile, (postingIds l).Nodup) →
        ∀ id ∈ g.2,
          ((heap pKF).mBowVec.words.filter
            (fun w => decide (id ∈ postingIds (db.mvInvertedFile.getD w [])))).Nodup ∧
          g.1 id = some ((((heap pKF).mBowVec.words.filter
            (fun w => decide (id ∈ postingIds (db.mvInvertedFile.getD w [])))).length : Nat)
              : Int)) := by
  have hg := topoGather_eq_fold db.mvInvertedFile (topo.GetConnectedKeyFrames (heap pKF).mnId)
    (heap pKF).mBowVec (fun _ => none, []) hrange
  obtain ⟨g1, g2⟩ := topoGatherFold_spec (topo.GetConnectedKeyFrames (heap pKF).mnId)
    (visitedPostings db.mvInvertedFile (heap pKF).mBowVec)
  refine ⟨_, hg,
    DetectLoopCandidatesInTopoMap_eq_of_gather score topo db heap pKF minScore _ hg,
    ?_, ?_, ?_, ?_⟩
  · rw [g1]; exact firstOccurrences_nodup _
  · intro id
    rw [g1, mem_firstOccurrences, List.mem_filter]
    simp only [decide_eq_true_eq]
    apply and_congr_left
    intro _
    unfold postingIds
    rw [List.mem_map]
    constructor
    · rintro ⟨r, hr, e⟩
      obtain ⟨w, hw, l, hl, hrl⟩ := (mem_visitedPostings _ _ r).1 hr
      exact ⟨w, hw, l, hl, r, hrl, e⟩
    · rintro ⟨w, hw, l, hl, r, hrl, e⟩
      exact ⟨r, (mem_visitedPostings _ _ r).2 ⟨w, hw, l, hl, hrl⟩, e⟩
  · intro id
    rw [g2 id, count_postingIds_visited]
  · intro hone id hid
    refine ⟨(wellFormed_nodup hwf).filter _, ?_⟩
    rw [g2 id, if_pos hid, count_postingIds_visited,
      sum_count_eq_length_filter db.mvInvertedFile id hone]

/-- Claim C17 at the running example with `B` (id 102) connected to `Q`: the gather
lists the id 101 alone, with one shared word, records nothing for 102, and the
call returns `[101]`. -/
theorem topo_gather_counts_shared_words_witness :
    (sampleHeap 9).mBowVec.wellFormed ∧
    (∀ w ∈ (sampleHeap 9).mBowVec.words, w < sampleDb.mvInvertedFile.length) ∧
    ∃ g o, topoGather sampleDb.mvInvertedFile
        (connectedTopo.GetConnectedKeyFrames (sampleHeap 9).mnId)
        (sampleHeap 9).mBowVec (fun _ => none, []) = some g ∧
      DetectLoopCandidatesInTopoMap sampleScore connectedTopo sampleDb sampleHeap 9 (1 / 10)
        = some o ∧
      g.2 = [101] ∧ g.1 101 = some 1 ∧ g.1 102 = none ∧ o.ret = [101] := by
  obtain ⟨g, hg, hD, _, _, hc, _⟩ :=
    topo_gather_counts_shared_words sampleScore connectedTopo sampleDb sampleHeap 9 (1 / 10)
      (by decide) (by decide)
  have hg' := topoGather_eq_fold sampleDb.mvInvertedFile
    (connectedTopo.GetConnectedKeyFrames (sampleHeap 9).mnId) (sampleHeap 9).mBowVec
    (fun _ => none, []) (by decide)
  have e : g = _ := Option.some.inj (hg.symm.trans hg')
  have h2 : g.2 = [101] := by rw [e]; decide!
  refine ⟨by decide, by decide, g, _, hg, hD, h2, ?_, ?_, ?_⟩
  · rw [hc 101, h2]; rfl
  · rw [hc 102, h2]; rfl
  · show selectLoop _ _ = _
    rw [e]
    decide!

/-- The keyframe objects left by a `DetectRelocalizationCandidates` call are those
left by its scoring loop, on every path. -/
theorem DetectRelocalizationCandidates_heap (score : BowVector → BowVector → ℚ)
    (cov : Covisibility) (db : KeyFrameDatabase) (heap : Heap) (F : Frame)
    (g : Heap × List KFPtr)
    (hg : relocGather db.mvInvertedFile F.mnId F.mBowVec (heap, []) = some g) :
    ∃ o, DetectRelocalizationCandidates score cov db heap F = some o ∧
      o.heap = (relocScored score F.mBowVec g).1 := by
  simp only [DetectRelocalizationCandidates, hg]
  unfold relocScored relocMinCommonWords
  split
  · next h1 =>
    rw [List.isEmpty_iff.1 h1]
    exact ⟨_, rfl, rfl⟩
  · split
    · exact ⟨_, rfl, rfl⟩
    · exact ⟨_, rfl, rfl⟩

/-- A `DetectLoopCandidates` call is its gather phase followed by the scoring and
ranking of the gather result `g`. -/
theorem DetectLoopCandidates_eq_of_gather (score : BowVector → BowVector → ℚ)
    (cov : Covisibility) (db : KeyFrameDatabase) (heap : Heap) (pKF : KFPtr) (minScore : ℚ)
    (g : Heap × List KFPtr)
    (hg : loopGather db.mvInvertedFile (heap pKF).mnId (cov.GetConnectedKeyFrames pKF)
      (heap pKF).mBowVec (heap, []) = some g) :
    DetectLoopCandidates score cov db heap pKF minScore
      = some ⟨selectLoop (floatMul34 (bestAccScoreLoop minScore
            (loopGroups score cov (heap pKF).mnId (heap pKF).mBowVec minScore g)))
          (loopGroups score cov (heap pKF).mnId (heap pKF).mBowVec minScore g), db,
        (loopScored score (heap pKF).mBowVec minScore g).1⟩ := by
  obtain ⟨o, ho, hret⟩ := DetectLoopCandidates_selection score cov db heap pKF minScore g hg
  obtain ⟨o', ho', hdb, _⟩ := DetectLoopCandidates_of_gather score cov db heap pKF minScore g hg
  obtain ⟨o'', ho'', hheap⟩ := DetectLoopCandidates_heap score cov db heap pKF minScore g hg
  have e : o' = o := Option.some.inj (ho'.symm.trans ho)
  have e' : o'' = o := Option.some.inj (ho''.symm.trans ho)
  subst e
  subst e'
  rw [ho]
  cases o'' with
  | mk r d h =>
    simp only at hret hdb hheap
    rw [hret, hdb, hheap]

/-- A `DetectRelocalizationCandidates` call is its gather phase followed by the
scoring and ranking of the gather result `g`. -/
theorem DetectRelocalizationCandidates_eq_of_gather (score : BowVector → BowVector → ℚ)
    (cov : Covisibility) (db : KeyFrameDatabase) (heap : Heap) (F : Frame)
    (g : Heap × List KFPtr)
    (hg : relocGather db.mvInvertedFile F.mnId F.mBowVec (heap, []) = some g) :
    DetectRelocalizationCandidates score cov db heap F
      = some ⟨selectLoop (floatMul34 (bestAccScoreLoop 0
            (relocGroups score cov F.mnId F.mBowVec g)))
          (relocGroups score cov F.mnId F.mBowVec g), db,
        (relocScored score F.mBowVec g).1⟩ := by
  obtain ⟨o, ho, hret⟩ := DetectRelocalizationCandidates_selection score cov db heap F g hg
  obtain ⟨o', ho', hdb, _⟩ := DetectRelocalizationCandidates_of_gather score cov db heap F g hg
  obtain ⟨o'', ho'', hheap⟩ := DetectRelocalizationCandidates_heap score cov db heap F g hg
  have e : o' = o := Option.some.inj (ho'.symm.trans ho)
  have e' : o'' = o := Option.some.inj (ho''.symm.trans ho)
  subst e
  subst e'
  rw [ho]
  cases o'' with
  | mk r d h =>
    simp only at hret hdb hheap
    rw [hret, hdb, hheap]

/-- Every element returned by the selection over the groups of a list of entries is
the representative of the group of one of the entries. -/
theorem selectLoop_map_mem {α : Type} [DecidableEq α] (thr : ℚ) (G : ℚ × α → ℚ × α)
    (l : List (ℚ × α)) (x : α) (h : x ∈ selectLoop thr (l.map G)) :
    ∃ it ∈ l, (G it).2 = x := by
  obtain ⟨gr, hgr, e, _⟩ := selectLoop_mem thr _ x h
  obtain ⟨it, hit, e2⟩ := List.mem_map.1 hgr
  exact ⟨it, hit, e2 ▸ e⟩

/-- Claim C18 (word-overlap filter).  Each of the three detection calls is its
gather followed by the scoring and ranking of the gather result `g`, where
`maxCommonWords` is the maximum shared-word count over the gathered candidates
and `minCommonWords`, the truncated binary32 product `maxCommonWords * 0.8f`,
is `⌊4 maxCommonWords / 5⌋` for every count up to 3355443.  In each call a
gathered candidate is passed to the scorer (its score is written, and it may
enter `lScoreAndMatch`) exactly when its count is strictly above
`minCommonWords`; the stored score of every other keyframe is left as it was;
every entry of `lScoreAndMatch`, that is every seed of a group, is a gathered
candidate above `minCommonWords`; and every returned element is the
representative of the group of such a seed. -/
theorem word_overlap_filter (score : BowVector → BowVector → ℚ) (cov : Covisibility)
    (topo : TopoMap) (db : KeyFrameDatabase) (heap : Heap) (pKF : KFPtr) (F : Frame)
    (minScore : ℚ)
    (hrange : ∀ w ∈ (heap pKF).mBowVec.words, w < db.mvInvertedFile.length)
    (hF : ∀ w ∈ F.mBowVec.words, w < db.mvInvertedFile.length) :
    (∀ m : Nat, 5 * m < 16777216 → minCommonWordsOf (m : Int) = ((4 * m / 5 : Nat) : Int)) ∧
    (∃ g, loopGather db.mvInvertedFile (heap pKF).mnId (cov.GetConnectedKeyFrames pKF)
          (heap pKF).mBowVec (heap, []) = some g ∧
      DetectLoopCandidates score cov db heap pKF minScore
        = some ⟨selectLoop (floatMul34 (bestAccScoreLoop minScore
              (loopGroups score cov (heap pKF).mnId (heap pKF).mBowVec minScore g)))
            (loopGroups score cov (heap pKF).mnId (heap pKF).mBowVec minScore g), db,
          (loopScored score (heap pKF).mBowVec minScore g).1⟩ ∧
      loopMinCommonWords g
        = minCommonWordsOf (maxCommonWordsLoop (fun p => (g.1 p).mnLoopWords) g.2) ∧
      (∀ p ∈ g.2, (g.1 p).mnLoopWords
        ≤ maxCommonWordsLoop (fun p => (g.1 p).mnLoopWords) g.2) ∧
      (maxCommonWordsLoop (fun p => (g.1 p).mnLoopWords) g.2 = 0 ∨
        ∃ p ∈ g.2, (g.1 p).mnLoopWords
          = maxCommonWordsLoop (fun p => (g.1 p).mnLoopWords) g.2) ∧
      (loopScored score (heap pKF).mBowVec minScore g).2
        = ((g.2.filter (fun p => decide ((g.1 p).mnLoopWords > loopMinCommonWords g))).map
            (fun p => (score (heap pKF).mBowVec (g.1 p).mBowVec, p))).filter
              (fun it => decide (it.1 ≥ minScore)) ∧
      (∀ p, ((loopScored score (heap pKF).mBowVec minScore g).1 p).mLoopScore
        = if p ∈ g.2 ∧ (g.1 p).mnLoopWords > loopMinCommonWords g
          then score (heap pKF).mBowVec (g.1 p).mBowVec else (g.1 p).mLoopScore) ∧
      (∀ it ∈ (loopScored score (heap pKF).mBowVec minScore g).2,
        it.2 ∈ g.2 ∧ (g.1 it.2).mnLoopWords > loopMinCommonWords g) ∧
      ∀ o, DetectLoopCandidates score cov db heap pKF minScore = some o → ∀ x ∈ o.ret,
        ∃ it ∈ (loopScored score (heap pKF).mBowVec minScore g).2,
          (g.1 it.2).mnLoopWords > loopMinCommonWords g ∧
          (loopGroupOf cov (heap pKF).mnId (loopMinCommonWords g)
            (loopScored score (heap pKF).mBowVec minScore g).1 it).2 = x) ∧
    (∃ g, topoGather db.mvInvertedFile (topo.GetConnectedKeyFrames (heap pKF).mnId)
          (heap pKF).mBowVec (fun _ => none, []) = some g ∧
      DetectLoopCandidatesInTopoMap score topo db heap pKF minScore
        = some ⟨selectLoop (floatMul34 (bestAccScoreLoop minScore
              (topoGroups score topo (heap pKF).mBowVec minScore g)))
            (topoGroups score topo (heap pKF).mBowVec minScore g), db, heap⟩ ∧
      topoMinCommonWords g
        = minCommonWordsOf (maxCommonWordsLoop (fun id => (g.1 id).getD 0) g.2) ∧
      (∀ id ∈ g.2, (g.1 id).getD 0 ≤ maxCommonWordsLoop (fun id => (g.1 id).getD 0) g.2) ∧
      (maxCommonWordsLoop (fun id => (g.1 id).getD 0) g.2 = 0 ∨
        ∃ id ∈ g.2, (g.1 id).getD 0 = maxCommonWordsLoop (fun id => (g.1 id).getD 0) g.2) ∧
      (topoScored score topo (heap pKF).mBowVec minScore g).2
        = ((g.2.filter (fun id => decide ((g.1 id).getD 0 > topoMinCommonWords g))).map
            (fun id => (score (heap pKF).mBowVec (topo.getKeyFrameBowVector id), id))).filter
              (fun it => decide (it.1 ≥ minScore)) ∧
      (∀ id, (topoScored score topo (heap pKF).mBowVec minScore g).1 id
        = if id ∈ g.2 ∧ (g.1 id).getD 0 > topoMinCommonWords g
          then some (score (heap pKF).mBowVec (topo.getKeyFrameBowVector id)) else none) ∧
      (∀ it ∈ (topoScored score topo (heap pKF).mBowVec minScore g).2,
        it.2 ∈ g.2 ∧ (g.1 it.2).getD 0 > topoMinCommonWords g) ∧
      ∀ o, DetectLoopCandidatesInTopoMap score topo db heap pKF minScore = some o →
        ∀ x ∈ o.ret,
        ∃ it ∈ (topoScored score topo (heap pKF).mBowVec minScore g).2,
          (g.1 it.2).getD 0 > topoMinCommonWords g ∧
          (topoGroupOf topo (topoMinCommonWords g) g.1
            (topoScored score topo (heap pKF).mBowVec minScore g).1 it).2 = x) ∧
    (∃ g, relocGather db.mvInvertedFile F.mnId F.mBowVec (heap, []) = some g ∧
      DetectRelocalizationCandidates score cov db heap F
        = some ⟨selectLoop (floatMul34 (bestAccScoreLoop 0
              (relocGroups score cov F.mnId F.mBowVec g)))
            (relocGroups score cov F.mnId F.mBowVec g), db,
          (relocScored score F.mBowVec g).1⟩ ∧
      relocMinCommonWords g
        = minCommonWordsOf (maxCommonWordsLoop (fun p => (g.1 p).mnRelocWords) g.2) ∧
      (∀ p ∈ g.2, (g.1 p).mnRelocWords
        ≤ maxCommonWordsLoop (fun p => (g.1 p).mnRelocWords) g.2) ∧
      (maxCommonWordsLoop (fun p => (g.1 p).mnRelocWords) g.2 = 0 ∨
        ∃ p ∈ g.2, (g.1 p).mnRelocWords
          = maxCommonWordsLoop (fun p => (g.1 p).mnRelocWords) g.2) ∧
      (relocScored score F.mBowVec g).2
        = (g.2.filter (fun p => decide ((g.1 p).mnRelocWords > relocMinCommonWords g))).map
            (fun p => (score F.mBowVec (g.1 p).mBowVec, p)) ∧
      (∀ p, ((relocScored score F.mBowVec g).1 p).mRelocScore
        = if p ∈ g.2 ∧ (g.1 p).mnRelocWords > relocMinCommonWords g
          then score F.mBowVec (g.1 p).mBowVec else (g.1 p).mRelocScore) ∧
      (∀ it ∈ (relocScored score F.mBowVec g).2,
        it.2 ∈ g.2 ∧ (g.1 it.2).mnRelocWords > relocMinCommonWords g) ∧
      ∀ o, DetectRelocalizationCandidates score cov db heap F = some o → ∀ x ∈ o.ret,
        ∃ it ∈ (relocScored score F.mBowVec g).2,
          (g.1 it.2).mnRelocWords > relocMinCommonWords g ∧
          (relocGroupOf cov F.mnId (relocScored score F.mBowVec g).1 it).2 = x) := by
  refine ⟨minCommonWordsOf_eq, ?_, ?_, ?_⟩
  · obtain ⟨g, hg⟩ := loopGather_total db.mvInvertedFile (heap pKF).mnId
      (cov.GetConnectedKeyFrames pKF) (heap pKF).mBowVec (heap, []) hrange
    have hD := DetectLoopCandidates_eq_of_gather score cov db heap pKF minScore g hg
    obtain ⟨_, m2, m3⟩ := maxCommonWordsLoop_spec (fun p => (g.1 p).mnLoopWords) g.2
    have hsnd := loopScoreFold_snd score (heap pKF).mBowVec minScore (loopMinCommonWords g)
      g.1 g.2 (g.1, []) (fun p => ⟨rfl, rfl⟩)
    rw [List.nil_append] at hsnd
    have hsc := loopScoreFold_score score (heap pKF).mBowVec minScore (loopMinCommonWords g)
      g.1 g.2 (g.1, []) (fun p => ⟨rfl, rfl⟩)
    have hseed : ∀ it ∈ (loopScored score (heap pKF).mBowVec minScore g).2,
        it.2 ∈ g.2 ∧ (g.1 it.2).mnLoopWords > loopMinCommonWords g := by
      intro it hit
      unfold loopScored at hit
      rw [hsnd] at hit
      simp only [List.mem_filter, List.mem_map, decide_eq_true_eq] at hit
      obtain ⟨⟨p, ⟨hp, hw⟩, e⟩, _⟩ := hit
      rw [← e]
      exact ⟨hp, hw⟩
    refine ⟨g, hg, hD, rfl, m2, m3, hsnd, hsc, hseed, ?_⟩
    intro o ho x hx
    rw [hD] at ho
    have e := Option.some.inj ho
    rw [← e] at hx
    obtain ⟨it, hit, hrep⟩ := selectLoop_map_mem _ _ _ x hx
    exact ⟨it, hit, (hseed it hit).2, hrep⟩
  · obtain ⟨g, hg⟩ := topoGather_total db.mvInvertedFile
      (topo.GetConnectedKeyFrames (heap pKF).mnId) (heap pKF).mBowVec (fun _ => none, []) hrange
    have hD := DetectLoopCandidatesInTopoMap_eq_of_gather score topo db heap pKF minScore g hg
    obtain ⟨_, m2, m3⟩ := maxCommonWordsLoop_spec (fun id => (g.1 id).getD 0) g.2
    obtain ⟨s1, s2⟩ := topoScoreFold_spec score topo (heap pKF).mBowVec minScore g.1
      (topoMinCommonWords g) g.2 (fun _ => none, [])
    rw [List.nil_append] at s1
    have hseed : ∀ it ∈ (topoScored score topo (heap pKF).mBowVec minScore g).2,
        it.2 ∈ g.2 ∧ (g.1 it.2).getD 0 > topoMinCommonWords g := by
      intro it hit
      unfold topoScored at hit
      rw [s1] at hit
      simp only [List.mem_filter, List.mem_map, decide_eq_true_eq] at hit
      obtain ⟨⟨p, ⟨hp, hw⟩, e⟩, _⟩ := hit
      rw [← e]
      exact ⟨hp, hw⟩
    refine ⟨g, hg, hD, rfl, m2, m3, s1, s2, hseed, ?_⟩
    intro o ho x hx
    rw [hD] at ho
    have e := Option.some.inj ho
    rw [← e] at hx
    obtain ⟨it, hit, hrep⟩ := selectLoop_map_mem _ _ _ x hx
    exact ⟨it, hit, (hseed it hit).2, hrep⟩
  · obtain ⟨g, hg⟩ := relocGather_total db.mvInvertedFile F.mnId F.mBowVec (heap, []) hF
    have hD := DetectRelocalizationCandidates_eq_of_gather score cov db heap F g hg
    obtain ⟨_, m2, m3⟩ := maxCommonWordsLoop_spec (fun p => (g.1 p).mnRelocWords) g.2
    obtain ⟨s1, s2, _⟩ := relocScoreFold_spec score F.mBowVec (relocMinCommonWords g) g.1 g.2
      (g.1, []) (fun p => ⟨rfl, rfl⟩)
    rw [List.nil_append] at s1
    have hseed : ∀ it ∈ (relocScored score F.mBowVec g).2,
        it.2 ∈ g.2 ∧ (g.1 it.2).mnRelocWords > relocMinCommonWords g := by
      intro it hit
      unfold relocScored at hit
      rw [s1] at hit
      simp only [List.mem_filter, List.mem_map, decide_eq_true_eq] at hit
      obtain ⟨p, ⟨hp, hw⟩, e⟩ := hit
      rw [← e]
      exact ⟨hp, hw⟩
    refine ⟨g, hg, hD, rfl, m2, m3, s1, s2, hseed, ?_⟩
    intro o ho x hx
    rw [hD] at ho
    have e := Option.some.inj ho
    rw [← e] at hx
    obtain ⟨it, hit, hrep⟩ := selectLoop_map_mem _ _ _ x hx
    exact ⟨it, hit, (hseed it hit).2, hrep⟩

/-- Claim C18 at the word-overlap example: `A` is gathered with 2 shared words and
`N` with 1, `minCommonWords` is 1, only `A` is scored, the score of `N` is left
untouched, and `DetectLoopCandidates` returns `[A]`. -/
theorem word_overlap_filter_witness :
    (∀ w ∈ (filterHeap 9).mBowVec.words, w < relocDb.mvInvertedFile.length) ∧
    (∀ w ∈ relocFrame.mBowVec.words, w < relocDb.mvInvertedFile.length) ∧
    ∃ g o, loopGather relocDb.mvInvertedFile (filterHeap 9).mnId
          (sampleCov.GetConnectedKeyFrames 9) (filterHeap 9).mBowVec (filterHeap, [])
          = some g ∧
      DetectLoopCandidates sampleScore sampleCov relocDb filterHeap 9 (1 / 10) = some o ∧
      g.2 = [1, 4] ∧ (g.1 1).mnLoopWords = 2 ∧ (g.1 4).mnLoopWords = 1 ∧
      loopMinCommonWords g = 1 ∧
      (loopScored sampleScore (filterHeap 9).mBowVec (1 / 10) g).2 = [(1 / 2, 1)] ∧
      (o.heap 1).mLoopScore = 1 / 2 ∧ (o.heap 4).mLoopScore = (g.1 4).mLoopScore ∧
      o.ret = [1] := by
  obtain ⟨g, hg, hD, _, _, _, _, _, _, _⟩ :=
    (word_overlap_filter sampleScore sampleCov connectedTopo relocDb filterHeap 9 relocFrame
      (1 / 10) (by decide) (by decide)).2.1
  have hg' := loopGather_eq_fold relocDb.mvInvertedFile (filterHeap 9).mnId
    (sampleCov.GetConnectedKeyFrames 9) (filterHeap 9).mBowVec (filterHeap, []) (by decide)
  have e : g = _ := Option.some.inj (hg.symm.trans hg')
  refine ⟨by decide, by decide, g, _, hg, hD, ?_, ?_, ?_, ?_, ?_, ?_, ?_, ?_⟩
  all_goals (try simp only)
  all_goals (rw [e]; decide!)

/-- Claim C20, amended (loop-closure re-ranking counts the neighbours that passed
the word-overlap filter, whatever their score, and adds in binary32).  In
`DetectLoopCandidates`, called with no keyframe tagged by the query on entry,
and in `DetectLoopCandidatesInTopoMap`, the call is its gather followed by the
selection over the pairs emitted for the entries of `lScoreAndMatch`; and every
such entry is a gathered candidate above `minCommonWords` with its own score,
at least `minScore`, whose emitted `groupScore` is obtained from that score by
adding, one after the other in the order of the neighbour list and each time
rounding to binary32, the scores of exactly those of its up-to-10 best
covisibility neighbours that were gathered by this query and are above
`minCommonWords` (no comparison with `minScore` is made for them), and whose
representative is the candidate or one of those neighbours. -/
theorem loop_group_score_counts_gathered_neighbours (score : BowVector → BowVector → ℚ)
    (cov : Covisibility) (topo : TopoMap) (db : KeyFrameDatabase) (heap : Heap)
    (pKF : KFPtr) (minScore : ℚ)
    (hrange : ∀ w ∈ (heap pKF).mBowVec.words, w < db.mvInvertedFile.length)
    (hfresh : ∀ p, (heap p).mnLoopQuery ≠ (heap pKF).mnId) :
    (∃ g, loopGather db.mvInvertedFile (heap pKF).mnId (cov.GetConnectedKeyFrames pKF)
          (heap pKF).mBowVec (heap, []) = some g ∧
      DetectLoopCandidates score cov db heap pKF minScore
        = some ⟨selectLoop (floatMul34 (bestAccScoreLoop minScore
              ((loopScored score (heap pKF).mBowVec minScore g).2.map
                (loopGroupOf cov (heap pKF).mnId (loopMinCommonWords g)
                  (loopScored score (heap pKF).mBowVec minScore g).1))))
            ((loopScored score (heap pKF).mBowVec minScore g).2.map
              (loopGroupOf cov (heap pKF).mnId (loopMinCommonWords g)
                (loopScored score (heap pKF).mBowVec minScore g).1)), db,
          (loopScored score (heap pKF).mBowVec minScore g).1⟩ ∧
      ∀ it ∈ (loopScored score (heap pKF).mBowVec minScore g).2,
        it.2 ∈ g.2 ∧ (g.1 it.2).mnLoopWords > loopMinCommonWords g ∧
        it.1 = score (heap pKF).mBowVec (heap it.2).mBowVec ∧ it.1 ≥ minScore ∧
        (loopGroupOf cov (heap pKF).mnId (loopMinCommonWords g)
            (loopScored score (heap pKF).mBowVec minScore g).1 it).1
          = (((cov.GetBestCovisibilityKeyFrames it.2 10).filter
              (fun p => decide (p ∈ g.2) &&
                decide ((g.1 p).mnLoopWords > loopMinCommonWords g))).map
              (fun p => score (heap pKF).mBowVec (heap p).mBowVec)).foldl floatAdd it.1 ∧
        ((loopGroupOf cov (heap pKF).mnId (loopMinCommonWords g)
            (loopScored score (heap pKF).mBowVec minScore g).1 it).2 = it.2 ∨
          (loopGroupOf cov (heap pKF).mnId (loopMinCommonWords g)
            (loopScored score (heap pKF).mBowVec minScore g).1 it).2
            ∈ (cov.GetBestCovisibilityKeyFrames it.2 10).filter
              (fun p => decide (p ∈ g.2) &&
                decide ((g.1 p).mnLoopWords > loopMinCommonWords g)))) ∧
    (∃ g, topoGather db.mvInvertedFile (topo.GetConnectedKeyFrames (heap pKF).mnId)
          (heap pKF).mBowVec (fun _ => none, []) = some g ∧
      DetectLoopCandidatesInTopoMap score topo db heap pKF minScore
        = some ⟨selectLoop (floatMul34 (bestAccScoreLoop minScore
              ((topoScored score topo (heap pKF).mBowVec minScore g).2.map
                (topoGroupOf topo (topoMinCommonWords g) g.1
                  (topoScored score topo (heap pKF).mBowVec minScore g).1))))
            ((topoScored score topo (heap pKF).mBowVec minScore g).2.map
              (topoGroupOf topo (topoMinCommonWords g) g.1
                (topoScored score topo (heap pKF).mBowVec minScore g).1)), db, heap⟩ ∧
      ∀ it ∈ (topoScored score topo (heap pKF).mBowVec minScore g).2,
        it.2 ∈ g.2 ∧ (g.1 it.2).getD 0 > topoMinCommonWords g ∧
        it.1 = score (heap pKF).mBowVec (topo.getKeyFrameBowVector it.2) ∧
        it.1 ≥ minScore ∧
        (topoGroupOf topo (topoMinCommonWords g) g.1
            (topoScored score topo (heap pKF).mBowVec minScore g).1 it).1
          = (((topo.GetBestCovisibilityKeyFrames it.2 10).filter
              (fun id => decide (id ∈ g.2) &&
                decide ((g.1 id).getD 0 > topoMinCommonWords g))).map
              (fun id => score (heap pKF).mBowVec (topo.getKeyFrameBowVector id))).foldl
                floatAdd it.1 ∧
        ((topoGroupOf topo (topoMinCommonWords g) g.1
            (topoScored score topo (heap pKF).mBowVec minScore g).1 it).2 = it.2 ∨
          (topoGroupOf topo (topoMinCommonWords g) g.1
            (topoScored score topo (heap pKF).mBowVec minScore g).1 it).2
            ∈ (topo.GetBestCovisibilityKeyFrames it.2 10).filter
              (fun id => decide (id ∈ g.2) &&
                decide ((g.1 id).getD 0 > topoMinCommonWords g)))) := by
  have hgL := loopGather_eq_fold db.mvInvertedFile (heap pKF).mnId
    (cov.GetConnectedKeyFrames pKF) (heap pKF).mBowVec (heap, []) hrange
  have hgT := topoGather_eq_fold db.mvInvertedFile (topo.GetConnectedKeyFrames (heap pKF).mnId)
    (heap pKF).mBowVec (fun _ => none, []) hrange
  refine ⟨⟨_, hgL, DetectLoopCandidates_eq_of_gather score cov db heap pKF minScore _ hgL, ?_⟩,
    ⟨_, hgT, DetectLoopCandidatesInTopoMap_eq_of_gather score topo db heap pKF minScore _ hgT,
      ?_⟩⟩
  · intro it hit
    exact loopGroupOf_spec score cov heap (heap pKF).mnId (cov.GetConnectedKeyFrames pKF)
      (heap pKF).mBowVec minScore hfresh _ _ rfl it hit
  · intro it hit
    exact topoGroupOf_spec score topo (topo.GetConnectedKeyFrames (heap pKF).mnId)
      (heap pKF).mBowVec minScore _ _ rfl it hit

/-- Claim C20 as amended, at the threshold example: the hypotheses hold there, and
the entry for `A` has as `groupScore` its score 1/2 to which the score 3/8 of
its gathered neighbour `N` is added. -/
theorem loop_group_score_counts_gathered_neighbours_witness :
    (∀ w ∈ (thresholdHeap 9).mBowVec.words, w < thresholdDb.mvInvertedFile.length) ∧
    (∀ p, (thresholdHeap p).mnLoopQuery ≠ (thresholdHeap 9).mnId) ∧
    ∃ g, loopGather thresholdDb.mvInvertedFile (thresholdHeap 9).mnId
          (thresholdCov.GetConnectedKeyFrames 9) (thresholdHeap 9).mBowVec
          (thresholdHeap, []) = some g ∧
      (∀ it ∈ (loopScored sampleScore (thresholdHeap 9).mBowVec (1 / 2) g).2,
        (loopGroupOf thresholdCov (thresholdHeap 9).mnId (loopMinCommonWords g)
            (loopScored sampleScore (thresholdHeap 9).mBowVec (1 / 2) g).1 it).1
          = (((thresholdCov.GetBestCovisibilityKeyFrames it.2 10).filter
              (fun p => decide (p ∈ g.2) &&
                decide ((g.1 p).mnLoopWords > loopMinCommonWords g))).map
              (fun p => sampleScore (thresholdHeap 9).mBowVec
                (thresholdHeap p).mBowVec)).foldl floatAdd it.1) ∧
      (loopScored sampleScore (thresholdHeap 9).mBowVec (1 / 2) g).2
        = [(1 / 2, 1), (5 / 8, 2), (5 / 8, 3)] ∧
      (loopGroupOf thresholdCov (thresholdHeap 9).mnId (loopMinCommonWords g)
        (loopScored sampleScore (thresholdHeap 9).mBowVec (1 / 2) g).1 (1 / 2, 1)).1
        = floatAdd (1 / 2) (3 / 8) := by
  refine ⟨by decide, thresholdHeap_untagged 109 (by decide), ?_⟩
  obtain ⟨g, hg, _, h⟩ :=
    (loop_group_score_counts_gathered_neighbours sampleScore thresholdCov connectedTopo
      thresholdDb thresholdHeap 9 (1 / 2) (by decide)
      (thresholdHeap_untagged 109 (by decide))).1
  have hg' := loopGather_eq_fold thresholdDb.mvInvertedFile (thresholdHeap 9).mnId
    (thresholdCov.GetConnectedKeyFrames 9) (thresholdHeap 9).mBowVec (thresholdHeap, [])
    (by decide)
  have e : g = _ := Option.some.inj (hg.symm.trans hg')
  refine ⟨g, hg, fun it hit => (h it hit).2.2.2.2.1, ?_, ?_⟩
  · rw [e]; decide!
  · rw [e]; decide!

/-- Claim C20 as stated fails.  At the threshold example with `minScore = 1/2` the
neighbour `N` of `A` is gathered and passes the word-overlap filter but scores
3/8, below `minScore`, so it is not in `lScoreAndMatch`; the pair emitted for
`A` is nevertheless `(1/2 + 3/8, A)` (the sum is exact in binary32), and with
it the call returns `[A]` only. -/
theorem loop_group_counts_neighbour_below_minScore :
    ∃ g o,
      loopGather thresholdDb.mvInvertedFile (thresholdHeap 9).mnId
        (thresholdCov.GetConnectedKeyFrames 9) (thresholdHeap 9).mBowVec (thresholdHeap, [])
        = some g ∧
      DetectLoopCandidates sampleScore thresholdCov thresholdDb thresholdHeap 9 (1 / 2)
        = some o ∧
      g.2 = [1, 4, 2, 3] ∧ loopMinCommonWords g = 0 ∧ (g.1 4).mnLoopWords = 1 ∧
      (loopScored sampleScore (thresholdHeap 9).mBowVec (1 / 2) g).2
        = [(1 / 2, 1), (5 / 8, 2), (5 / 8, 3)] ∧
      thresholdCov.GetBestCovisibilityKeyFrames 1 10 = [4] ∧
      sampleScore (thresholdHeap 9).mBowVec (thresholdHeap 4).mBowVec = 3 / 8 ∧
      (3 / 8 : ℚ) < 1 / 2 ∧
      loopGroupOf thresholdCov (thresholdHeap 9).mnId (loopMinCommonWords g)
        (loopScored sampleScore (thresholdHeap 9).mBowVec (1 / 2) g).1 (1 / 2, 1)
        = (7 / 8, 1) ∧
      o.ret = [1] := by
  have h : (DetectLoopCandidates sampleScore thresholdCov thresholdDb thresholdHeap 9
      (1 / 2)).map (fun o => o.ret) = some [1] := by decide!
  obtain ⟨o, ho, hr⟩ := Option.map_eq_some'.1 h
  refine ⟨_, o, rfl, ho, ?_, ?_, ?_, ?_, ?_, ?_, ?_, ?_, hr⟩ <;> decide!

/-- Claim C21, amended (global threshold selection with the threshold the source
computes).  Each of the three detection calls returns; with `groups` the list
of `(groupScore, bestRepresentative)` pairs it emitted (empty at the early
returns), `bestAccScore` is the maximum of the seed (`minScore` for the two loop
variants, 0 for relocalization) and all group scores, and the returned list is
the list of representatives of the pairs whose `groupScore` is strictly greater
than the binary32 product `0.75f * bestAccScore` (the exact product rounded to
nearest), each at its first occurrence: it has no duplicates and holds exactly
the representatives of pairs strictly above that rounded threshold, so a pair
at the rounded threshold puts nothing in the result. -/
theorem global_threshold_selection (score : BowVector → BowVector → ℚ)
    (cov : Covisibility) (topo : TopoMap) (db : KeyFrameDatabase) (heap : Heap)
    (pKF : KFPtr) (F : Frame) (minScore : ℚ)
    (hrange : ∀ w ∈ (heap pKF).mBowVec.words, w < db.mvInvertedFile.length)
    (hF : ∀ w ∈ F.mBowVec.words, w < db.mvInvertedFile.length) :
    (∃ g o, loopGather db.mvInvertedFile (heap pKF).mnId (cov.GetConnectedKeyFrames pKF)
          (heap pKF).mBowVec (heap, []) = some g ∧
      DetectLoopCandidates score cov db heap pKF minScore = some o ∧
      bestAccScoreLoop minScore
          (loopGroups score cov (heap pKF).mnId (heap pKF).mBowVec minScore g)
        = specBestAccScore minScore
          (loopGroups score cov (heap pKF).mnId (heap pKF).mBowVec minScore g) ∧
      o.ret = roundedSelection minScore
        (loopGroups score cov (heap pKF).mnId (heap pKF).mBowVec minScore g) ∧
      o.ret.Nodup ∧
      ∀ x, x ∈ o.ret ↔
        ∃ gr ∈ loopGroups score cov (heap pKF).mnId (heap pKF).mBowVec minScore g,
          gr.2 = x ∧ gr.1 > floatMul34 (specBestAccScore minScore
            (loopGroups score cov (heap pKF).mnId (heap pKF).mBowVec minScore g))) ∧
    (∃ g o, topoGather db.mvInvertedFile (topo.GetConnectedKeyFrames (heap pKF).mnId)
          (heap pKF).mBowVec (fun _ => none, []) = some g ∧
      DetectLoopCandidatesInTopoMap score topo db heap pKF minScore = some o ∧
      bestAccScoreLoop minScore (topoGroups score topo (heap pKF).mBowVec minScore g)
        = specBestAccScore minScore (topoGroups score topo (heap pKF).mBowVec minScore g) ∧
      o.ret = roundedSelection minScore (topoGroups score topo (heap pKF).mBowVec minScore g) ∧
      o.ret.Nodup ∧
      ∀ x, x ∈ o.ret ↔
        ∃ gr ∈ topoGroups score topo (heap pKF).mBowVec minScore g,
          gr.2 = x ∧ gr.1 > floatMul34 (specBestAccScore minScore
            (topoGroups score topo (heap pKF).mBowVec minScore g))) ∧
    (∃ g o, relocGather db.mvInvertedFile F.mnId F.mBowVec (heap, []) = some g ∧
      DetectRelocalizationCandidates score cov db heap F = some o ∧
      bestAccScoreLoop 0 (relocGroups score cov F.mnId F.mBowVec g)
        = specBestAccScore 0 (relocGroups score cov F.mnId F.mBowVec g) ∧
      o.ret = roundedSelection 0 (relocGroups score cov F.mnId F.mBowVec g) ∧
      o.ret.Nodup ∧
      ∀ x, x ∈ o.ret ↔
        ∃ gr ∈ relocGroups score cov F.mnId F.mBowVec g,
          gr.2 = x ∧ gr.1 > floatMul34 (specBestAccScore 0
            (relocGroups score cov F.mnId F.mBowVec g))) := by
  refine ⟨?_, ?_, ?_⟩
  · obtain ⟨g, hg⟩ := loopGather_total db.mvInvertedFile (heap pKF).mnId
      (cov.GetConnectedKeyFrames pKF) (heap pKF).mBowVec (heap, []) hrange
    obtain ⟨o, ho, hret⟩ := DetectLoopCandidates_selection score cov db heap pKF minScore g hg
    obtain ⟨s1, s2, s3, s4, _⟩ := selectLoop_eq_spec minScore
      (loopGroups score cov (heap pKF).mnId (heap pKF).mBowVec minScore g)
    rw [s2] at hret
    exact ⟨g, o, hg, ho, s1, hret, hret ▸ s3, fun x => hret ▸ s4 x⟩
  · obtain ⟨g, hg⟩ := topoGather_total db.mvInvertedFile
      (topo.GetConnectedKeyFrames (heap pKF).mnId) (heap pKF).mBowVec (fun _ => none, []) hrange
    obtain ⟨o, ho, hret⟩ :=
      DetectLoopCandidatesInTopoMap_selection score topo db heap pKF minScore g hg
    obtain ⟨s1, s2, s3, s4, _⟩ := selectLoop_eq_spec minScore
      (topoGroups score topo (heap pKF).mBowVec minScore g)
    rw [s2] at hret
    exact ⟨g, o, hg, ho, s1, hret, hret ▸ s3, fun x => hret ▸ s4 x⟩
  · obtain ⟨g, hg⟩ := relocGather_total db.mvInvertedFile F.mnId F.mBowVec (heap, []) hF
    obtain ⟨o, ho, hret⟩ := DetectRelocalizationCandidates_selection score cov db heap F g hg
    obtain ⟨s1, s2, s3, s4, _⟩ := selectLoop_eq_spec 0
      (relocGroups score cov F.mnId F.mBowVec g)
    rw [s2] at hret
    exact ⟨g, o, hg, ho, s1, hret, hret ▸ s3, fun x => hret ▸ s4 x⟩

/-- Claim C21 as amended, at the boundary example: `A` scores 1 and `B` scores 3/4,
which is `0.75f * bestAccScore`; the returned list is the selection with the
rounded threshold, `[A]`. -/
theorem global_threshold_selection_witness :
    (∀ w ∈ (boundaryHeap 9).mBowVec.words, w < boundaryDb.mvInvertedFile.length) ∧
    (∀ w ∈ sampleFrame.mBowVec.words, w < boundaryDb.mvInvertedFile.length) ∧
    ∃ g o, loopGather boundaryDb.mvInvertedFile (boundaryHeap 9).mnId
          (sampleCov.GetConnectedKeyFrames 9) (boundaryHeap 9).mBowVec (boundaryHeap, [])
          = some g ∧
      DetectLoopCandidates sampleScore sampleCov boundaryDb boundaryHeap 9 (1 / 10) = some o ∧
      o.ret = roundedSelection (1 / 10)
        (loopGroups sampleScore sampleCov (boundaryHeap 9).mnId (boundaryHeap 9).mBowVec
          (1 / 10) g) ∧
      loopGroups sampleScore sampleCov (boundaryHeap 9).mnId (boundaryHeap 9).mBowVec
          (1 / 10) g = [(1, 1), (3 / 4, 2)] ∧
      o.ret = [1] := by
  refine ⟨by decide, by decide, ?_⟩
  obtain ⟨g, o, hg, ho, _, hret, _, _⟩ :=
    (global_threshold_selection sampleScore sampleCov connectedTopo boundaryDb boundaryHeap 9
      sampleFrame (1 / 10) (by decide) (by decide)).1
  have hg' : loopGather boundaryDb.mvInvertedFile (boundaryHeap 9).mnId
      (sampleCov.GetConnectedKeyFrames 9) (boundaryHeap 9).mBowVec (boundaryHeap, [])
      = some ((visitedPostings boundaryDb.mvInvertedFile (boundaryHeap 9).mBowVec).foldl
        (loopGatherStep (boundaryHeap 9).mnId (sampleCov.GetConnectedKeyFrames 9))
        (boundaryHeap, [])) :=
    loopGather_eq_fold _ _ _ _ _ (by decide)
  have hgr : loopGroups sampleScore sampleCov (boundaryHeap 9).mnId (boundaryHeap 9).mBowVec
      (1 / 10) g = [(1, 1), (3 / 4, 2)] := by
    have e : g = _ := Option.some.inj (hg.symm.trans hg')
    rw [e]
    decide!
  refine ⟨g, o, hg, ho, hret, hgr, ?_⟩
  rw [hret, hgr]
  decide!

/-- Claim C21 as stated fails.  At the rounding example the pairs are
`(1 + 2^-23, A)` and `(3/4 + 2^-23, B)`, so `bestAccScore = 1 + 2^-23` and the
score of `B` is strictly greater than the exact product `0.75 * bestAccScore`:
the selection of the claim is `[A, B]`.  The source compares with the binary32
product `0.75f * bestAccScore`, which rounds up to `3/4 + 2^-23`, the score of
`B` itself: the call returns `[A]`. -/
theorem exact_threshold_selection_counterexample :
    ∃ g o,
      loopGather boundaryDb.mvInvertedFile (roundingHeap 9).mnId
        (sampleCov.GetConnectedKeyFrames 9) (roundingHeap 9).mBowVec (roundingHeap, [])
        = some g ∧
      DetectLoopCandidates sampleScore sampleCov boundaryDb roundingHeap 9 (1 / 10)
        = some o ∧
      loopGroups sampleScore sampleCov (roundingHeap 9).mnId (roundingHeap 9).mBowVec
        (1 / 10) g = [(1 + 1 / 2 ^ 23, 1), (3 / 4 + 1 / 2 ^ 23, 2)] ∧
      specBestAccScore (1 / 10)
        (loopGroups sampleScore sampleCov (roundingHeap 9).mnId (roundingHeap 9).mBowVec
          (1 / 10) g) = 1 + 1 / 2 ^ 23 ∧
      (3 / 4 + 1 / 2 ^ 23 : ℚ) > (3 / 4 : ℚ) * (1 + 1 / 2 ^ 23) ∧
      floatMul34 (1 + 1 / 2 ^ 23) = 3 / 4 + 1 / 2 ^ 23 ∧
      specSelection (1 / 10)
        (loopGroups sampleScore sampleCov (roundingHeap 9).mnId (roundingHeap 9).mBowVec
          (1 / 10) g) = [1, 2] ∧
      o.ret = [1] ∧
      o.ret ≠ specSelection (1 / 10)
        (loopGroups sampleScore sampleCov (roundingHeap 9).mnId (roundingHeap 9).mBowVec
          (1 / 10) g) := by
  have h : (DetectLoopCandidates sampleScore sampleCov boundaryDb roundingHeap 9
      (1 / 10)).map (fun o => o.ret) = some [1] := by decide!
  obtain ⟨o, ho, hr⟩ := Option.map_eq_some'.1 h
  have h7 : specSelection (1 / 10)
      (loopGroups sampleScore sampleCov (roundingHeap 9).mnId (roundingHeap 9).mBowVec (1 / 10)
        ((visitedPostings boundaryDb.mvInvertedFile (roundingHeap 9).mBowVec).foldl
          (loopGatherStep (roundingHeap 9).mnId (sampleCov.GetConnectedKeyFrames 9))
          (roundingHeap, []))) = [1, 2] := by decide!
  refine ⟨_, o, loopGather_eq_fold _ _ _ _ _ (by decide), ho, ?_, ?_, ?_, ?_, h7, hr, ?_⟩
  · decide!
  · decide!
  · norm_num
  · decide!
  · rw [hr, h7]; decide

/-- Claim C23, amended (a surviving candidate guarantees a non-empty result).  Let
`minScore` be at least the smallest normal binary32 number `2^-126` and let the
scorer return non-negative binary32 values.  In `DetectLoopCandidates` and in
`DetectLoopCandidatesInTopoMap` the call returns; whenever a candidate is
gathered, a candidate with the count `maxCommonWords` exists and passes the
word-overlap filter; and, for `DetectLoopCandidates` provided every keyframe
that carries the tag of the query on entry holds a non-negative `mLoopScore`,
if some gathered candidate passes the filter with a score of at least
`minScore`, then `bestAccScore` is the group score of an emitted pair, that pair
is strictly above `0.75f * bestAccScore`, its representative is returned, and
the result is not empty.  Non-negative stored scores stay non-negative through
a `DetectLoopCandidates` call. -/
theorem surviving_candidate_gives_result (score : BowVector → BowVector → ℚ)
    (cov : Covisibility) (topo : TopoMap) (db : KeyFrameDatabase) (heap : Heap)
    (pKF : KFPtr) (minScore : ℚ)
    (hrange : ∀ w ∈ (heap pKF).mBowVec.words, w < db.mvInvertedFile.length)
    (hnormal : pow2 (-126) ≤ minScore) (hscore : ∀ a b, 0 ≤ score a b)
    (hfloat : ∀ a b, floatRound (score a b) = score a b) :
    (∃ g o, loopGather db.mvInvertedFile (heap pKF).mnId (cov.GetConnectedKeyFrames pKF)
          (heap pKF).mBowVec (heap, []) = some g ∧
      DetectLoopCandidates score cov db heap pKF minScore = some o ∧
      (g.2 ≠ [] → ∃ p ∈ g.2,
        (g.1 p).mnLoopWords = maxCommonWordsLoop (fun p => (g.1 p).mnLoopWords) g.2 ∧
        (g.1 p).mnLoopWords > loopMinCommonWords g) ∧
      ((∀ p, (heap p).mnLoopQuery = (heap pKF).mnId → 0 ≤ (heap p).mLoopScore) →
        (∃ p ∈ g.2, (g.1 p).mnLoopWords > loopMinCommonWords g ∧
          score (heap pKF).mBowVec (heap p).mBowVec ≥ minScore) →
        o.ret ≠ [] ∧
        ∃ gr ∈ loopGroups score cov (heap pKF).mnId (heap pKF).mBowVec minScore g,
          gr.1 = bestAccScoreLoop minScore
            (loopGroups score cov (heap pKF).mnId (heap pKF).mBowVec minScore g) ∧
          gr.1 > floatMul34 (bestAccScoreLoop minScore
            (loopGroups score cov (heap pKF).mnId (heap pKF).mBowVec minScore g)) ∧
          gr.2 ∈ o.ret) ∧
      ((∀ p, 0 ≤ (heap p).mLoopScore) → ∀ p, 0 ≤ (o.heap p).mLoopScore)) ∧
    (∃ g o, topoGather db.mvInvertedFile (topo.GetConnectedKeyFrames (heap pKF).mnId)
          (heap pKF).mBowVec (fun _ => none, []) = some g ∧
      DetectLoopCandidatesInTopoMap score topo db heap pKF minScore = some o ∧
      (g.2 ≠ [] → ∃ id ∈ g.2,
        (g.1 id).getD 0 = maxCommonWordsLoop (fun id => (g.1 id).getD 0) g.2 ∧
        (g.1 id).getD 0 > topoMinCommonWords g) ∧
      ((∃ id ∈ g.2, (g.1 id).getD 0 > topoMinCommonWords g ∧
          score (heap pKF).mBowVec (topo.getKeyFrameBowVector id) ≥ minScore) →
        o.ret ≠ [] ∧
        ∃ gr ∈ topoGroups score topo (heap pKF).mBowVec minScore g,
          gr.1 = bestAccScoreLoop minScore
            (topoGroups score topo (heap pKF).mBowVec minScore g) ∧
          gr.1 > floatMul34 (bestAccScoreLoop minScore
            (topoGroups score topo (heap pKF).mBowVec minScore g)) ∧
          gr.2 ∈ o.ret)) := by
  refine ⟨?_, ?_⟩
  · have hg := loopGather_eq_fold db.mvInvertedFile (heap pKF).mnId
      (cov.GetConnectedKeyFrames pKF) (heap pKF).mBowVec (heap, []) hrange
    obtain ⟨o, ho, hret⟩ := DetectLoopCandidates_selection score cov db heap pKF minScore _ hg
    obtain ⟨o', ho', hoh'⟩ := DetectLoopCandidates_heap score cov db heap pKF minScore _ hg
    have hoh : o.heap = _ := (Option.some.inj (ho'.symm.trans ho)) ▸ hoh'
    refine ⟨_, o, hg, ho, ?_⟩
    have inv := loopGatherFold_stale (heap pKF).mnId (cov.GetConnectedKeyFrames pKF) heap
      (visitedPostings db.mvInvertedFile (heap pKF).mBowVec) (heap, [])
      ⟨fun _ => rfl, fun p h => Or.inr h, fun p hp => absurd hp (List.not_mem_nil p)⟩
    have hframe := loopGatherFold_frame (heap pKF).mnId (cov.GetConnectedKeyFrames pKF)
      (visitedPostings db.mvInvertedFile (heap pKF).mBowVec) (heap, [])
    generalize (visitedPostings db.mvInvertedFile (heap pKF).mBowVec).foldl
      (loopGatherStep (heap pKF).mnId (cov.GetConnectedKeyFrames pKF)) (heap, []) = g
      at hret inv hframe hoh ⊢
    obtain ⟨i1, i2, i3⟩ := inv
    refine ⟨?_, ?_, ?_⟩
    · intro hne
      exact maxCommon_passes_filter (fun p => (g.1 p).mnLoopWords) g.2 hne
        (fun p hp => (i3 p hp).2)
    · intro hstored ⟨p, hp, hw, hs⟩
      have hsnd := loopScoreFold_snd score (heap pKF).mBowVec minScore (loopMinCommonWords g)
        g.1 g.2 (g.1, []) (fun p => ⟨rfl, rfl⟩)
      rw [List.nil_append] at hsnd
      have hmem : (score (heap pKF).mBowVec (g.1 p).mBowVec, p)
          ∈ (loopScored score (heap pKF).mBowVec minScore g).2 := by
        unfold loopScored
        rw [hsnd]
        simp only [List.mem_filter, List.mem_map, decide_eq_true_eq]
        refine ⟨⟨p, ⟨hp, hw⟩, rfl⟩, ?_⟩
        rw [(hframe p).2.1]
        exact hs
      have hne : loopGroups score cov (heap pKF).mnId (heap pKF).mBowVec minScore g ≠ [] := by
        unfold loopGroups
        intro h
        rw [List.map_eq_nil_iff] at h
        rw [h] at hmem
        exact List.not_mem_nil _ hmem
      have hge : ∀ gr ∈ loopGroups score cov (heap pKF).mnId (heap pKF).mBowVec minScore g,
          minScore ≤ gr.1 := by
        intro gr hgr
        unfold loopGroups at hgr
        obtain ⟨it, hit, e⟩ := List.mem_map.1 hgr
        have hit1 : minScore ≤ it.1 := by
          unfold loopScored at hit
          rw [hsnd] at hit
          simp only [List.mem_filter, decide_eq_true_eq] at hit
          exact hit.2
        have hitf : floatRound it.1 = it.1 ∧ 0 ≤ it.1 := by
          unfold loopScored at hit
          rw [hsnd] at hit
          simp only [List.mem_filter, List.mem_map, decide_eq_true_eq] at hit
          obtain ⟨⟨p', _, e'⟩, _⟩ := hit
          rw [← e']
          exact ⟨hfloat _ _, hscore _ _⟩
        rw [← e]
        refine le_trans hit1 ?_
        unfold loopGroupOf
        apply groupOf_ge _ _ _ _ hitf.2 hitf.1
        intro q hc
        simp only [Bool.and_eq_true, decide_eq_true_eq] at hc
        unfold loopScored at hc ⊢
        rw [(loopScoreFold_fields _ _ _ _ _ _ q).1, (loopScoreFold_fields _ _ _ _ _ _ q).2.1]
          at hc
        rw [loopScoreFold_score score (heap pKF).mBowVec minScore (loopMinCommonWords g) g.1
          g.2 (g.1, []) (fun p => ⟨rfl, rfl⟩) q]
        split
        · exact hscore _ _
        · next hn =>
          have hq : q ∉ g.2 := fun h => hn ⟨h, hc.2⟩
          rcases i2 q hc.1 with h1 | h1
          · exact absurd h1 hq
          · rw [i1 q]; exact hstored q h1
      obtain ⟨gr, hgr, e1, e2, e3⟩ := selectLoop_best_returned minScore _ hne hnormal hge
      rw [← hret] at e3
      exact ⟨List.ne_nil_of_mem e3, gr, hgr, e1, e2, e3⟩
    · intro hall q
      rw [hoh]
      unfold loopScored
      rw [loopScoreFold_score score (heap pKF).mBowVec minScore (loopMinCommonWords g) g.1
        g.2 (g.1, []) (fun p => ⟨rfl, rfl⟩) q]
      split
      · exact hscore _ _
      · rw [i1 q]; exact hall q
  · have hg := topoGather_eq_fold db.mvInvertedFile
      (topo.GetConnectedKeyFrames (heap pKF).mnId) (heap pKF).mBowVec (fun _ => none, []) hrange
    obtain ⟨o, ho, hret⟩ :=
      DetectLoopCandidatesInTopoMap_selection score topo db heap pKF minScore _ hg
    refine ⟨_, o, hg, ho, ?_⟩
    obtain ⟨g1, g2⟩ := topoGatherFold_spec (topo.GetConnectedKeyFrames (heap pKF).mnId)
      (visitedPostings db.mvInvertedFile (heap pKF).mBowVec)
    generalize (visitedPostings db.mvInvertedFile (heap pKF).mBowVec).foldl
      (topoGatherStep (topo.GetConnectedKeyFrames (heap pKF).mnId)) (fun _ => none, []) = g
      at hret g1 g2 ⊢
    obtain ⟨s1, s2⟩ := topoScoreFold_spec score topo (heap pKF).mBowVec minScore g.1
      (topoMinCommonWords g) g.2 (fun _ => none, [])
    rw [List.nil_append] at s1
    refine ⟨?_, ?_⟩
    · intro hne
      apply maxCommon_passes_filter (fun id => (g.1 id).getD 0) g.2 hne
      intro id hid
      rw [g2 id, if_pos hid]
      have hmem : id ∈ postingIds (visitedPostings db.mvInvertedFile (heap pKF).mBowVec) := by
        rw [g1, mem_firstOccurrences] at hid
        exact (List.mem_filter.1 hid).1
      have := List.count_pos_iff.2 hmem
      simp only [Option.getD_some]
      exact_mod_cast this
    · rintro ⟨p, hp, hw, hs⟩
      have hmem : (score (heap pKF).mBowVec (topo.getKeyFrameBowVector p), p)
          ∈ (topoScored score topo (heap pKF).mBowVec minScore g).2 := by
        unfold topoScored
        rw [s1]
        simp only [List.mem_filter, List.mem_map, decide_eq_true_eq]
        exact ⟨⟨p, ⟨hp, hw⟩, rfl⟩, hs⟩
      have hne : topoGroups score topo (heap pKF).mBowVec minScore g ≠ [] := by
        unfold topoGroups
        intro h
        rw [List.map_eq_nil_iff] at h
        rw [h] at hmem
        exact List.not_mem_nil _ hmem
      have hge : ∀ gr ∈ topoGroups score topo (heap pKF).mBowVec minScore g,
          minScore ≤ gr.1 := by
        intro gr hgr
        unfold topoGroups at hgr
        obtain ⟨it, hit, e⟩ := List.mem_map.1 hgr
        have hit1 : minScore ≤ it.1 := by
          unfold topoScored at hit
          rw [s1] at hit
          simp only [List.mem_filter, decide_eq_true_eq] at hit
          exact hit.2
        have hitf : floatRound it.1 = it.1 ∧ 0 ≤ it.1 := by
          unfold topoScored at hit
          rw [s1] at hit
          simp only [List.mem_filter, List.mem_map, decide_eq_true_eq] at hit
          obtain ⟨⟨p', _, e'⟩, _⟩ := hit
          rw [← e']
          exact ⟨hfloat _ _, hscore _ _⟩
        rw [← e]
        refine le_trans hit1 ?_
        unfold topoGroupOf
        apply groupOf_ge _ _ _ _ hitf.2 hitf.1
        intro q _
        unfold topoScored
        rw [s2 q]
        split
        · exact hscore _ _
        · exact le_refl _
      obtain ⟨gr, hgr, e1, e2, e3⟩ := selectLoop_best_returned minScore _ hne hnormal hge
      rw [← hret] at e3
      exact ⟨List.ne_nil_of_mem e3, gr, hgr, e1, e2, e3⟩

/-- Claim C23 as amended, at the running example with the constant scorer 1 and
`minScore = 1/10`: the preconditions hold and the result of
`DetectLoopCandidates` is not empty. -/
theorem surviving_candidate_gives_result_witness :
    (∀ w ∈ (sampleHeap 9).mBowVec.words, w < sampleDb.mvInvertedFile.length) ∧
    pow2 (-126) ≤ 1 / 10 ∧
    (∀ a b, floatRound (unitScore a b) = unitScore a b) ∧
    ∃ o, DetectLoopCandidates unitScore sampleCov sampleDb sampleHeap 9 (1 / 10)
        = some o ∧ o.ret ≠ [] := by
  have hf : ∀ a b, floatRound (unitScore a b) = unitScore a b := by
    intro a b
    show floatRound 1 = 1
    decide!
  refine ⟨by decide, by decide!, hf, ?_⟩
  obtain ⟨g, o, hg, ho, _, hmain, _⟩ :=
    (surviving_candidate_gives_result unitScore sampleCov connectedTopo sampleDb
      sampleHeap 9 (1 / 10) (by decide) (by decide!) (fun _ _ => zero_le_one) hf).1
  have hg' : loopGather sampleDb.mvInvertedFile (sampleHeap 9).mnId
      (sampleCov.GetConnectedKeyFrames 9) (sampleHeap 9).mBowVec (sampleHeap, [])
      = some ((visitedPostings sampleDb.mvInvertedFile (sampleHeap 9).mBowVec).foldl
        (loopGatherStep (sampleHeap 9).mnId (sampleCov.GetConnectedKeyFrames 9))
        (sampleHeap, [])) :=
    loopGather_eq_fold _ _ _ _ _ (by decide)
  have e : g = _ := Option.some.inj (hg.symm.trans hg')
  refine ⟨o, ho, (hmain ?_ ?_).1⟩
  · intro p _
    unfold sampleHeap
    split_ifs <;> exact le_refl _
  · rw [e]
    exact ⟨1, by decide!, by decide!, by decide!⟩

/-- Claim C23 as stated fails.  With `minScore = 1/10 > 0` and the constant scorer
1, the candidate `A` is gathered, passes the word-overlap filter and scores
1 ≥ `minScore`.  Its neighbour `N` enters the call carrying the tag of the query
and the stored score -10: it passes the test of the accumulation loop, the pair
emitted for `A` is `(1 - 10, A)`, `bestAccScore` stays at the seed 1/10, no pair
is above `0.75f * bestAccScore` and the call returns the empty vector. -/
theorem stale_negative_score_counterexample :
    ∃ g o,
      loopGather staleDb.mvInvertedFile (staleHeap 9).mnId
        (thresholdCov.GetConnectedKeyFrames 9) (staleHeap 9).mBowVec (staleHeap, [])
        = some g ∧
      DetectLoopCandidates unitScore thresholdCov staleDb staleHeap 9 (1 / 10) = some o ∧
      (0 : ℚ) < 1 / 10 ∧ (∀ a b, 0 ≤ unitScore a b) ∧
      g.2 = [1] ∧ (g.1 1).mnLoopWords > loopMinCommonWords g ∧
      unitScore (staleHeap 9).mBowVec (staleHeap 1).mBowVec ≥ 1 / 10 ∧
      (loopScored unitScore (staleHeap 9).mBowVec (1 / 10) g).2 = [(1, 1)] ∧
      loopGroups unitScore thresholdCov (staleHeap 9).mnId (staleHeap 9).mBowVec (1 / 10) g
        = [(-9, 1)] ∧
      bestAccScoreLoop (1 / 10)
        (loopGroups unitScore thresholdCov (staleHeap 9).mnId (staleHeap 9).mBowVec
          (1 / 10) g) = 1 / 10 ∧
      o.ret = [] := by
  have h : (DetectLoopCandidates unitScore thresholdCov staleDb staleHeap 9
      (1 / 10)).map (fun o => o.ret) = some [] := by decide!
  obtain ⟨o, ho, hr⟩ := Option.map_eq_some'.1 h
  refine ⟨_, o, loopGather_eq_fold _ _ _ _ _ (by decide), ho, by norm_num,
    fun _ _ => zero_le_one, ?_, ?_, ?_, ?_, ?_, ?_, hr⟩ <;> decide!

/-- Below the normal range the positivity of `minScore` is not enough: with the
score and `minScore` both `2^-149`, the product `0.75f * bestAccScore` rounds
back to `2^-149`, the only pair is not above it and the call returns the empty
vector. -/
theorem subnormal_score_gives_empty_result :
    floatMul34 (1 / 2 ^ 149) = 1 / 2 ^ 149 ∧
    sampleScore (tinyHeap 9).mBowVec (tinyHeap 1).mBowVec = 1 / 2 ^ 149 ∧
    (DetectLoopCandidates sampleScore sampleCov staleDb tinyHeap 9 (1 / 2 ^ 149)).map
      (fun o => o.ret) = some [] := by
  refine ⟨?_, ?_, ?_⟩ <;> decide!

/-- The binary32 operations on sample values: 1/3 and 4/5 round to the `float`
constants `0x3eaaaaab` and `0x3f4ccccd`; adding `2^-24` to 1 twice leaves 1
(each sum is a tie that rounds to even); `0.75f * (1 + 2^-23)` is a tie that
rounds up to `3/4 + 2^-23`; sums and products that are representable are
exact. -/
theorem floatRound_examples :
    floatRound (1 / 3) = 11184811 / 33554432 ∧
    floatRound (4 / 5) = 13421773 / 16777216 ∧
    floatAdd (floatAdd 1 (1 / 2 ^ 24)) (1 / 2 ^ 24) = 1 ∧
    floatAdd 1 (1 / 2 ^ 23) = 1 + 1 / 2 ^ 23 ∧
    floatMul34 (1 + 1 / 2 ^ 23) = 3 / 4 + 1 / 2 ^ 23 ∧
    floatAdd (1 / 2) (3 / 8) = 7 / 8 ∧
    floatAdd 1 (-10) = -9 ∧
    floatMul34 1 = 3 / 4 := by
  refine ⟨?_, ?_, ?_, ?_, ?_, ?_, ?_, ?_⟩ <;> decide!

end ORB_SLAM2
